import Mathlib

/-!
Shallow embedding of the TriliumDev synchronization core
(`src/TriliumDev/{TriliumAttribute,TriliumNoteShort,Diff,Pull,LocalFilesystem,Activities,Constants}.py`)
together with theorems settling the claims of the specification.

Conventions:
* Python `dict`s preserving insertion order are modelled as association
  lists `List (String × _)`; `dict.get` is `List.lookup`.
* Python `set`s are modelled as `List String` with membership tests; the
  iteration order of a set (unspecified in the spec) is the list order.
* Python `assert` failures and raised exceptions are modelled as
  `Except.error` outcomes carrying the message.
* Byte strings are `List Nat`.
-/

namespace TriliumDev

/-- `TriliumAttribute` (TriliumAttribute.py): one typed metadata value
attached to a note.  `value` is an optional scalar. -/
structure TriliumAttribute where
  id : String
  attr_type : String
  name : String
  value : Option String
  position : Int
  is_inheritable : Bool
deriving DecidableEq, Repr

/-- `TriliumNoteShort` (TriliumNoteShort.py): a DAG node with identity,
content descriptor, attributes and named child edges.  `children` is the
insertion-ordered dict from link name to child note. -/
inductive TriliumNoteShort : Type where
  | mk
      (id : String)
      (note_type : String)
      (mime_type : String)
      (parent_ids : List String)
      (attributes : List TriliumAttribute)
      (content_hash : Option String)
      (children : List (String × TriliumNoteShort))
deriving Repr

namespace TriliumNoteShort

def id : TriliumNoteShort → String
  | .mk i _ _ _ _ _ _ => i

def note_type : TriliumNoteShort → String
  | .mk _ t _ _ _ _ _ => t

def mime_type : TriliumNoteShort → String
  | .mk _ _ m _ _ _ _ => m

def parent_ids : TriliumNoteShort → List String
  | .mk _ _ _ p _ _ _ => p

def attributes : TriliumNoteShort → List TriliumAttribute
  | .mk _ _ _ _ a _ _ => a

def content_hash : TriliumNoteShort → Option String
  | .mk _ _ _ _ _ h _ => h

def children : TriliumNoteShort → List (String × TriliumNoteShort)
  | .mk _ _ _ _ _ _ c => c

/-- `TriliumNoteShort.IsTemporaryId` (TriliumNoteShort.py). -/
def IsTemporaryId (note_id : String) : Bool :=
  "__".isPrefixOf note_id && "__".data.isSuffixOf note_id.data && note_id.length ≥ 5

end TriliumNoteShort

mutual

/-- Size of a note tree, used as recursion fuel for functions that are
unbounded recursions in the Python source. -/
def nodeSize : TriliumNoteShort → Nat
  | .mk _ _ _ _ _ _ children => 1 + childrenSize children

/-- Total size of the note trees in a children map. -/
def childrenSize : List (String × TriliumNoteShort) → Nat
  | [] => 0
  | (_, c) :: rest => nodeSize c + childrenSize rest

end

/-- `DiffType` (Diff.py): the taxonomy of diff kinds. -/
inductive DiffType where
  | content_type_changed
  | parent_id_added
  | parent_id_removed
  | attribute_added
  | attribute_removed
  | attribute_changed
  | content_changed
  | child_added
  | child_removed
  | child_changed
  | child_link_changed
deriving DecidableEq, Repr

/-- The `context` union of `DiffInfo` (Diff.py). -/
inductive DiffContext where
  | none
  | parentId (s : String)
  | attr (a : TriliumAttribute)
  | child (link : String) (n : TriliumNoteShort)
deriving Repr

/-- `DiffInfo` (Diff.py): one typed difference event. -/
structure DiffInfo where
  diff_type : DiffType
  reference : TriliumNoteShort
  actual : TriliumNoteShort
  context : DiffContext
deriving Repr

/-- The "Content" section of `_EnumDifferencesImpl` (Diff.py lines 235-240):
`if actual.note_type: if mime differs: content_type_changed elif hash differs:
content_changed`.  Python truthiness of `actual.note_type` is the
non-emptiness test. -/
def contentDiffs (reference actual : TriliumNoteShort) : List DiffInfo :=
  if actual.note_type ≠ "" then
    if actual.mime_type ≠ reference.mime_type then
      [⟨.content_type_changed, reference, actual, .none⟩]
    else if actual.content_hash ≠ reference.content_hash then
      [⟨.content_changed, reference, actual, .none⟩]
    else []
  else []

/-- The "Parent Ids" section of `_EnumDifferencesImpl` (Diff.py lines 242-250).
The Python `set` difference is modelled by deduplicating the list and
filtering; the iteration order of a Python set is unspecified and is
modelled as first-occurrence order. -/
def parentIdDiffs (reference actual : TriliumNoteShort) : List DiffInfo :=
  ((actual.parent_ids.dedup.filter
      (fun p => !(reference.parent_ids.contains p))).map
    (fun p => ⟨.parent_id_added, reference, actual, .parentId p⟩))
  ++ ((reference.parent_ids.dedup.filter
      (fun p => !(actual.parent_ids.contains p))).map
    (fun p => ⟨.parent_id_removed, reference, actual, .parentId p⟩))

/-- Builds the Python dict `{attribute.id: attribute for attribute in attrs}`:
key order is first-occurrence order, the value for a repeated key is the last
one. -/
def attrDict (attrs : List TriliumAttribute) : List (String × TriliumAttribute) :=
  attrs.foldl
    (fun m attr =>
      if m.any (fun p => p.1 == attr.id) then
        m.map (fun p => if p.1 == attr.id then (p.1, attr) else p)
      else
        m ++ [(attr.id, attr)])
    []

/-- The "Attributes" section of `_EnumDifferencesImpl` (Diff.py lines 252-268). -/
def attributeDiffs (reference actual : TriliumNoteShort) : List DiffInfo :=
  let actual_attributes := attrDict actual.attributes
  let reference_attributes := attrDict reference.attributes
  (actual_attributes.flatMap
    (fun p =>
      match reference_attributes.lookup p.1 with
      | Option.none => [⟨.attribute_added, reference, actual, .attr p.2⟩]
      | Option.some reference_attribute =>
        if p.2 ≠ reference_attribute then
          [⟨.attribute_changed, reference, actual, .attr p.2⟩]
        else []))
  ++ ((reference_attributes.filter
        (fun p => !(actual_attributes.any (fun q => q.1 == p.1)))).map
      (fun p => ⟨.attribute_removed, reference, actual, .attr p.2⟩))

/-- The fallback search of the "Children" section (Diff.py lines 283-289):
find the first reference child entry whose note id matches `cid`. -/
def findChildById (childs : List (String × TriliumNoteShort)) (cid : String) :
    Option (String × TriliumNoteShort) :=
  match childs with
  | [] => Option.none
  | (l, c) :: rest => if c.id == cid then Option.some (l, c) else findChildById rest cid

/-- The loop over `actual.children.items()` of the "Children" section
(Diff.py lines 275-302).  Returns the `child_added` events yielded by the
loop, and either the matched `children_to_enumerate` queue together with the
remaining unmatched reference links, or the `KeyError` raised by
`unmatched_reference_child_links.remove` (which aborts the generator). -/
def scanChildren (reference : TriliumNoteShort)
    (actualChildren : List (String × TriliumNoteShort))
    (unmatched : List (String × TriliumNoteShort)) (ra : TriliumNoteShort × TriliumNoteShort) :
    List DiffInfo ×
      Except String (List (TriliumNoteShort × TriliumNoteShort) × List (String × TriliumNoteShort)) :=
  match actualChildren with
  | [] => ([], .ok ([], unmatched))
  | (actual_child_link, actual_child) :: rest =>
    let matched :=
      match reference.children.lookup actual_child_link with
      | Option.some reference_child => Option.some (actual_child_link, reference_child)
      | Option.none => findChildById reference.children actual_child.id
    match matched with
    | Option.none =>
      let ev : DiffInfo := ⟨.child_added, ra.1, ra.2, .child actual_child_link actual_child⟩
      let (evs, res) := scanChildren reference rest unmatched ra
      (ev :: evs, res)
    | Option.some (reference_child_link, reference_child) =>
      if unmatched.any (fun p => p.1 == reference_child_link) then
        let unmatched' := unmatched.filter (fun p => !(p.1 == reference_child_link))
        let (evs, res) := scanChildren reference rest unmatched' ra
        match res with
        | .error e => (evs, .error e)
        | .ok (queue, remaining) => (evs, .ok ((reference_child, actual_child) :: queue, remaining))
    else
        ([], .error ("KeyError: " ++ reference_child_link))

/-- The final loop of `_EnumDifferencesImpl` (Diff.py lines 310-317):
`yield from` each matched `(reference_child, actual_child)` pair in turn,
threading the processed-id sets, stopping at the first exception. -/
def childFold
    (rec : TriliumNoteShort → TriliumNoteShort → List String → List String →
      List DiffInfo × Except String (List String × List String)) :
    List (TriliumNoteShort × TriliumNoteShort) → List String → List String →
    List DiffInfo × Except String (List String × List String)
  | [], rp, ap => ([], .ok (rp, ap))
  | p :: rest, rp, ap =>
    match rec p.1 p.2 rp ap with
    | (evs2, .error e) => (evs2, .error e)
    | (evs2, .ok (rp', ap')) =>
      let (evs3, res3) := childFold rec rest rp' ap'
      (evs2 ++ evs3, res3)

/-- `_EnumDifferencesImpl` (Diff.py lines 221-317).  The generator is
modelled as the list of yielded events together with either the final
processed-id sets or the exception that aborted it.  `fuel` bounds the
recursion depth, which is unbounded in Python; `nodeSize actual` always
suffices (the recursion descends into children of `actual`). -/
def enumDiffImpl : Nat → TriliumNoteShort → TriliumNoteShort → List String → List String →
    List DiffInfo × Except String (List String × List String)
  | 0, _, _, _, _ => ([], .error "RecursionError")
  | Nat.succ fuel, reference, actual, reference_processed, actual_processed =>
    if reference.id ∈ reference_processed then
      if actual.id ∈ actual_processed then
        ([], .ok (reference_processed, actual_processed))
      else
        ([], .error "AssertionError: actual.id in actual_processed")
    else
      let reference_processed := reference.id :: reference_processed
      let actual_processed := actual.id :: actual_processed
      let ownEvents :=
        contentDiffs reference actual ++ parentIdDiffs reference actual
          ++ attributeDiffs reference actual
      match scanChildren reference actual.children reference.children (reference, actual) with
      | (childAddedEvents, .error e) => (ownEvents ++ childAddedEvents, .error e)
      | (childAddedEvents, .ok (children_to_enumerate, unmatchedLinks)) =>
        let removedEvents := unmatchedLinks.map
          (fun p => (⟨.child_removed, reference, actual, .child p.1 p.2⟩ : DiffInfo))
        let recursed :=
          childFold (enumDiffImpl fuel) children_to_enumerate reference_processed actual_processed
        (ownEvents ++ childAddedEvents ++ removedEvents ++ recursed.1, recursed.2)

/-- `EnumDifferences` (Diff.py lines 210-215): the top-level entry point with
fresh processed sets.  `nodeSize actual` is enough fuel for the recursion,
which descends strictly into children of `actual`. -/
def EnumDifferences (reference actual : TriliumNoteShort) :
    List DiffInfo × Except String (List String × List String) :=
  enumDiffImpl (nodeSize actual) reference actual [] []

/-- A list of `(key, value)` pairs has pairwise distinct keys: the
representation invariant of a Python `dict` modelled as an association
list. -/
def nodupKeysB {α : Type} : List (String × α) → Bool
  | [] => true
  | (l, _) :: rest => !(rest.any (fun p => p.1 == l)) && nodupKeysB rest

mutual

/-- Well-formedness of a note tree: every `children` dict has pairwise
distinct link names (a Python dict cannot hold duplicate keys). -/
def wfNote : TriliumNoteShort → Bool
  | .mk _ _ _ _ _ _ cs => nodupKeysB cs && wfChildren cs

/-- Well-formedness of every note in a children map. -/
def wfChildren : List (String × TriliumNoteShort) → Bool
  | [] => true
  | (_, c) :: rest => wfNote c && wfChildren rest

end

/-! ### Basic facts about sizes, well-formedness and association lists -/

theorem nodeSize_pos (n : TriliumNoteShort) : 1 ≤ nodeSize n := by
  cases n with
  | mk i t m p a h c => simp [nodeSize]

theorem nodeSize_le_childrenSize {l : String} {c : TriliumNoteShort}
    {cs : List (String × TriliumNoteShort)} (h : (l, c) ∈ cs) :
    nodeSize c ≤ childrenSize cs := by
  induction cs with
  | nil => cases h
  | cons hd tl ih =>
    rcases hd with ⟨l', c'⟩
    rcases List.mem_cons.mp h with h | h
    · cases h
      simp [childrenSize]
    · have := ih h
      simp [childrenSize]
      omega

theorem nodeSize_lt_of_mem_children {l : String} {c : TriliumNoteShort}
    {n : TriliumNoteShort} (h : (l, c) ∈ n.children) :
    nodeSize c < nodeSize n := by
  cases n with
  | mk i t m p a hh cs =>
    simp only [TriliumNoteShort.children] at h
    have := nodeSize_le_childrenSize (c := c) (l := l) h
    simp [nodeSize]
    omega

/-- `nodupKeysB` is `Nodup` of the key list. -/
theorem nodupKeysB_iff {α : Type} (l : List (String × α)) :
    nodupKeysB l = true ↔ (l.map Prod.fst).Nodup := by
  induction l with
  | nil => simp [nodupKeysB]
  | cons hd tl ih =>
    rcases hd with ⟨k, v⟩
    simp only [nodupKeysB, Bool.and_eq_true, Bool.not_eq_true', List.any_eq_false,
      List.map_cons, List.nodup_cons, ih, List.mem_map]
    constructor
    · rintro ⟨h1, h2⟩
      refine ⟨?_, h2⟩
      rintro ⟨p, hp, hpk⟩
      exact (h1 p hp) (by rw [hpk]; exact beq_self_eq_true k)
    · rintro ⟨h1, h2⟩
      refine ⟨?_, h2⟩
      intro p hp hpk
      exact h1 ⟨p, hp, eq_of_beq hpk⟩

theorem wfNote_def (n : TriliumNoteShort) :
    wfNote n = (nodupKeysB n.children && wfChildren n.children) := by
  cases n with
  | mk i t m p a h c => rfl

theorem wfChildren_mem {l : String} {c : TriliumNoteShort}
    {cs : List (String × TriliumNoteShort)} (hwf : wfChildren cs = true)
    (h : (l, c) ∈ cs) : wfNote c = true := by
  induction cs with
  | nil => cases h
  | cons hd tl ih =>
    rcases hd with ⟨l', c'⟩
    simp [wfChildren] at hwf
    rcases List.mem_cons.mp h with h | h
    · cases h; exact hwf.1
    · exact ih hwf.2 h

theorem lookup_of_mem_nodupKeys {α : Type} {k : String} {v : α}
    {l : List (String × α)} (hnd : nodupKeysB l = true) (h : (k, v) ∈ l) :
    l.lookup k = some v := by
  induction l with
  | nil => cases h
  | cons hd tl ih =>
    rcases hd with ⟨k', v'⟩
    rw [nodupKeysB_iff] at hnd
    simp only [List.map_cons, List.nodup_cons, List.mem_map] at hnd
    rcases List.mem_cons.mp h with h | h
    · cases h
      simp [List.lookup]
    · have hne : (k == k') = false := by
        apply beq_eq_false_iff_ne.mpr
        intro he
        exact hnd.1 ⟨(k, v), h, he⟩
      rw [List.lookup_cons, hne]
      exact ih ((nodupKeysB_iff tl).mpr hnd.2) h

theorem filter_keys_ne {α : Type} {k : String} {l : List (String × α)}
    (h : ∀ p ∈ l, p.1 ≠ k) : l.filter (fun p => !(p.1 == k)) = l := by
  induction l with
  | nil => rfl
  | cons hd tl ih =>
    have hpos : (!(hd.1 == k)) = true := by
      simp only [Bool.not_eq_true', beq_eq_false_iff_ne, ne_eq]
      exact h hd (List.mem_cons_self _ _)
    simp only [List.filter_cons, hpos, if_true,
      ih (fun p hp => h p (List.mem_cons_of_mem _ hp))]

/-! ### Self-diff (claim C2) -/

theorem contentDiffs_self (n : TriliumNoteShort) : contentDiffs n n = [] := by
  simp [contentDiffs]

theorem parentIdDiffs_self (n : TriliumNoteShort) : parentIdDiffs n n = [] := by
  simp only [parentIdDiffs]
  have h : n.parent_ids.dedup.filter (fun p => !(n.parent_ids.contains p)) = [] := by
    apply List.filter_eq_nil_iff.mpr
    intro a ha
    have : a ∈ n.parent_ids := List.mem_dedup.mp ha
    simp [List.elem_iff, this]
  simp [h]

theorem map_replace_keys {α : Type} (m : List (String × α)) (kk : String) (a : α) :
    (m.map (fun p => if p.1 == kk then (p.1, a) else p)).map Prod.fst = m.map Prod.fst := by
  induction m with
  | nil => rfl
  | cons hd tl ih =>
    simp only [List.map_cons, ih]
    cases hb : (hd.1 == kk) <;> simp [hb]

theorem attrDict_keys_nodup (attrs : List TriliumAttribute) :
    nodupKeysB (attrDict attrs) = true := by
  rw [nodupKeysB_iff]
  have main : ∀ (l : List TriliumAttribute) (m : List (String × TriliumAttribute)),
      (m.map Prod.fst).Nodup → ((l.foldl
        (fun m attr =>
          if m.any (fun p => p.1 == attr.id) then
            m.map (fun p => if p.1 == attr.id then (p.1, attr) else p)
          else
            m ++ [(attr.id, attr)]) m).map Prod.fst).Nodup := by
    intro l
    induction l with
    | nil => intro m hm; exact hm
    | cons a tl ih =>
      intro m hm
      simp only [List.foldl_cons]
      apply ih
      by_cases hany : m.any (fun p => p.1 == a.id) = true
      · rw [if_pos hany, map_replace_keys]
        exact hm
      · rw [if_neg hany]
        have hnotin : a.id ∉ m.map Prod.fst := by
          intro hmem
          rcases List.mem_map.mp hmem with ⟨p, hp, hpk⟩
          exact hany (List.any_eq_true.mpr ⟨p, hp, by simp [hpk]⟩)
        simp only [List.map_append, List.map_cons, List.map_nil]
        rw [List.nodup_append]
        exact ⟨hm, List.nodup_singleton _, by
          simp only [List.disjoint_singleton]
          exact hnotin⟩
  exact main attrs [] (by simp)

theorem attributeDiffs_self (n : TriliumNoteShort) : attributeDiffs n n = [] := by
  simp only [attributeDiffs]
  have hnd := attrDict_keys_nodup n.attributes
  have h1 : (attrDict n.attributes).flatMap
      (fun p =>
        match (attrDict n.attributes).lookup p.1 with
        | Option.none => [(⟨.attribute_added, n, n, .attr p.2⟩ : DiffInfo)]
        | Option.some reference_attribute =>
          if p.2 ≠ reference_attribute then
            [(⟨.attribute_changed, n, n, .attr p.2⟩ : DiffInfo)]
          else []) = [] := by
    apply List.flatMap_eq_nil_iff.mpr
    intro p hp
    obtain ⟨k, v⟩ := p
    rw [lookup_of_mem_nodupKeys hnd hp]
    simp
  have h2 : (attrDict n.attributes).filter
      (fun p => !((attrDict n.attributes).any (fun q => q.1 == p.1))) = [] := by
    apply List.filter_eq_nil_iff.mpr
    intro p hp
    simp only [Bool.not_eq_true', Bool.not_eq_false]
    exact List.any_eq_true.mpr ⟨p, hp, by simp⟩
  rw [h1, h2]
  simp

theorem scanChildren_self (ref : TriliumNoteShort)
    (ra : TriliumNoteShort × TriliumNoteShort) :
    ∀ (cs : List (String × TriliumNoteShort)),
      (∀ l c, (l, c) ∈ cs → ref.children.lookup l = some c) →
      nodupKeysB cs = true →
      scanChildren ref cs cs ra = ([], .ok (cs.map (fun p => (p.2, p.2)), [])) := by
  intro cs
  -- generalize: the unmatched set is always the still-unscanned suffix
  suffices h : ∀ (todo unmatched : List (String × TriliumNoteShort)),
      (∀ l c, (l, c) ∈ todo → ref.children.lookup l = some c) →
      nodupKeysB todo = true → unmatched = todo →
      scanChildren ref todo unmatched ra
        = ([], .ok (todo.map (fun p => (p.2, p.2)), [])) by
    intro hlk hnd
    exact h cs cs hlk hnd rfl
  intro todo
  induction todo with
  | nil => intro unmatched _ _ he; subst he; rfl
  | cons hd tl ih =>
    rcases hd with ⟨l, c⟩
    intro unmatched hlk hnd he
    subst he
    have hl : ref.children.lookup l = some c := hlk l c (List.mem_cons_self _ _)
    rw [nodupKeysB_iff] at hnd
    simp only [List.map_cons, List.nodup_cons, List.mem_map] at hnd
    have hfil : tl.filter (fun p => !(p.1 == l)) = tl :=
      filter_keys_ne (fun p hp hpk => hnd.1 ⟨p, hp, hpk⟩)
    have hrec := ih tl (fun l' c' h => hlk l' c' (List.mem_cons_of_mem _ h))
      ((nodupKeysB_iff tl).mpr hnd.2) rfl
    simp only [scanChildren, hl]
    simp only [List.any_cons, beq_self_eq_true, Bool.true_or, if_true]
    simp only [List.filter_cons, beq_self_eq_true, Bool.not_true, Bool.false_eq_true,
      if_false, hfil]
    rw [hrec]
    simp

theorem enumDiffImpl_self : ∀ (fuel : Nat) (n : TriliumNoteShort) (S : List String),
    wfNote n = true → nodeSize n ≤ fuel →
    ∃ S', enumDiffImpl fuel n n S S = ([], .ok (S', S')) := by
  intro fuel
  induction fuel with
  | zero =>
    intro n S _ hs
    have := nodeSize_pos n
    omega
  | succ fuel ih =>
    intro n S hwf hs
    by_cases hid : n.id ∈ S
    · exact ⟨S, by simp [enumDiffImpl, hid]⟩
    · rw [wfNote_def] at hwf
      simp only [Bool.and_eq_true] at hwf
      have hlk : ∀ l c, (l, c) ∈ n.children → n.children.lookup l = some c :=
        fun l c h => lookup_of_mem_nodupKeys hwf.1 h
      have hscan := scanChildren_self n (n, n) n.children hlk hwf.1
      have hrec : ∀ (queue : List (String × TriliumNoteShort)) (T : List String),
          (∀ l c, (l, c) ∈ queue → wfNote c = true ∧ nodeSize c ≤ fuel) →
          ∃ T', childFold (enumDiffImpl fuel) (queue.map (fun p => (p.2, p.2))) T T
            = ([], .ok (T', T')) := by
        intro queue
        induction queue with
        | nil => intro T _; exact ⟨T, rfl⟩
        | cons hd tl ih2 =>
          rcases hd with ⟨l, c⟩
          intro T hq
          have hc := hq l c (List.mem_cons_self _ _)
          obtain ⟨T1, hT1⟩ := ih c T hc.1 hc.2
          obtain ⟨T2, hT2⟩ := ih2 T1
            (fun l' c' h => hq l' c' (List.mem_cons_of_mem _ h))
          refine ⟨T2, ?_⟩
          simp only [List.map_cons, childFold, hT1, hT2]
          simp
      obtain ⟨T', hT'⟩ := hrec n.children (n.id :: S)
        (fun l c h => ⟨wfChildren_mem hwf.2 h,
          by have := nodeSize_lt_of_mem_children h; omega⟩)
      refine ⟨T', ?_⟩
      simp only [enumDiffImpl, hid, if_false]
      rw [hscan]
      simp only [contentDiffs_self, parentIdDiffs_self, attributeDiffs_self]
      rw [hT']
      simp

/-- **C2.** Diffing a well-formed DAG against itself yields no events at all
(and the generator completes without an exception). -/
theorem selfDiff_yields_no_events (D : TriliumNoteShort) (hwf : wfNote D = true) :
    (EnumDifferences D D).1 = [] ∧ ∃ S, (EnumDifferences D D).2 = .ok (S, S) := by
  obtain ⟨S', h⟩ := enumDiffImpl_self (nodeSize D) D [] hwf le_rfl
  rw [EnumDifferences, h]
  exact ⟨rfl, S', rfl⟩

/-- A sample two-level note used to instantiate universally quantified
theorems at a concrete input. -/
def exNote : TriliumNoteShort :=
  .mk "root1" "text" "text/html" [] [⟨"attr1", "label", "lbl", Option.none, 10, false⟩]
    (some "hash-root")
    [("child one", .mk "c1" "code" "text/css" ["root1"] [] (some "hash-c1") []),
     ("child two", .mk "c2" "" "" ["root1"] [] Option.none [])]

/-- Witness for C2 at a concrete DAG. -/
theorem selfDiff_yields_no_events_witness :
    wfNote exNote = true ∧ (EnumDifferences exNote exNote).1 = [] :=
  ⟨by decide, (selfDiff_yields_no_events exNote (by decide)).1⟩

/-! ### Events never carry the `child_link_changed` kind (claim C6) -/

theorem contentDiffs_ne_clc {r a : TriliumNoteShort} {e : DiffInfo}
    (h : e ∈ contentDiffs r a) : e.diff_type ≠ .child_link_changed := by
  unfold contentDiffs at h
  split_ifs at h <;> simp at h <;> subst h <;> simp

theorem parentIdDiffs_ne_clc {r a : TriliumNoteShort} {e : DiffInfo}
    (h : e ∈ parentIdDiffs r a) : e.diff_type ≠ .child_link_changed := by
  unfold parentIdDiffs at h
  rcases List.mem_append.mp h with h | h <;>
    · rcases List.mem_map.mp h with ⟨p, _, hpe⟩
      subst hpe
      simp

theorem attributeDiffs_ne_clc {r a : TriliumNoteShort} {e : DiffInfo}
    (h : e ∈ attributeDiffs r a) : e.diff_type ≠ .child_link_changed := by
  unfold attributeDiffs at h
  rcases List.mem_append.mp h with h | h
  · rcases List.mem_flatMap.mp h with ⟨p, _, hpe⟩
    rcases hlk : (attrDict r.attributes).lookup p.1 with _ | ra
    · rw [hlk] at hpe
      simp at hpe
      subst hpe
      simp
    · rw [hlk] at hpe
      have hpe' : e ∈ (if p.2 ≠ ra then
          [(⟨.attribute_changed, r, a, .attr p.2⟩ : DiffInfo)] else []) := hpe
      split_ifs at hpe' <;> simp at hpe'
      subst hpe'
      simp
  · rcases List.mem_map.mp h with ⟨p, _, hpe⟩
    subst hpe
    simp

theorem scanChildren_events_child_added {ref : TriliumNoteShort}
    {ra : TriliumNoteShort × TriliumNoteShort} :
    ∀ {cs unmatched : List (String × TriliumNoteShort)} {e : DiffInfo},
      e ∈ (scanChildren ref cs unmatched ra).1 → e.diff_type = .child_added := by
  intro cs
  induction cs with
  | nil => intro unmatched e he; simp [scanChildren] at he
  | cons hd tl ih =>
    intro unmatched e he
    rcases hd with ⟨al, ac⟩
    rw [scanChildren] at he
    rcases hm : (match ref.children.lookup al with
      | Option.some reference_child => Option.some (al, reference_child)
      | Option.none => findChildById ref.children ac.id) with _ | ⟨rl, rc⟩
    · rw [hm] at he
      simp only at he
      rcases hs : scanChildren ref tl unmatched ra with ⟨evs, res⟩
      rw [hs] at he
      simp only [List.mem_cons] at he
      rcases he with he | he
      · subst he; rfl
      · exact ih (by rw [hs]; exact he)
    · rw [hm] at he
      simp only at he
      by_cases hu : unmatched.any (fun p => p.1 == rl) = true
      · rw [if_pos hu] at he
        rcases hs : scanChildren ref tl (unmatched.filter (fun p => !(p.1 == rl))) ra
          with ⟨evs, res⟩
        rw [hs] at he
        cases res with
        | error e2 =>
          simp only at he
          exact ih (by rw [hs]; exact he)
        | ok qr =>
          rcases qr with ⟨queue, remaining⟩
          simp only at he
          exact ih (by rw [hs]; exact he)
      · rw [if_neg hu] at he
        simp at he

theorem childFold_events_mem {rec : TriliumNoteShort → TriliumNoteShort → List String →
      List String → List DiffInfo × Except String (List String × List String)} :
    ∀ {queue : List (TriliumNoteShort × TriliumNoteShort)} {rp ap : List String} {e : DiffInfo},
      e ∈ (childFold rec queue rp ap).1 →
      ∃ p rp' ap', p ∈ queue ∧ e ∈ (rec p.1 p.2 rp' ap').1 := by
  intro queue
  induction queue with
  | nil => intro rp ap e he; simp [childFold] at he
  | cons p rest ih =>
    intro rp ap e he
    rw [childFold] at he
    rcases hr : rec p.1 p.2 rp ap with ⟨evs2, res2⟩
    rw [hr] at he
    cases res2 with
    | error e2 =>
      simp only at he
      exact ⟨p, rp, ap, List.mem_cons_self _ _, by rw [hr]; exact he⟩
    | ok st =>
      rcases st with ⟨rp', ap'⟩
      simp only at he
      rcases hcf : childFold rec rest rp' ap' with ⟨evs3, res3⟩
      rw [hcf] at he
      simp only [List.mem_append] at he
      rcases he with he | he
      · exact ⟨p, rp, ap, List.mem_cons_self _ _, by rw [hr]; exact he⟩
      · obtain ⟨q, rq, aq, hq, hqe⟩ := ih (by rw [hcf]; exact he)
        exact ⟨q, rq, aq, List.mem_cons_of_mem _ hq, hqe⟩

/-- Unfolding `enumDiffImpl` on an unvisited pair when the child scan
raises. -/
theorem enumDiffImpl_eq_err {fuel : Nat} {r a : TriliumNoteShort} {S1 S2 : List String}
    {ev : List DiffInfo} {e : String} (h1 : r.id ∉ S1)
    (hsc : scanChildren r a.children r.children (r, a) = (ev, .error e)) :
    enumDiffImpl (fuel + 1) r a S1 S2 =
      (contentDiffs r a ++ parentIdDiffs r a ++ attributeDiffs r a ++ ev, .error e) := by
  rw [enumDiffImpl, if_neg h1, hsc]

/-- Unfolding `enumDiffImpl` on an unvisited pair when the child scan
completes. -/
theorem enumDiffImpl_eq_ok {fuel : Nat} {r a : TriliumNoteShort} {S1 S2 : List String}
    {ev : List DiffInfo} {queue : List (TriliumNoteShort × TriliumNoteShort)}
    {unmatched : List (String × TriliumNoteShort)} (h1 : r.id ∉ S1)
    (hsc : scanChildren r a.children r.children (r, a) = (ev, .ok (queue, unmatched))) :
    enumDiffImpl (fuel + 1) r a S1 S2 =
      (contentDiffs r a ++ parentIdDiffs r a ++ attributeDiffs r a ++ ev
        ++ unmatched.map (fun p => (⟨.child_removed, r, a, .child p.1 p.2⟩ : DiffInfo))
        ++ (childFold (enumDiffImpl fuel) queue (r.id :: S1) (a.id :: S2)).1,
       (childFold (enumDiffImpl fuel) queue (r.id :: S1) (a.id :: S2)).2) := by
  rw [enumDiffImpl, if_neg h1, hsc]

theorem enumDiffImpl_no_clc :
    ∀ (fuel : Nat) (r a : TriliumNoteShort) (S1 S2 : List String) (e : DiffInfo),
      e ∈ (enumDiffImpl fuel r a S1 S2).1 → e.diff_type ≠ .child_link_changed := by
  intro fuel
  induction fuel with
  | zero => intro r a S1 S2 e he; simp [enumDiffImpl] at he
  | succ fuel ih =>
    intro r a S1 S2 e he
    by_cases h1 : r.id ∈ S1
    · rw [enumDiffImpl, if_pos h1] at he
      by_cases h2 : a.id ∈ S2 <;> simp [h2] at he
    · rcases hsc : scanChildren r a.children r.children (r, a) with ⟨csEvents, res⟩
      cases res with
      | error e2 =>
        rw [enumDiffImpl_eq_err h1 hsc] at he
        simp only [List.append_assoc, List.mem_append] at he
        rcases he with he | he | he | he
        · exact contentDiffs_ne_clc he
        · exact parentIdDiffs_ne_clc he
        · exact attributeDiffs_ne_clc he
        · rw [scanChildren_events_child_added (by rw [hsc]; exact he)]
          simp
      | ok qr =>
        rcases qr with ⟨queue, unmatched⟩
        rw [enumDiffImpl_eq_ok h1 hsc] at he
        simp only [List.append_assoc, List.mem_append] at he
        rcases he with he | he | he | he | he | he
        · exact contentDiffs_ne_clc he
        · exact parentIdDiffs_ne_clc he
        · exact attributeDiffs_ne_clc he
        · rw [scanChildren_events_child_added (by rw [hsc]; exact he)]
          simp
        · rcases List.mem_map.mp he with ⟨p, _, hpe⟩
          subst hpe
          simp
        · obtain ⟨p, rp', ap', _, hpe⟩ := childFold_events_mem he
          exact ih p.1 p.2 rp' ap' e hpe

/-- **C6.** `EnumDifferences` never yields a `child_link_changed` event, on
any pair of inputs: a same-id child under a renamed link is folded into a
matched pair with no event for the rename. -/
theorem enumDifferences_never_child_link_changed (r a : TriliumNoteShort) :
    ((EnumDifferences r a).1.all
      (fun e => e.diff_type != DiffType.child_link_changed)) = true := by
  apply List.all_eq_true.mpr
  intro e he
  have := enumDiffImpl_no_clc (nodeSize a) r a [] [] e he
  simpa using this

/-! ### Content comparison (claim C5) -/

/-- Reference node for the C5 counterexample: a content-bearing note. -/
def c5ref : TriliumNoteShort := .mk "n1" "text" "text/html" [] [] (some "h-ref") []

/-- Actual node for the C5 counterexample: the same note with no declared
content kind and no fingerprint. -/
def c5act : TriliumNoteShort := .mk "n1" "" "" [] [] Option.none []

/-- **C5 (counterexample).** The two fingerprints differ and the
`content_type_changed` guard does not apply (the actual node declares no
content kind), yet the diff yields no event at all — refuting "else if the
content fingerprints differ, exactly one `content_changed` event is
emitted". -/
theorem c5_counterexample :
    c5act.content_hash ≠ c5ref.content_hash ∧
    ¬(c5act.note_type ≠ "" ∧ c5act.mime_type ≠ c5ref.mime_type) ∧
    (EnumDifferences c5ref c5act).1 = [] := by
  refine ⟨by decide, by decide, ?_⟩
  rfl

/-- **C5 (amended).**  For a matched pair, the content comparison is
guarded by the actual node declaring a content kind: if it does and the
format tags differ, exactly one `content_type_changed` event is produced
and the fingerprints are not compared; if it does and the tags agree but
the fingerprints differ, exactly one `content_changed` event is produced;
if the actual node declares no content kind, no content event is produced
at all.  `contentDiffs` is exactly the content section of
`_EnumDifferencesImpl`, and the last conjunct places it at the head of the
event stream of the matched pair. -/
theorem contentDiffs_characterization (r a : TriliumNoteShort) :
    (a.note_type ≠ "" → a.mime_type ≠ r.mime_type →
      contentDiffs r a = [⟨.content_type_changed, r, a, .none⟩]) ∧
    (a.note_type ≠ "" → a.mime_type = r.mime_type → a.content_hash ≠ r.content_hash →
      contentDiffs r a = [⟨.content_changed, r, a, .none⟩]) ∧
    (a.note_type = "" → contentDiffs r a = []) ∧
    (∀ fuel S1 S2, r.id ∉ S1 →
      ∃ rest, (enumDiffImpl (fuel + 1) r a S1 S2).1 = contentDiffs r a ++ rest) := by
  refine ⟨?_, ?_, ?_, ?_⟩
  · intro h1 h2
    simp [contentDiffs, h1, h2]
  · intro h1 h2 h3
    simp [contentDiffs, h1, h2, h3]
  · intro h1
    simp [contentDiffs, h1]
  · intro fuel S1 S2 h1
    rcases hsc : scanChildren r a.children r.children (r, a) with ⟨csEvents, res⟩
    cases res with
    | error e2 =>
      rw [enumDiffImpl_eq_err h1 hsc]
      exact ⟨parentIdDiffs r a ++ attributeDiffs r a ++ csEvents, by simp⟩
    | ok qr =>
      rcases qr with ⟨queue, unmatched⟩
      rw [enumDiffImpl_eq_ok h1 hsc]
      refine ⟨parentIdDiffs r a ++ attributeDiffs r a ++ csEvents
        ++ unmatched.map (fun p => (⟨.child_removed, r, a, .child p.1 p.2⟩ : DiffInfo))
        ++ (childFold (enumDiffImpl fuel) queue (r.id :: S1) (a.id :: S2)).1, by simp⟩

/-- Witness for the amended C5 at concrete inputs (all three guard
situations, plus the prefix property). -/
theorem contentDiffs_characterization_witness :
    contentDiffs (TriliumNoteShort.mk "w" "text" "text/html" [] [] (some "h1") [])
        (.mk "w" "code" "text/css" [] [] (some "h2") [])
      = [⟨.content_type_changed, .mk "w" "text" "text/html" [] [] (some "h1") [],
          .mk "w" "code" "text/css" [] [] (some "h2") [], .none⟩] ∧
    contentDiffs (TriliumNoteShort.mk "w" "text" "text/html" [] [] (some "h1") [])
        (.mk "w" "text" "text/html" [] [] (some "h2") [])
      = [⟨.content_changed, .mk "w" "text" "text/html" [] [] (some "h1") [],
          .mk "w" "text" "text/html" [] [] (some "h2") [], .none⟩] ∧
    contentDiffs c5ref c5act = [] :=
  ⟨(contentDiffs_characterization _ _).1 (by decide) (by decide),
   (contentDiffs_characterization _ _).2.1 (by decide) (by decide) (by decide),
   (contentDiffs_characterization c5ref c5act).2.2.1 (by decide)⟩

/-! ### Duplicate child ids on the actual side abort the diff (claim C10) -/

/-- **C10.** If one actual node carries two distinct link names whose
children share an id, and the reference node carries that id under a single
link whose name matches neither, then both actual links resolve (via the
find-by-child-id fallback) to the same reference link, the second removal
from the unmatched-reference-links set fails, and the diff aborts with an
error instead of completing. -/
theorem duplicate_child_ids_abort_diff
    (rid rt rm : String) (rp : List String) (ratt : List TriliumAttribute)
    (rh : Option String) (aid att am : String) (ap : List String)
    (aatt : List TriliumAttribute) (ah : Option String)
    (c1 c2 rc : TriliumNoteShort) (l1 l2 rl : String)
    (hid1 : rc.id = c1.id) (hid2 : rc.id = c2.id)
    (hne1 : rl ≠ l1) (hne2 : rl ≠ l2) :
    ∃ ev, EnumDifferences (.mk rid rt rm rp ratt rh [(rl, rc)])
        (.mk aid att am ap aatt ah [(l1, c1), (l2, c2)])
      = (ev, .error ("KeyError: " ++ rl)) := by
  set r : TriliumNoteShort := .mk rid rt rm rp ratt rh [(rl, rc)] with hr
  set a : TriliumNoteShort := .mk aid att am ap aatt ah [(l1, c1), (l2, c2)] with ha
  have hb1 : (l1 == rl) = false := beq_eq_false_iff_ne.mpr (fun h => hne1 h.symm)
  have hb2 : (l2 == rl) = false := beq_eq_false_iff_ne.mpr (fun h => hne2 h.symm)
  have hbid1 : (rc.id == c1.id) = true := beq_iff_eq.mpr hid1
  have hbid2 : (rc.id == c2.id) = true := beq_iff_eq.mpr hid2
  have hchildren : r.children = [(rl, rc)] := rfl
  have hsc : scanChildren r a.children r.children (r, a)
      = ([], .error ("KeyError: " ++ rl)) := by
    show scanChildren r [(l1, c1), (l2, c2)] [(rl, rc)] (r, a)
      = ([], .error ("KeyError: " ++ rl))
    rw [scanChildren, hchildren]
    rw [List.lookup_cons, hb1]
    simp only [List.lookup_nil]
    rw [findChildById, hbid1]
    simp only [List.any_cons, List.any_nil, beq_self_eq_true, Bool.true_or, Bool.or_false,
      if_true]
    rw [List.filter_cons]
    simp only [beq_self_eq_true, Bool.not_true, Bool.false_eq_true, if_false, List.filter_nil]
    rw [scanChildren, hchildren]
    rw [List.lookup_cons, hb2]
    simp only [List.lookup_nil]
    rw [findChildById, hbid2]
    simp
  obtain ⟨f, hf⟩ : ∃ f, nodeSize a = f + 1 :=
    ⟨nodeSize a - 1, by have := nodeSize_pos a; omega⟩
  have h1 : r.id ∉ ([] : List String) := by simp
  refine ⟨contentDiffs r a ++ parentIdDiffs r a ++ attributeDiffs r a ++ [], ?_⟩
  rw [EnumDifferences, hf, enumDiffImpl_eq_err h1 hsc]

/-- Witness for C10 at a concrete input. -/
theorem duplicate_child_ids_abort_diff_witness :
    ∃ ev, EnumDifferences
        (.mk "R" "" "" [] [] Option.none [("rl", .mk "X" "" "" [] [] Option.none [])])
        (.mk "R" "" "" [] [] Option.none
          [("l1", .mk "X" "" "" [] [] Option.none []),
           ("l2", .mk "X" "" "" [] [] Option.none [])])
      = (ev, .error ("KeyError: " ++ "rl")) :=
  duplicate_child_ids_abort_diff "R" "" "" [] [] Option.none "R" "" "" [] [] Option.none
    _ _ _ "l1" "l2" "rl" (by decide) (by decide) (by decide) (by decide)

/-! ### Parent-before-children ordering (claim C4): counterexample -/

/-- Reference copy of the shared child `C`. -/
def c4refC : TriliumNoteShort := .mk "C" "text" "text/html" [] [] (some "hc0") []

/-- Actual copy of the shared child `C` (content changed). -/
def c4actC : TriliumNoteShort := .mk "C" "text" "text/html" [] [] (some "hc1") []

/-- Reference parent `B` of `C`. -/
def c4refB : TriliumNoteShort := .mk "B" "text" "text/html" [] [] (some "hb0") [("c", c4refC)]

/-- Actual parent `B` of `C` (content changed). -/
def c4actB : TriliumNoteShort := .mk "B" "text" "text/html" [] [] (some "hb1") [("c", c4actC)]

/-- Reference parent `A` of `C` (unchanged). -/
def c4refA : TriliumNoteShort := .mk "A" "text" "text/html" [] [] (some "ha") [("c", c4refC)]

/-- Actual parent `A` of `C` (unchanged). -/
def c4actA : TriliumNoteShort := .mk "A" "text" "text/html" [] [] (some "ha") [("c", c4actC)]

/-- Reference root: `C` has fan-in through both `A` and `B`. -/
def c4ref : TriliumNoteShort :=
  .mk "R" "text" "text/html" [] [] (some "hr") [("a", c4refA), ("b", c4refB)]

/-- Actual root of the fan-in counterexample. -/
def c4act : TriliumNoteShort :=
  .mk "R" "text" "text/html" [] [] (some "hr") [("a", c4actA), ("b", c4actB)]

/-- **C4 (counterexample).**  `(c4refC, c4actC)` is a matched child pair of
`(c4refB, c4actB)` (same link name `"c"` on both sides), yet the event of
the child pair `C` is emitted *before* the event of the parent pair `B`:
with fan-in, a shared child processed through an earlier sibling edge emits
its differences before a later parent's own differences. -/
theorem c4_counterexample :
    c4actB.children.lookup "c" = some c4actC ∧
    c4refB.children.lookup "c" = some c4refC ∧
    (EnumDifferences c4ref c4act).1 =
      [⟨.content_changed, c4refC, c4actC, .none⟩,
       ⟨.content_changed, c4refB, c4actB, .none⟩] :=
  ⟨rfl, rfl, rfl⟩

/-! ### Constants.py -/

/-- `Constants.CONTENT_FILENAME`. -/
def CONTENT_FILENAME : String := "content"

/-- `Constants.ATTRIBUTES_FILENAME`. -/
def ATTRIBUTES_FILENAME : String := "attributes.yaml"

/-- `Constants.LINK_DIRECTORY_NAME_TEMPLATE` applied to a link name. -/
def linkDirectoryName (name : String) : String := "[link] " ++ name

/-- `Constants.NO_SYNC_ATTRIBUTE_NAME`. -/
def NO_SYNC_ATTRIBUTE_NAME : String := "triliumDevNoSync"

/-- `Constants.mimetype_extension_map` (insertion order preserved). -/
def mimetype_extension_map : List (String × String) :=
  [("text/css", ".css"),
   ("text/html", ".html"),
   ("application/json", ".json"),
   ("application/javascript;env=backend", ".backend.js"),
   ("application/javascript;env=frontend", ".frontend.js")]

/-- `Constants.mimetype_note_type_map`. -/
def mimetype_note_type_map : List (String × String) :=
  [("text/html", "text"),
   ("text/css", "code"),
   ("application/json", "code"),
   ("application/javascript;env=backend", "code"),
   ("application/javascript;env=frontend", "code")]

/-! ### Activities.py and DiffInfo.ToActivity (claim C3) -/

/-- A Python value flowing through the untyped activity call: either a
`TriliumNoteShort` or the status-callback function supplied by the driver. -/
inductive PyVal where
  | note (n : TriliumNoteShort)
  | statusCallback
deriving Repr

/-- Calling a Python value with a string argument: calling the status
callback succeeds, calling a note raises `TypeError`. -/
def callPy (f : PyVal) (_arg : String) : Except String Unit :=
  match f with
  | .statusCallback => .ok ()
  | .note _ => .error "TypeError: 'TriliumNoteShort' object is not callable"

/-- `Activities.PushContent` (Activities.py): its positional parameter
order is `(config, session, note, on_status_update)`.  `store` is
`config.StoreDirectory`, `readFile` is the local filesystem, and the
returned pair is the `session.put` request (url, body) issued on success. -/
def PushContent (store : String) (readFile : String → Option (List Nat))
    (note on_status_update : PyVal) : Except String (String × List Nat) := do
  _ ← callPy on_status_update "Reading content"
  match note with
  | .statusCallback => .error "AttributeError: 'function' object has no attribute 'id'"
  | .note n =>
    match mimetype_extension_map.lookup n.mime_type with
    | Option.none => .error ("KeyError: " ++ n.mime_type)
    | Option.some ext =>
      let filename := store ++ "/" ++ n.id ++ "/" ++ CONTENT_FILENAME ++ ext
      match readFile filename with
      | Option.none => .error ("The file '" ++ filename ++ "' does not exist")
      | Option.some content => do
        _ ← callPy on_status_update "Uploading content"
        .ok ("notes/" ++ n.id ++ "/content/", content)

/-- `DiffInfo.ToActivity` (Diff.py lines 172-206).  The `content_changed`
branch returns the lambda
`lambda config, session, on_status_update: Activities.PushContent(config,
session, on_status_update, self.actual)` — note that it passes the caller's
status callback in `PushContent`'s `note` position and `self.actual` in its
`on_status_update` position, exactly as the source does.  Every other kind
raises its `TODO` exception. -/
def ToActivity (d : DiffInfo) :
    Except String (PyVal → String → (String → Option (List Nat)) →
      Except String (String × List Nat)) :=
  match d.diff_type with
  | .content_type_changed => .error "TODO: 'content_type_changed' not supported yet"
  | .parent_id_added => .error "TODO: 'parent_id_added' not supported yet"
  | .parent_id_removed => .error "TODO: 'parent_id_removed' not supported yet"
  | .attribute_added => .error "TODO: 'attribute_added' not supported yet"
  | .attribute_removed => .error "TODO: 'attribute_removed' not supported yet"
  | .attribute_changed => .error "TODO: 'attribute_changed' not supported yet"
  | .content_changed => .ok (fun on_status_update store readFile =>
      PushContent store readFile on_status_update (PyVal.note d.actual))
  | .child_added => .error "TODO: 'child_added' not supported yet"
  | .child_removed => .error "TODO: 'child_removed' not supported yet"
  | .child_changed => .error "TODO: 'child_changed' not supported yet"
  | .child_link_changed => .error "TODO: 'child_link_changed' not supported yet"

/-- Running the activity returned by `ToActivity` the way the driver does
(Dev.py line 146): pass a status callback, a store and a filesystem. -/
def runActivity (d : DiffInfo) (cb : PyVal) (store : String)
    (readFile : String → Option (List Nat)) : Except String (String × List Nat) :=
  match ToActivity d with
  | .error e => .error e
  | .ok f => f cb store readFile

/-- The name in the `TODO` message for each diff kind. -/
def diffTypeName : DiffType → String
  | .content_type_changed => "content_type_changed"
  | .parent_id_added => "parent_id_added"
  | .parent_id_removed => "parent_id_removed"
  | .attribute_added => "attribute_added"
  | .attribute_removed => "attribute_removed"
  | .attribute_changed => "attribute_changed"
  | .content_changed => "content_changed"
  | .child_added => "child_added"
  | .child_removed => "child_removed"
  | .child_changed => "child_changed"
  | .child_link_changed => "child_link_changed"

/-- A `parent_id_added` event for a node with id `"idA"`. -/
def c3dAdd1 : DiffInfo :=
  ⟨.parent_id_added, c5ref, .mk "idA" "text" "text/html" [] [] Option.none [], .parentId "p"⟩

/-- A `parent_id_added` event for a node with id `"idB"`. -/
def c3dAdd2 : DiffInfo :=
  ⟨.parent_id_added, c5ref, .mk "idB" "text" "text/html" [] [] Option.none [], .parentId "p"⟩

/-- A `content_changed` event for a node whose content file exists. -/
def c3dChanged : DiffInfo :=
  ⟨.content_changed, c5ref, .mk "n9" "text" "text/html" [] [] (some "h") [], .none⟩

/-- **C3 (counterexample).**  (i) The unsupported-operation error carries
only the diff kind, not the node id: two events for different node ids
produce the identical error value.  (ii) The activity returned for
`content_changed` does not replace the remote body at the actual node's id:
invoked as the driver invokes it — with an existing content file — it
raises `TypeError`, because `ToActivity` passes the status callback in
`PushContent`'s `note` position and the note in its callback position. -/
theorem c3_counterexample :
    ToActivity c3dAdd1 = .error "TODO: 'parent_id_added' not supported yet" ∧
    ToActivity c3dAdd2 = .error "TODO: 'parent_id_added' not supported yet" ∧
    c3dAdd1.actual.id ≠ c3dAdd2.actual.id ∧
    (ToActivity c3dChanged).isOk = true ∧
    runActivity c3dChanged .statusCallback "store" (fun _ => some [104, 105])
      = .error "TypeError: 'TriliumNoteShort' object is not callable" :=
  ⟨rfl, rfl, by decide, rfl, rfl⟩

/-- **C3 (amended).**  `ToActivity` returns an executable transfer activity
exactly when `diff_type` is `content_changed`; because the call to
`PushContent` passes its `note` and `on_status_update` arguments in swapped
positions, running that activity always raises `TypeError` instead of
pushing content.  For every other diff kind, `ToActivity` fails with an
unsupported-operation error naming the diff kind (and not the node id). -/
theorem toActivity_characterization (d : DiffInfo) :
    (d.diff_type ≠ .content_changed →
      ToActivity d
        = .error ("TODO: '" ++ diffTypeName d.diff_type ++ "' not supported yet")) ∧
    (d.diff_type = .content_changed →
      (ToActivity d).isOk = true ∧
      ∀ cb store readFile, runActivity d cb store readFile
        = .error "TypeError: 'TriliumNoteShort' object is not callable") := by
  constructor
  · intro h
    cases hd : d.diff_type <;>
      simp only [ToActivity, hd, diffTypeName] <;>
      first
        | rfl
        | exact absurd hd h
  · intro h
    refine ⟨by simp only [ToActivity, h]; rfl, ?_⟩
    intro cb store readFile
    simp [runActivity, ToActivity, h, PushContent, callPy, Bind.bind, Except.bind]

/-- Witness for the amended C3 at concrete events. -/
theorem toActivity_characterization_witness :
    ToActivity c3dAdd1 = .error ("TODO: '" ++ diffTypeName c3dAdd1.diff_type
      ++ "' not supported yet") ∧
    runActivity c3dChanged .statusCallback "s" (fun _ => some [1])
      = .error "TypeError: 'TriliumNoteShort' object is not callable" :=
  ⟨(toActivity_characterization c3dAdd1).1 (by decide),
   ((toActivity_characterization c3dChanged).2 rfl).2 .statusCallback "s" (fun _ => some [1])⟩

/-! ### Decimal representation facts (for the `" (1)", " (2)", ...` suffixes) -/

/-- Parse a decimal digit string back to a number. -/
def parseDigits (cs : List Char) : Nat :=
  cs.foldl (fun a c => a * 10 + (c.toNat - 48)) 0

theorem toDigitsCore_spec : ∀ (fuel n : Nat) (ds : List Char), n / 10 < fuel →
    ∃ pre, Nat.toDigitsCore 10 fuel n ds = pre ++ ds ∧ pre ≠ [] ∧ parseDigits pre = n := by
  intro fuel
  induction fuel with
  | zero => intro n ds h; omega
  | succ fuel ih =>
    intro n ds h
    rw [Nat.toDigitsCore]
    by_cases h0 : n / 10 = 0
    · simp only [h0, if_true]
      refine ⟨[(n % 10).digitChar], rfl, by simp, ?_⟩
      have hn : n < 10 := by omega
      interval_cases n <;> decide
    · simp only [h0, if_false]
      obtain ⟨pre, hpre, hne, hval⟩ := ih (n / 10) ((n % 10).digitChar :: ds)
        (by omega)
      refine ⟨pre ++ [(n % 10).digitChar], by simp [hpre], by simp, ?_⟩
      have heq : parseDigits (pre ++ [(n % 10).digitChar])
          = parseDigits pre * 10 + ((n % 10).digitChar.toNat - 48) := by
        show List.foldl _ 0 (pre ++ [(n % 10).digitChar]) = _
        rw [List.foldl_append]
        show List.foldl _ (parseDigits pre) [(n % 10).digitChar] = _
        simp [List.foldl]
      rw [heq, hval]
      have hdig : ((n % 10).digitChar.toNat - 48) = n % 10 := by
        have hm : n % 10 = 0 ∨ n % 10 = 1 ∨ n % 10 = 2 ∨ n % 10 = 3 ∨ n % 10 = 4 ∨
            n % 10 = 5 ∨ n % 10 = 6 ∨ n % 10 = 7 ∨ n % 10 = 8 ∨ n % 10 = 9 := by omega
        rcases hm with h|h|h|h|h|h|h|h|h|h <;> rw [h] <;> decide
      rw [hdig]
      omega

theorem natRepr_inj (m n : Nat) (h : Nat.repr m = Nat.repr n) : m = n := by
  have hd : Nat.toDigits 10 m = Nat.toDigits 10 n := by
    have := congrArg String.data h
    simpa [Nat.repr] using this
  obtain ⟨p1, hp1, _, hv1⟩ := toDigitsCore_spec (m + 1) m [] (by omega)
  obtain ⟨p2, hp2, _, hv2⟩ := toDigitsCore_spec (n + 1) n [] (by omega)
  rw [Nat.toDigits] at hd
  rw [Nat.toDigits] at hd
  rw [hp1, hp2] at hd
  simp at hd
  rw [← hv1, ← hv2, hd]

/-! ### Link-name disambiguation in Pull.GetLinkName (claim C7) -/

/-- The identity and title of a `_WorkingNote` as seen by `GetLinkName`. -/
structure LinkChild where
  id : String
  title : String
deriving Repr, DecidableEq

/-- The candidate display name of one child under one branch prefix
(Pull.py lines 378-381). -/
def displayName (pre : Option String) (title : String) : String :=
  match pre with
  | Option.none => title
  | Option.some p => p ++ " - " ++ title

/-- `unique_names[unique_name] += 1` (Pull.py line 385). -/
def bumpCount (m : List (String × Nat)) (k : String) : List (String × Nat) :=
  m.map (fun p => if p.1 == k then (p.1, p.2 + 1) else p)

/-- The flattened encounter sequence of the double loop
`for prefix, child_notes in parent_note.children.items(): for child_note in
child_notes:` (Pull.py lines 376-377), as `(child id, display name)` pairs. -/
def flattenChildren (children : List (Option String × List LinkChild)) :
    List (String × String) :=
  children.flatMap (fun pc => pc.2.map (fun c => (c.id, displayName pc.1 c.title)))

/-- The body of the `GetLinkName` loop (Pull.py lines 383-391): thread the
`unique_names` occurrence-count dict through the encounter sequence and
record, per encounter, the final link name assigned to the child. -/
def assignLinkNames : List (String × String) → List (String × Nat) → List (String × String)
  | [], _ => []
  | (cid, dname) :: rest, unique_names =>
    match unique_names.lookup dname with
    | Option.some num_duplicates =>
      (cid, dname ++ " (" ++ Nat.repr num_duplicates ++ ")") ::
        assignLinkNames rest (bumpCount unique_names dname)
    | Option.none =>
      (cid, dname) :: assignLinkNames rest (unique_names ++ [(dname, 1)])

/-- `unique_link_names` (Pull.py line 391): the per-child-id dict of final
link names, last write winning, used by `GetLinkName`'s return. -/
def uniqueLinkNames (children : List (Option String × List LinkChild)) :
    List (String × String) :=
  (assignLinkNames (flattenChildren children) []).foldl
    (fun m a =>
      if m.any (fun p => p.1 == a.1) then
        m.map (fun p => if p.1 == a.1 then (p.1, a.2) else p)
      else
        m ++ [a])
    []

/-- `GetLinkName` (Pull.py lines 368-395) for a parent whose
`unique_link_names` cache is not yet populated. -/
def GetLinkName (child_id : String) (children : List (Option String × List LinkChild)) :
    Option String :=
  (uniqueLinkNames children).lookup child_id

/-- Specification-side recursion equivalent to `assignLinkNames`: thread an
abstract occurrence-count function instead of the dict. -/
def specAssign (f : String → Nat) : List (String × String) → List (String × String)
  | [] => []
  | (cid, d) :: rest =>
    (cid, if f d = 0 then d else d ++ " (" ++ Nat.repr (f d) ++ ")") ::
      specAssign (fun x => if x = d then f x + 1 else f x) rest

theorem lookup_map_values {β γ : Type} (m : List (String × β)) (g : String → β → γ)
    (x : String) :
    (m.map (fun p => (p.1, g p.1 p.2))).lookup x = (m.lookup x).map (g x) := by
  induction m with
  | nil => rfl
  | cons hd tl ih =>
    rcases hd with ⟨k, v⟩
    simp only [List.map_cons, List.lookup_cons]
    by_cases h : (x == k) = true
    · have := eq_of_beq h
      subst this
      simp [h]
    · simp only [h]
      exact ih

theorem bumpCount_eq_mapValues (m : List (String × Nat)) (d : String) :
    bumpCount m d = m.map (fun p => (p.1, if p.1 == d then p.2 + 1 else p.2)) := by
  unfold bumpCount
  congr 1
  funext p
  by_cases h : (p.1 == d) = true <;> simp [h]

theorem bumpCount_lookup (m : List (String × Nat)) (d x : String) :
    (bumpCount m d).lookup x
      = if x = d then (m.lookup d).map (· + 1) else m.lookup x := by
  rw [bumpCount_eq_mapValues,
    lookup_map_values m (fun k v => if (k == d) = true then v + 1 else v) x]
  by_cases h : x = d
  · subst h
    simp
  · have hb : (x == d) = false := beq_eq_false_iff_ne.mpr h
    rw [if_neg h]
    rcases m.lookup x with _ | v <;> simp [hb]

theorem append_single_lookup (m : List (String × Nat)) (d x : String) (v : Nat) :
    (m ++ [(d, v)]).lookup x
      = match m.lookup x with
        | Option.some w => Option.some w
        | Option.none => if x = d then some v else Option.none := by
  induction m with
  | nil =>
    by_cases hxd : x = d
    · subst hxd
      simp [List.lookup_cons]
    · simp [List.lookup_cons, beq_eq_false_iff_ne.mpr hxd, hxd]
  | cons hd tl ih =>
    rcases hd with ⟨k, w⟩
    by_cases hxk : (x == k) = true
    · simp [List.lookup_cons, hxk]
    · simp only [List.cons_append, List.lookup_cons, hxk]
      exact ih

/-- The dict/count-function agreement invariant of the `GetLinkName` loop. -/
def CountInv (m : List (String × Nat)) (f : String → Nat) : Prop :=
  ∀ d, (m.lookup d = Option.none → f d = 0) ∧
    (∀ k, m.lookup d = some k → f d = k ∧ 1 ≤ k)

theorem countInv_append {m : List (String × Nat)} {f : String → Nat} {d : String}
    (hinv : CountInv m f) (hlk : m.lookup d = Option.none) :
    CountInv (m ++ [(d, 1)]) (fun x => if x = d then f x + 1 else f x) := by
  intro x
  rcases hmx : m.lookup x with _ | w
  · by_cases hxd : x = d
    · subst hxd
      constructor
      · intro hx
        rw [append_single_lookup, hmx] at hx
        simp at hx
      · intro k hk
        rw [append_single_lookup, hmx] at hk
        simp only [if_pos rfl] at hk
        injection hk with h1
        have hf0 := (hinv x).1 hmx
        refine ⟨?_, by omega⟩
        show (if x = x then f x + 1 else f x) = k
        rw [if_pos rfl]
        omega
    · constructor
      · intro _
        simp only [if_neg hxd]
        exact (hinv x).1 hmx
      · intro k hk
        rw [append_single_lookup, hmx] at hk
        rw [if_neg hxd] at hk
        cases hk
  · have hxd : ¬(x = d) := by
      intro he
      rw [he, hlk] at hmx
      cases hmx
    constructor
    · intro hx
      rw [append_single_lookup, hmx] at hx
      cases hx
    · intro k hk
      rw [append_single_lookup, hmx] at hk
      injection hk with h1
      simp only [if_neg hxd]
      have := (hinv x).2 w hmx
      omega

theorem countInv_bump {m : List (String × Nat)} {f : String → Nat} {d : String} {k : Nat}
    (hinv : CountInv m f) (hlk : m.lookup d = some k) :
    CountInv (bumpCount m d) (fun x => if x = d then f x + 1 else f x) := by
  intro x
  by_cases hxd : x = d
  · subst hxd
    constructor
    · intro hx
      rw [bumpCount_lookup, if_pos rfl, hlk] at hx
      cases hx
    · intro w hw
      rw [bumpCount_lookup, if_pos rfl, hlk, Option.map_some'] at hw
      injection hw with h1
      have := (hinv x).2 k hlk
      refine ⟨?_, by omega⟩
      show (if x = x then f x + 1 else f x) = w
      rw [if_pos rfl]
      omega
  · constructor
    · intro hx
      rw [bumpCount_lookup, if_neg hxd] at hx
      simp only [if_neg hxd]
      exact (hinv x).1 hx
    · intro w hw
      rw [bumpCount_lookup, if_neg hxd] at hw
      simp only [if_neg hxd]
      exact (hinv x).2 w hw

/-- `assignLinkNames` agrees with the specification-side recursion whenever
the dict and the count function agree. -/
theorem assign_eq_spec : ∀ (todo : List (String × String)) (m : List (String × Nat))
    (f : String → Nat), CountInv m f →
    assignLinkNames todo m = specAssign f todo := by
  intro todo
  induction todo with
  | nil => intro m f _; rfl
  | cons hd tl ih =>
    intro m f hinv
    rcases hd with ⟨cid, d⟩
    rcases hlk : m.lookup d with _ | k
    · have hf : f d = 0 := (hinv d).1 hlk
      rw [assignLinkNames, specAssign, hf]
      simp only [hlk, if_pos rfl]
      congr 1
      exact ih _ _ (countInv_append hinv hlk)
    · obtain ⟨hf, hk1⟩ := (hinv d).2 k hlk
      have hk0 : ¬(k = 0) := by omega
      rw [assignLinkNames, specAssign, hf]
      simp only [hlk, if_neg hk0]
      congr 1
      exact ih _ _ (countInv_bump hinv hlk)

theorem specAssign_getElem : ∀ (todo : List (String × String)) (f : String → Nat) (k : Nat),
    (specAssign f todo)[k]? = (todo[k]?).map (fun e =>
      (e.1,
        if f e.2 + ((todo.take k).filter (fun x => x.2 == e.2)).length = 0 then e.2
        else e.2 ++ " ("
          ++ Nat.repr (f e.2 + ((todo.take k).filter (fun x => x.2 == e.2)).length)
          ++ ")")) := by
  intro todo
  induction todo with
  | nil => intro f k; simp [specAssign]
  | cons hd tl ih =>
    intro f k
    rcases hd with ⟨cid, d⟩
    cases k with
    | zero =>
      rw [specAssign]
      simp
    | succ k =>
      rw [specAssign]
      simp only [List.getElem?_cons_succ, List.take_succ_cons, ih]
      rcases htl : tl[k]? with _ | e
      · simp [htl]
      · simp only [htl, Option.map_some']
        congr 1
        have hcnt : ((((cid, d) :: tl.take k)).filter (fun x => x.2 == e.2)).length
            = (if d = e.2 then 1 else 0) + ((tl.take k).filter (fun x => x.2 == e.2)).length := by
          by_cases hde : (d == e.2) = true
          · simp [List.filter_cons, hde, eq_of_beq hde]
            omega
          · have hd2 : ¬(d = e.2) := fun h => hde (beq_iff_eq.mpr h)
            simp [List.filter_cons, hde, hd2]
        have hfe : (if e.2 = d then f e.2 + 1 else f e.2)
            = f e.2 + (if d = e.2 then 1 else 0) := by
          by_cases h : e.2 = d
          · simp [h]
          · have h2 : ¬(d = e.2) := fun hh => h hh.symm
            simp [h, h2]
        have hsum : (if e.2 = d then f e.2 + 1 else f e.2)
            + ((tl.take k).filter (fun x => x.2 == e.2)).length
            = f e.2 + ((((cid, d) :: tl.take k)).filter (fun x => x.2 == e.2)).length := by
          rw [hfe, hcnt]
          omega
        rw [hsum]

theorem assignLinkNames_spec (todo : List (String × String)) :
    assignLinkNames todo [] = specAssign (fun _ => 0) todo :=
  assign_eq_spec todo [] (fun _ => 0)
    (fun _ => ⟨fun _ => rfl, fun _ hk => by cases hk⟩)

/-- The number of occurrences of a display name strictly grows past an
occurrence of that display name. -/
theorem filter_take_lt {l : List (String × String)} {i j : Nat} {e : String × String}
    (hij : i < j) (hi : l[i]? = some e) (_hj : j ≤ l.length) :
    ((l.take i).filter (fun x => x.2 == e.2)).length
      < ((l.take j).filter (fun x => x.2 == e.2)).length := by
  have hij' : j = i + (j - i) := by omega
  rw [hij', List.take_add, List.filter_append, List.length_append]
  have hilen : i < l.length := by
    rcases List.getElem?_eq_some.mp hi with ⟨h, _⟩
    exact h
  have hdrop : l.drop i = e :: l.drop (i + 1) := by
    rcases List.getElem?_eq_some.mp hi with ⟨h, hel⟩
    rw [List.drop_eq_getElem_cons h, hel]
  rw [hdrop]
  have hji : ∃ m, j - i = m + 1 := ⟨j - i - 1, by omega⟩
  rcases hji with ⟨m, hm⟩
  rw [hm, List.take_succ_cons, List.filter_cons]
  simp only [beq_self_eq_true, if_true]
  simp

/-- A string is not equal to itself extended by `" (" ++ r ++ ")"`. -/
theorem ne_append_paren (d r : String) : d ≠ d ++ " (" ++ r ++ ")" := by
  intro he
  have hdata := congrArg String.data he
  rw [String.data_append, String.data_append, String.data_append] at hdata
  have hlen := congrArg List.length hdata
  simp [List.length_append] at hlen

/-- The parenthesised decimal suffixes are injective in the count. -/
theorem append_paren_inj (d r1 r2 : String)
    (h : d ++ " (" ++ r1 ++ ")" = d ++ " (" ++ r2 ++ ")") : r1 = r2 := by
  have hdata := congrArg String.data h
  repeat rw [String.data_append] at hdata
  rw [List.append_assoc, List.append_assoc, List.append_assoc, List.append_assoc] at hdata
  have h1 := List.append_cancel_left hdata
  have h2 := List.append_cancel_left h1
  have h3 := List.append_cancel_right h2
  exact String.ext h3

/-- A concrete parent for the C7 witness: three children with the same
computed title. -/
def c7demo : List (Option String × List LinkChild) :=
  [(Option.none, [⟨"c1", "T"⟩, ⟨"c2", "T"⟩, ⟨"c3", "T"⟩])]

/-- **C7.**  Final link names as assigned by the `GetLinkName` loop: the
`k`-th encountered child receives its computed display name if no earlier
child of the same parent has the same display name, and otherwise the
display name suffixed with `" (c)"` where `c` counts the earlier children
with the same display name (so the second and later duplicates are suffixed
`" (1)"`, `" (2)"`, ... in encounter order); and any two children with
identical display names receive distinct final link names. -/
theorem linkName_disambiguation (children : List (Option String × List LinkChild)) :
    (∀ (k : Nat) (ek ak : String × String),
      (flattenChildren children)[k]? = some ek →
      (assignLinkNames (flattenChildren children) [])[k]? = some ak →
      ak.1 = ek.1 ∧
      ak.2 = (if (((flattenChildren children).take k).filter
                (fun x => x.2 == ek.2)).length = 0 then ek.2
              else ek.2 ++ " (" ++ Nat.repr ((((flattenChildren children).take k).filter
                (fun x => x.2 == ek.2)).length) ++ ")")) ∧
    (∀ (i j : Nat) (ei ej ai aj : String × String), i < j →
      (flattenChildren children)[i]? = some ei →
      (flattenChildren children)[j]? = some ej →
      (assignLinkNames (flattenChildren children) [])[i]? = some ai →
      (assignLinkNames (flattenChildren children) [])[j]? = some aj →
      ei.2 = ej.2 → ai.2 ≠ aj.2) := by
  have hmain : ∀ (k : Nat) (ek ak : String × String),
      (flattenChildren children)[k]? = some ek →
      (assignLinkNames (flattenChildren children) [])[k]? = some ak →
      ak.1 = ek.1 ∧
      ak.2 = (if (((flattenChildren children).take k).filter
                (fun x => x.2 == ek.2)).length = 0 then ek.2
              else ek.2 ++ " (" ++ Nat.repr ((((flattenChildren children).take k).filter
                (fun x => x.2 == ek.2)).length) ++ ")") := by
    intro k ek ak hek hak
    rw [assignLinkNames_spec, specAssign_getElem, hek, Option.map_some'] at hak
    injection hak with hak
    subst hak
    simp only [Nat.zero_add]
    exact ⟨by trivial, by trivial⟩
  refine ⟨hmain, ?_⟩
  intro i j ei ej ai aj hij hei hej hai haj hdisp
  obtain ⟨-, hai2⟩ := hmain i ei ai hei hai
  obtain ⟨-, haj2⟩ := hmain j ej aj hej haj
  have hjlen : j ≤ (flattenChildren children).length := by
    rcases List.getElem?_eq_some.mp hej with ⟨h, _⟩
    omega
  have hcnt : (((flattenChildren children).take i).filter
        (fun x => x.2 == ej.2)).length
      < (((flattenChildren children).take j).filter
        (fun x => x.2 == ej.2)).length := by
    have := filter_take_lt (l := flattenChildren children) (e := ei) hij hei hjlen
    rw [hdisp] at this
    exact this
  rw [hdisp] at hai2
  have hjpos : ¬((((flattenChildren children).take j).filter
      (fun x => x.2 == ej.2)).length = 0) := by omega
  rw [if_neg hjpos] at haj2
  by_cases hi0 : (((flattenChildren children).take i).filter
      (fun x => x.2 == ej.2)).length = 0
  · rw [if_pos hi0] at hai2
    rw [hai2, haj2]
    exact ne_append_paren _ _
  · rw [if_neg hi0] at hai2
    rw [hai2, haj2]
    intro he
    have hrepr := append_paren_inj _ _ _ he
    have := natRepr_inj _ _ hrepr
    omega

/-- Witness for C7: three same-titled children receive `"T"`, `"T (1)"`,
`"T (2)"`, and the first two names differ. -/
theorem linkName_disambiguation_witness :
    assignLinkNames (flattenChildren c7demo) [] = [("c1", "T"), ("c2", "T (1)"), ("c3", "T (2)")] ∧
    (("c1", "T") : String × String).2 ≠ (("c2", "T (1)") : String × String).2 :=
  ⟨rfl, (linkName_disambiguation c7demo).2 0 1 ("c1", "T") ("c2", "T") ("c1", "T")
    ("c2", "T (1)") (by omega) rfl rfl rfl rfl rfl⟩

/-! ### LocalFilesystem.GetNotes: the organize phase (claim C9) -/

/-- `_WorkingData` (LocalFilesystem.py lines 161-168): the per-directory
scan result.  `children` maps the link entry name to the child's id. -/
structure WorkingData where
  id : String
  mime_type : Option String
  content_hash : Option String
  attributes : List TriliumAttribute
  children : List (String × String)
deriving Repr

/-- `parent_map` construction (LocalFilesystem.py lines 101-108): ensure an
entry for each scanned id, and append the scanning id as a parent of each
of its children. -/
def buildParentMap (data : List WorkingData) : List (String × List String) :=
  data.foldl
    (fun m wd =>
      wd.children.foldl
        (fun m' p =>
          if m'.any (fun q => q.1 == p.2) then
            m'.map (fun q => if q.1 == p.2 then (q.1, q.2 ++ [wd.id]) else q)
          else
            m' ++ [(p.2, [wd.id])])
        (if m.any (fun q => q.1 == wd.id) then m else m ++ [(wd.id, [])]))
    []

/-- The `note_type` computation of `CreateNote` (LocalFilesystem.py lines
121-125): an empty or missing mime type gives an empty note type, otherwise
the note type is asserted to be in `mimetype_note_type_map`. -/
def noteTypeFor (wd : WorkingData) : Except String String :=
  if wd.mime_type.getD "" = "" then .ok ""
  else
    match mimetype_note_type_map.lookup (wd.mime_type.getD "") with
    | Option.some t => .ok t
    | Option.none => .error ("AssertionError: " ++ wd.mime_type.getD "")

/-- The children dict comprehension of `CreateNote` (LocalFilesystem.py
lines 134-137): look each child id up in the scanned data
(`working_note_data[child_id]`, a `KeyError` when absent) and build the
child notes in order, threading the memo table. -/
def createChildrenFold (data : List WorkingData)
    (rec : List (String × TriliumNoteShort) → WorkingData →
      Except String (TriliumNoteShort × List (String × TriliumNoteShort))) :
    List (String × String) → List (String × TriliumNoteShort) →
    Except String (List (String × TriliumNoteShort) × List (String × TriliumNoteShort))
  | [], lk => .ok ([], lk)
  | p :: rest, lk =>
    match data.find? (fun w => w.id == p.2) with
    | Option.none => .error ("KeyError: " ++ p.2)
    | Option.some cwd =>
      match rec lk cwd with
      | .error e => .error e
      | .ok (cnote, lk2) =>
        match createChildrenFold data rec rest lk2 with
        | .error e => .error e
        | .ok (acc2, lk3) => .ok ((p.1, cnote) :: acc2, lk3)

/-- `CreateNote` (LocalFilesystem.py lines 114-142): memoised by id through
`note_lookup`, recursing into the children dict; the recursion depth is
unbounded in Python and bounded by `fuel` here. -/
def createNote (data : List WorkingData) (parent_map : List (String × List String)) :
    Nat → List (String × TriliumNoteShort) → WorkingData →
    Except String (TriliumNoteShort × List (String × TriliumNoteShort))
  | 0, _, _ => .error "RecursionError"
  | Nat.succ fuel, note_lookup, wd =>
    match note_lookup.lookup wd.id with
    | Option.some n => .ok (n, note_lookup)
    | Option.none =>
      match noteTypeFor wd with
      | .error e => .error e
      | .ok note_type =>
        match parent_map.lookup wd.id with
        | Option.none => .error ("KeyError: " ++ wd.id)
        | Option.some parents =>
          match createChildrenFold data (createNote data parent_map fuel)
              wd.children note_lookup with
          | .error e => .error e
          | .ok (childAcc, lk) =>
            let note := TriliumNoteShort.mk wd.id note_type (wd.mime_type.getD "")
              parents wd.attributes wd.content_hash childAcc
            .ok (note, lk ++ [(wd.id, note)])

/-- One iteration of the roots loop of `LocalFilesystem.GetNotes` (lines
146-152): create the note for one scanned directory and collect it as a
root when its parent list is empty. -/
def organizeStep (data : List WorkingData) (parent_map : List (String × List String))
    (acc : Except String (List (String × TriliumNoteShort) × List TriliumNoteShort))
    (wd : WorkingData) :
    Except String (List (String × TriliumNoteShort) × List TriliumNoteShort) :=
  match acc with
  | .error e => .error e
  | .ok (lk, roots) =>
    match createNote data parent_map (data.length + 1) lk wd with
    | .error e => .error e
    | .ok (note, lk2) =>
      .ok (lk2, if note.parent_ids.isEmpty then roots ++ [note] else roots)

/-- The organize phase of `LocalFilesystem.GetNotes` (lines 99-155): build
the reverse parent index, create all notes, collect the parentless ones as
roots, assert exactly one root and return it. -/
def organizeNotes (data : List WorkingData) : Except String TriliumNoteShort :=
  match data.foldl (organizeStep data (buildParentMap data)) (.ok ([], [])) with
  | .error e => .error e
  | .ok (_, roots) =>
    match roots with
    | [root] => .ok root
    | _ => .error "AssertionError: len(roots) == 1"

/-- The memo-table invariant of `CreateNote`: every cached note carries its
own id as key and its parent list is the parent-map entry for that id. -/
def LkInv (pm : List (String × List String)) (lk : List (String × TriliumNoteShort)) : Prop :=
  ∀ p ∈ lk, p.2.id = p.1 ∧ pm.lookup p.1 = some p.2.parent_ids

theorem lookup_isSome_of_mem {α : Type} {m : List (String × α)} {q : String × α}
    (hq : q ∈ m) : (m.lookup q.1).isSome := by
  induction m with
  | nil => cases hq
  | cons mh mt ih =>
    rcases mh with ⟨k, v⟩
    rcases List.mem_cons.mp hq with h | h
    · subst h
      simp [List.lookup_cons]
    · rw [List.lookup_cons]
      by_cases hb : (q.1 == k) = true
      · simp [hb]
      · simp only [hb]
        exact ih h

/-- Keys of the parent map are only ever added, never removed. -/
theorem buildParentMap_keys_mono (data : List WorkingData) :
    ∀ wd ∈ data, ((buildParentMap data).lookup wd.id).isSome := by
  unfold buildParentMap
  suffices h : ∀ (l : List WorkingData) (m : List (String × List String)) (x : String),
      ((m.lookup x).isSome ∨ ∃ wd ∈ l, wd.id = x) →
      ((l.foldl
        (fun m wd =>
          wd.children.foldl
            (fun m' p =>
              if m'.any (fun q => q.1 == p.2) then
                m'.map (fun q => if q.1 == p.2 then (q.1, q.2 ++ [wd.id]) else q)
              else
                m' ++ [(p.2, [wd.id])])
            (if m.any (fun q => q.1 == wd.id) then m else m ++ [(wd.id, [])]))
        m).lookup x).isSome by
    intro wd hwd
    exact h data [] wd.id (Or.inr ⟨wd, hwd, rfl⟩)
  intro l
  induction l with
  | nil =>
    intro m x h
    rcases h with h | ⟨wd, hwd, _⟩
    · exact h
    · cases hwd
  | cons hd tl ih =>
    intro m x h
    simp only [List.foldl_cons]
    apply ih
    -- after one outer step, x is a key if it was one or if x = hd.id
    have inner_mono : ∀ (cs : List (String × String)) (m' : List (String × List String)),
        ((m'.lookup x).isSome) →
        (((cs.foldl
          (fun m' p =>
            if m'.any (fun q => q.1 == p.2) then
              m'.map (fun q => if q.1 == p.2 then (q.1, q.2 ++ [hd.id]) else q)
            else
              m' ++ [(p.2, [hd.id])])
          m').lookup x).isSome) := by
      intro cs
      induction cs with
      | nil => intro m' hm; exact hm
      | cons c ctl cih =>
        intro m' hm
        simp only [List.foldl_cons]
        apply cih
        by_cases hc : m'.any (fun q => q.1 == c.2) = true
        · rw [if_pos hc]
          rcases hs : m'.lookup x with _ | v
          · rw [hs] at hm; cases hm
          · have : ((m'.map (fun q => if q.1 == c.2 then (q.1, q.2 ++ [hd.id]) else q)).lookup x)
                = (m'.lookup x).map (fun v => if x == c.2 then v ++ [hd.id] else v) := by
              have := lookup_map_values m'
                (fun k v => if (k == c.2) = true then v ++ [hd.id] else v) x
              rw [← this]
              congr 1
              apply List.map_congr_left
              intro q _
              by_cases hq : (q.1 == c.2) = true <;> simp [hq]
            rw [this, hs]
            simp
        · rw [if_neg hc]
          rcases hs : m'.lookup x with _ | v
          · rw [hs] at hm; cases hm
          · rw [List.lookup_append, hs]
            simp
    rcases h with h | ⟨wd, hwd, hx⟩
    · left
      apply inner_mono
      by_cases hc : m.any (fun q => q.1 == hd.id) = true
      · rw [if_pos hc]; exact h
      · rw [if_neg hc]
        rcases hs : m.lookup x with _ | v
        · rw [hs] at h; cases h
        · rw [List.lookup_append, hs]; simp
    · rcases List.mem_cons.mp hwd with hwd | hwd
      · subst hwd
        left
        apply inner_mono
        by_cases hc : m.any (fun q => q.1 == wd.id) = true
        · rw [if_pos hc, ← hx]
          rcases List.any_eq_true.mp hc with ⟨q, hq, hqid⟩
          have hqs := lookup_isSome_of_mem hq
          have hqid' : q.1 = wd.id := eq_of_beq hqid
          rw [← hqid']
          exact hqs
        · rw [if_neg hc, ← hx, List.lookup_append]
          rcases hs : m.lookup wd.id with _ | v
          · simp [List.lookup_cons]
          · simp
      · right
        exact ⟨wd, hwd, hx⟩

theorem mem_of_lookup_eq_some {α : Type} {m : List (String × α)} {k : String} {v : α}
    (h : m.lookup k = some v) : (k, v) ∈ m := by
  induction m with
  | nil => cases h
  | cons mh mt ih =>
    rcases mh with ⟨k0, v0⟩
    rw [List.lookup_cons] at h
    by_cases hb : (k == k0) = true
    · rw [hb] at h
      injection h with h
      subst h
      have := eq_of_beq hb
      subst this
      exact List.mem_cons_self _ _
    · rw [Bool.not_eq_true] at hb
      rw [hb] at h
      exact List.mem_cons_of_mem _ (ih h)

/-- Under closedness, typed mime maps and an acyclicity rank, `CreateNote`
succeeds, returns a note whose id is the working data's id and whose parent
list is the parent-map entry, and extends the memo table monotonically. -/
theorem createNote_ok (data : List WorkingData) (rank : String → Nat)
    (hmime : ∀ wd ∈ data, ∃ t, noteTypeFor wd = .ok t)
    (hclosed : ∀ wd ∈ data, ∀ p ∈ wd.children, ∃ cwd, cwd ∈ data ∧ cwd.id = p.2)
    (hrank : ∀ wd ∈ data, ∀ p ∈ wd.children, ∀ cwd ∈ data, cwd.id = p.2 →
      rank cwd.id < rank wd.id) :
    ∀ (fuel : Nat) (wd : WorkingData) (lk : List (String × TriliumNoteShort)),
      wd ∈ data → rank wd.id < fuel → LkInv (buildParentMap data) lk →
      ∃ n lk', createNote data (buildParentMap data) fuel lk wd = .ok (n, lk') ∧
        n.id = wd.id ∧ (buildParentMap data).lookup wd.id = some n.parent_ids ∧
        LkInv (buildParentMap data) lk' ∧ (∀ q ∈ lk, q ∈ lk') := by
  intro fuel
  induction fuel with
  | zero =>
    intro wd lk _ hr _
    omega
  | succ fuel ih =>
    intro wd lk hwd hr hinv
    rw [createNote]
    rcases hlkw : lk.lookup wd.id with _ | n
    · obtain ⟨t, ht⟩ := hmime wd hwd
      have hpsome := buildParentMap_keys_mono data wd hwd
      rcases hps : (buildParentMap data).lookup wd.id with _ | parents
      · rw [hps] at hpsome; cases hpsome
      · have hfold : ∀ (cs : List (String × String)), (∀ p ∈ cs, p ∈ wd.children) →
            ∀ (lk0 : List (String × TriliumNoteShort)), LkInv (buildParentMap data) lk0 →
            (∀ q ∈ lk, q ∈ lk0) →
            ∃ acc lk1, createChildrenFold data
                (createNote data (buildParentMap data) fuel) cs lk0 = .ok (acc, lk1) ∧
              LkInv (buildParentMap data) lk1 ∧ (∀ q ∈ lk, q ∈ lk1) := by
          intro cs
          induction cs with
          | nil =>
            intro _ lk0 hinv0 hext0
            exact ⟨[], lk0, rfl, hinv0, hext0⟩
          | cons p rest ihcs =>
            intro hsub lk0 hinv0 hext0
            obtain ⟨cwd, hcwd, hcwdid⟩ := hclosed wd hwd p (hsub p (List.mem_cons_self _ _))
            have hex : (data.find? (fun w => w.id == p.2)).isSome := by
              rw [List.find?_isSome]
              exact ⟨cwd, hcwd, beq_iff_eq.mpr hcwdid⟩
            obtain ⟨w, hw⟩ := Option.isSome_iff_exists.mp hex
            have hwmem : w ∈ data := List.mem_of_find?_eq_some hw
            have hwid : w.id = p.2 := by
              have h2 := List.find?_some hw
              simp at h2
              exact h2
            have hwrank : rank w.id < fuel := by
              have := hrank wd hwd p (hsub p (List.mem_cons_self _ _)) w hwmem hwid
              omega
            obtain ⟨cn, lk2, hcn, _, _, hinv2, hext2⟩ := ih w lk0 hwmem hwrank hinv0
            obtain ⟨acc2, lk3, hrest, hinv3, hext3⟩ := ihcs
              (fun q hq => hsub q (List.mem_cons_of_mem _ hq)) lk2 hinv2
              (fun q hq => hext2 q (hext0 q hq))
            refine ⟨(p.1, cn) :: acc2, lk3, ?_, hinv3, hext3⟩
            rw [createChildrenFold]
            simp only [hw, hcn, hrest]
        obtain ⟨acc, lk1, hcf, hinv1, hext1⟩ := hfold wd.children (fun p hp => hp) lk hinv
          (fun q hq => hq)
        simp only [hlkw, ht, hps, hcf]
        refine ⟨_, _, rfl, rfl, ?_, ?_, ?_⟩
        · rfl
        · intro q hq
          rcases List.mem_append.mp hq with hq | hq
          · exact hinv1 q hq
          · simp at hq
            subst hq
            refine ⟨rfl, ?_⟩
            simpa [TriliumNoteShort.parent_ids, TriliumNoteShort.id] using hps
        · intro q hq
          exact List.mem_append.mpr (Or.inl (hext1 q hq))
    · have hq := hinv (wd.id, n) (mem_of_lookup_eq_some hlkw)
      simp only [hlkw]
      exact ⟨n, lk, rfl, hq.1, hq.2, hinv, fun q hq2 => hq2⟩

/-- **C9.**  After the scan, the organize phase builds the reverse parent
index from the forward child maps; when exactly one scanned directory has
no parents, that node is returned as the root, and when the number of
parentless directories is not one, the phase fails with the
`len(roots) == 1` assertion instead of returning a DAG.  (The hypotheses
say the scanned data is id-unique, child-closed, acyclic — witnessed by a
rank function — and carries only known mime types, i.e. the scan phase
completed and note construction can succeed.) -/
theorem organizeNotes_root_characterization
    (data : List WorkingData) (rank : String → Nat)
    (hmime : ∀ wd ∈ data, ∃ t, noteTypeFor wd = .ok t)
    (hclosed : ∀ wd ∈ data, ∀ p ∈ wd.children, ∃ cwd, cwd ∈ data ∧ cwd.id = p.2)
    (hrank : ∀ wd ∈ data, ∀ p ∈ wd.children, ∀ cwd ∈ data, cwd.id = p.2 →
      rank cwd.id < rank wd.id)
    (hrankbound : ∀ wd ∈ data, rank wd.id < data.length) :
    (∀ wd0, data.filter
        (fun wd => (buildParentMap data).lookup wd.id == some []) = [wd0] →
      ∃ root, organizeNotes data = .ok root ∧ root.id = wd0.id ∧ root.parent_ids = []) ∧
    ((data.filter
        (fun wd => (buildParentMap data).lookup wd.id == some [])).length ≠ 1 →
      organizeNotes data = .error "AssertionError: len(roots) == 1") := by
  have hcn := createNote_ok data rank hmime hclosed hrank
  have hloop : ∀ (rest : List WorkingData), (∀ wd ∈ rest, wd ∈ data) →
      ∀ (lk : List (String × TriliumNoteShort)) (roots : List TriliumNoteShort),
      LkInv (buildParentMap data) lk →
      ∃ lk2 notes,
        rest.foldl (organizeStep data (buildParentMap data)) (.ok (lk, roots))
          = .ok (lk2, roots ++ notes) ∧
        LkInv (buildParentMap data) lk2 ∧
        notes.map (fun n => n.id) = ((rest.filter
          (fun wd => (buildParentMap data).lookup wd.id == some [])).map
            (fun wd => wd.id)) ∧
        (∀ n ∈ notes, n.parent_ids = []) := by
    intro rest
    induction rest with
    | nil =>
      intro _ lk roots hinv
      exact ⟨lk, [], by simp, hinv, by simp, by simp⟩
    | cons wd rest ihr =>
      intro hsub lk roots hinv
      obtain ⟨note, lk1, hnote, hid, hpar, hinv1, _⟩ := hcn (data.length + 1) wd lk
        (hsub wd (List.mem_cons_self _ _))
        (by have := hrankbound wd (hsub wd (List.mem_cons_self _ _)); omega) hinv
      by_cases hempty : note.parent_ids.isEmpty = true
      · have hparnil : note.parent_ids = [] := List.isEmpty_iff.mp hempty
        have hfw : ((buildParentMap data).lookup wd.id == some ([] : List String)) = true := by
          rw [hpar, hparnil]
          simp
        obtain ⟨lk2, notes, hfold, hinv2, hmapids, hallnil⟩ :=
          ihr (fun q hq => hsub q (List.mem_cons_of_mem _ hq)) lk1 (roots ++ [note]) hinv1
        refine ⟨lk2, note :: notes, ?_, hinv2, ?_, ?_⟩
        · rw [List.foldl_cons]
          rw [organizeStep, hnote]
          simp only [hempty, if_true]
          rw [hfold]
          simp
        · rw [List.filter_cons, hfw]
          simp only [if_true, List.map_cons, hmapids, hid]
        · intro n hn
          rcases List.mem_cons.mp hn with hn | hn
          · subst hn; exact hparnil
          · exact hallnil n hn
      · have hfw : ((buildParentMap data).lookup wd.id == some ([] : List String)) = false := by
          rw [hpar]
          rcases hpids : note.parent_ids with _ | ⟨x, xs⟩
          · rw [hpids] at hempty; simp at hempty
          · simp
        obtain ⟨lk2, notes, hfold, hinv2, hmapids, hallnil⟩ :=
          ihr (fun q hq => hsub q (List.mem_cons_of_mem _ hq)) lk1 roots hinv1
        refine ⟨lk2, notes, ?_, hinv2, ?_, hallnil⟩
        · rw [List.foldl_cons]
          rw [organizeStep, hnote]
          simp only [hempty, if_false]
          exact hfold
        · rw [List.filter_cons, hfw]
          simp only [Bool.false_eq_true, if_false]
          exact hmapids
  obtain ⟨lk2, notes, hfold, _, hmapids, hallnil⟩ :=
    hloop data (fun _ h => h) [] [] (fun p hp => by cases hp)
  constructor
  · intro wd0 hfilter
    rw [hfilter] at hmapids
    simp only [List.map_cons, List.map_nil] at hmapids
    rcases notes with _ | ⟨n, _ | ⟨m, tl⟩⟩
    · simp at hmapids
    · simp only [List.map_cons, List.map_nil, List.cons.injEq] at hmapids
      refine ⟨n, ?_, hmapids.1, hallnil n (List.mem_cons_self _ _)⟩
      rw [organizeNotes, hfold]
      simp
    · simp at hmapids
  · intro hlen
    have hnoteslen : notes.length ≠ 1 := by
      have h1 := congrArg List.length hmapids
      simp only [List.length_map] at h1
      omega
    rw [organizeNotes, hfold]
    rcases notes with _ | ⟨n, _ | ⟨m, tl⟩⟩
    · rfl
    · simp at hnoteslen
    · rfl

/-- Scanned store for the C9 witness: a root with two children. -/
def c9wdR : WorkingData :=
  ⟨"R", some "text/html", some "h", [], [("[link] x", "A"), ("[link] y", "B")]⟩

/-- A structural child for the C9 witness. -/
def c9wdA : WorkingData := ⟨"A", Option.none, Option.none, [], []⟩

/-- A content-bearing child for the C9 witness. -/
def c9wdB : WorkingData := ⟨"B", some "text/css", some "h2", [], []⟩

/-- The C9 witness store. -/
def c9data : List WorkingData := [c9wdR, c9wdA, c9wdB]

/-- Witness for C9 at a concrete scanned store. -/
theorem organizeNotes_root_characterization_witness :
    ∃ root, organizeNotes c9data = .ok root ∧ root.id = c9wdR.id ∧ root.parent_ids = [] :=
  (organizeNotes_root_characterization c9data
    (fun s => if s = "R" then 1 else 0)
    (by intro wd hwd; fin_cases hwd <;> exact ⟨_, rfl⟩)
    (by
      intro wd hwd
      fin_cases hwd
      · intro p hp
        fin_cases hp
        · exact ⟨c9wdA, List.mem_cons_of_mem _ (List.mem_cons_self _ _), rfl⟩
        · exact ⟨c9wdB, List.mem_cons_of_mem _ (List.mem_cons_of_mem _
            (List.mem_cons_self _ _)), rfl⟩
      · intro p hp
        cases hp
      · intro p hp
        cases hp)
    (by
      intro wd hwd
      fin_cases hwd
      · intro p hp
        fin_cases hp
        · intro cwd _ hcid
          rw [hcid]
          decide
        · intro cwd _ hcid
          rw [hcid]
          decide
      · intro p hp
        cases hp
      · intro p hp
        cases hp)
    (by intro wd hwd; fin_cases hwd <;> decide)).1 c9wdR (by rfl)

/-! ### Parent-before-children ordering without fan-in (claim C4, amended) -/

mutual

/-- All node ids of a note tree, root first, in traversal order (with
multiplicity). -/
def allIds : TriliumNoteShort → List String
  | .mk i _ _ _ _ _ cs => i :: childrenIds cs

/-- All node ids below a children map. -/
def childrenIds : List (String × TriliumNoteShort) → List String
  | [] => []
  | (_, c) :: rest => allIds c ++ childrenIds rest

end

/-- A node occurs in a tree: it is the root or occurs in a child. -/
inductive Occurs : TriliumNoteShort → TriliumNoteShort → Prop where
  | refl (n : TriliumNoteShort) : Occurs n n
  | child {p c n : TriliumNoteShort} {l : String} (h : (l, c) ∈ n.children)
      (hp : Occurs p c) : Occurs p n

theorem allIds_eq (n : TriliumNoteShort) : allIds n = n.id :: childrenIds n.children := by
  cases n with
  | mk i t m p a h c => rfl

theorem mem_childrenIds_of_mem {l : String} {c : TriliumNoteShort}
    {cs : List (String × TriliumNoteShort)} (h : (l, c) ∈ cs) :
    ∀ x ∈ allIds c, x ∈ childrenIds cs := by
  induction cs with
  | nil => cases h
  | cons hd tl ih =>
    rcases hd with ⟨l0, c0⟩
    intro x hx
    rw [childrenIds]
    rcases List.mem_cons.mp h with h0 | h0
    · cases h0
      exact List.mem_append.mpr (Or.inl hx)
    · exact List.mem_append.mpr (Or.inr (ih h0 x hx))

theorem occurs_allIds_sub {p a : TriliumNoteShort} (h : Occurs p a) :
    ∀ x ∈ allIds p, x ∈ allIds a := by
  induction h with
  | refl => exact fun x hx => hx
  | child hmem _ ih =>
    intro x hx
    rw [allIds_eq]
    exact List.mem_cons_of_mem _ (mem_childrenIds_of_mem hmem x (ih x hx))

theorem id_mem_allIds (n : TriliumNoteShort) : n.id ∈ allIds n := by
  rw [allIds_eq]
  exact List.mem_cons_self _ _

theorem occurs_id_mem {p a : TriliumNoteShort} (h : Occurs p a) : p.id ∈ allIds a :=
  occurs_allIds_sub h p.id (id_mem_allIds p)

theorem childrenIds_flatten (cs : List (String × TriliumNoteShort)) :
    childrenIds cs = (cs.map (fun p => allIds p.2)).flatten := by
  induction cs with
  | nil => rfl
  | cons hd tl ih =>
    rcases hd with ⟨l, c⟩
    rw [childrenIds, ih]
    simp

theorem nodup_allIds_of_mem {l : String} {c : TriliumNoteShort}
    {cs : List (String × TriliumNoteShort)} (hnd : (childrenIds cs).Nodup)
    (h : (l, c) ∈ cs) : (allIds c).Nodup := by
  induction cs with
  | nil => cases h
  | cons hd tl ih =>
    rcases hd with ⟨l0, c0⟩
    rw [childrenIds, List.nodup_append] at hnd
    rcases List.mem_cons.mp h with h0 | h0
    · cases h0
      exact hnd.1
    · exact ih hnd.2.1 h0

theorem childrenIds_overlap {cs : List (String × TriliumNoteShort)}
    (hnd : (childrenIds cs).Nodup) :
    ∀ {l1 c1 l2 c2 x}, (l1, c1) ∈ cs → (l2, c2) ∈ cs →
      x ∈ allIds c1 → x ∈ allIds c2 → c1 = c2 := by
  induction cs with
  | nil => intro l1 c1 l2 c2 x h1; cases h1
  | cons hd tl ih =>
    rcases hd with ⟨l0, c0⟩
    rw [childrenIds, List.nodup_append] at hnd
    intro l1 c1 l2 c2 x h1 h2 hx1 hx2
    rcases List.mem_cons.mp h1 with h1 | h1 <;> rcases List.mem_cons.mp h2 with h2 | h2
    · cases h1; cases h2; rfl
    · cases h1
      exact absurd (mem_childrenIds_of_mem h2 x hx2) (hnd.2.2 hx1)
    · cases h2
      exact absurd (mem_childrenIds_of_mem h1 x hx1) (hnd.2.2 hx2)
    · exact ih hnd.2.1 h1 h2 hx1 hx2

/-- "Every `pid` event precedes every `cid` event" in an event stream. -/
def PBC (events : List DiffInfo) (pid cid : String) : Prop :=
  ∀ (i j : Nat) (e1 e2 : DiffInfo), events[i]? = some e1 → events[j]? = some e2 →
    e1.actual.id = pid → e2.actual.id = cid → i < j

theorem pbc_of_no_pid {events : List DiffInfo} {pid cid : String}
    (h : ∀ e ∈ events, e.actual.id ≠ pid) : PBC events pid cid := by
  intro i j e1 e2 h1 _ hp _
  exact absurd hp (h e1 (List.getElem?_mem h1))

theorem pbc_of_no_cid {events : List DiffInfo} {pid cid : String}
    (h : ∀ e ∈ events, e.actual.id ≠ cid) : PBC events pid cid := by
  intro i j e1 e2 _ h2 _ hc
  exact absurd hc (h e2 (List.getElem?_mem h2))

theorem pbc_append_split {xs ys : List DiffInfo} {pid cid : String}
    (hx : ∀ e ∈ xs, e.actual.id ≠ cid) (hy : ∀ e ∈ ys, e.actual.id ≠ pid) :
    PBC (xs ++ ys) pid cid := by
  intro i j e1 e2 h1 h2 hp hc
  have hi : i < xs.length := by
    by_contra hge
    rw [List.getElem?_append_right (by omega)] at h1
    exact absurd hp (hy e1 (List.getElem?_mem h1))
  have hj : xs.length ≤ j := by
    by_contra hlt
    rw [List.getElem?_append_left (by omega)] at h2
    exact absurd hc (hx e2 (List.getElem?_mem h2))
  omega

theorem pbc_append_left {xs ys : List DiffInfo} {pid cid : String}
    (h : PBC xs pid cid)
    (hy : ∀ e ∈ ys, e.actual.id ≠ pid ∧ e.actual.id ≠ cid) :
    PBC (xs ++ ys) pid cid := by
  intro i j e1 e2 h1 h2 hp hc
  have hi : i < xs.length := by
    by_contra hge
    rw [List.getElem?_append_right (by omega)] at h1
    exact absurd hp (hy e1 (List.getElem?_mem h1)).1
  have hj : j < xs.length := by
    by_contra hge
    rw [List.getElem?_append_right (by omega)] at h2
    exact absurd hc (hy e2 (List.getElem?_mem h2)).2
  rw [List.getElem?_append_left hi] at h1
  rw [List.getElem?_append_left hj] at h2
  exact h i j e1 e2 h1 h2 hp hc

theorem pbc_append_right {xs ys : List DiffInfo} {pid cid : String}
    (hx : ∀ e ∈ xs, e.actual.id ≠ pid ∧ e.actual.id ≠ cid)
    (h : PBC ys pid cid) :
    PBC (xs ++ ys) pid cid := by
  intro i j e1 e2 h1 h2 hp hc
  have hi : xs.length ≤ i := by
    by_contra hlt
    rw [List.getElem?_append_left (by omega)] at h1
    exact absurd hp (hx e1 (List.getElem?_mem h1)).1
  have hj : xs.length ≤ j := by
    by_contra hlt
    rw [List.getElem?_append_left (by omega)] at h2
    exact absurd hc (hx e2 (List.getElem?_mem h2)).2
  rw [List.getElem?_append_right hi] at h1
  rw [List.getElem?_append_right hj] at h2
  have := h _ _ e1 e2 h1 h2 hp hc
  omega

theorem contentDiffs_actual {r a : TriliumNoteShort} {e : DiffInfo}
    (h : e ∈ contentDiffs r a) : e.actual = a := by
  unfold contentDiffs at h
  split_ifs at h <;> simp at h <;> subst h <;> rfl

theorem parentIdDiffs_actual {r a : TriliumNoteShort} {e : DiffInfo}
    (h : e ∈ parentIdDiffs r a) : e.actual = a := by
  unfold parentIdDiffs at h
  rcases List.mem_append.mp h with h | h <;>
    · rcases List.mem_map.mp h with ⟨p, _, hpe⟩
      subst hpe
      rfl

theorem attributeDiffs_actual {r a : TriliumNoteShort} {e : DiffInfo}
    (h : e ∈ attributeDiffs r a) : e.actual = a := by
  unfold attributeDiffs at h
  rcases List.mem_append.mp h with h | h
  · rcases List.mem_flatMap.mp h with ⟨p, _, hpe⟩
    rcases hlk : (attrDict r.attributes).lookup p.1 with _ | ra
    · rw [hlk] at hpe
      simp at hpe
      subst hpe
      rfl
    · rw [hlk] at hpe
      have hpe' : e ∈ (if p.2 ≠ ra then
          [(⟨.attribute_changed, r, a, .attr p.2⟩ : DiffInfo)] else []) := hpe
      split_ifs at hpe' <;> simp at hpe'
      subst hpe'
      rfl
  · rcases List.mem_map.mp h with ⟨p, _, hpe⟩
    subst hpe
    rfl

theorem scanChildren_events_actual {ref : TriliumNoteShort}
    {ra : TriliumNoteShort × TriliumNoteShort} :
    ∀ {cs unmatched : List (String × TriliumNoteShort)} {e : DiffInfo},
      e ∈ (scanChildren ref cs unmatched ra).1 → e.actual = ra.2 := by
  intro cs
  induction cs with
  | nil => intro unmatched e he; simp [scanChildren] at he
  | cons hd tl ih =>
    intro unmatched e he
    rcases hd with ⟨al, ac⟩
    rw [scanChildren] at he
    rcases hm : (match ref.children.lookup al with
      | Option.some reference_child => Option.some (al, reference_child)
      | Option.none => findChildById ref.children ac.id) with _ | ⟨rl, rc⟩
    · rw [hm] at he
      simp only at he
      rcases hs : scanChildren ref tl unmatched ra with ⟨evs, res⟩
      rw [hs] at he
      simp only [List.mem_cons] at he
      rcases he with he | he
      · subst he; rfl
      · exact ih (by rw [hs]; exact he)
    · rw [hm] at he
      simp only at he
      by_cases hu : unmatched.any (fun p => p.1 == rl) = true
      · rw [if_pos hu] at he
        rcases hs : scanChildren ref tl (unmatched.filter (fun p => !(p.1 == rl))) ra
          with ⟨evs, res⟩
        rw [hs] at he
        cases res with
        | error e2 =>
          simp only at he
          exact ih (by rw [hs]; exact he)
        | ok qr =>
          rcases qr with ⟨queue, remaining⟩
          simp only at he
          exact ih (by rw [hs]; exact he)
      · rw [if_neg hu] at he
        simp at he

/-- The actual components of the matched queue form a sublist of the
actual node's children values: each child is queued at most once, in
order. -/
theorem scanChildren_queue_sublist {ref : TriliumNoteShort}
    {ra : TriliumNoteShort × TriliumNoteShort} :
    ∀ {cs unmatched : List (String × TriliumNoteShort)} {ev : List DiffInfo}
      {queue : List (TriliumNoteShort × TriliumNoteShort)}
      {rem : List (String × TriliumNoteShort)},
      scanChildren ref cs unmatched ra = (ev, .ok (queue, rem)) →
      List.Sublist (queue.map Prod.snd) (cs.map Prod.snd) := by
  intro cs
  induction cs with
  | nil =>
    intro unmatched ev queue rem h
    rw [scanChildren] at h
    injection h with h1 h2
    injection h2 with h2
    injection h2 with h2 _
    rw [← h2]
    simp
  | cons hd tl ih =>
    intro unmatched ev queue rem h
    rcases hd with ⟨al, ac⟩
    rw [scanChildren] at h
    rcases hm : (match ref.children.lookup al with
      | Option.some reference_child => Option.some (al, reference_child)
      | Option.none => findChildById ref.children ac.id) with _ | ⟨rl, rc⟩
    · rw [hm] at h
      simp only at h
      rcases hs : scanChildren ref tl unmatched ra with ⟨evs, res⟩
      rw [hs] at h
      injection h with h1 h2
      cases res with
      | error e2 => cases h2
      | ok qr =>
        rcases qr with ⟨queue2, rem2⟩
        injection h2 with h2
        injection h2 with h2 h3
        rw [← h2]
        exact List.Sublist.cons _ (ih (by rw [hs]))
    · rw [hm] at h
      simp only at h
      by_cases hu : unmatched.any (fun p => p.1 == rl) = true
      · rw [if_pos hu] at h
        rcases hs : scanChildren ref tl (unmatched.filter (fun p => !(p.1 == rl))) ra
          with ⟨evs, res⟩
        rw [hs] at h
        cases res with
        | error e2 =>
          injection h with h1 h2
          cases h2
        | ok qr =>
          rcases qr with ⟨queue2, rem2⟩
          injection h with h1 h2
          injection h2 with h2
          injection h2 with h2 h3
          rw [← h2]
          simp only [List.map_cons]
          exact List.Sublist.cons₂ _ (ih (by rw [hs]))
      · rw [if_neg hu] at h
        injection h with h1 h2
        cases h2

/-- Every event emitted below a pair carries an actual node whose id lies
in the actual tree. -/
theorem enumDiffImpl_events_ids :
    ∀ (fuel : Nat) (r a : TriliumNoteShort) (S1 S2 : List String) (e : DiffInfo),
      e ∈ (enumDiffImpl fuel r a S1 S2).1 → e.actual.id ∈ allIds a := by
  intro fuel
  induction fuel with
  | zero => intro r a S1 S2 e he; simp [enumDiffImpl] at he
  | succ fuel ih =>
    intro r a S1 S2 e he
    by_cases h1 : r.id ∈ S1
    · rw [enumDiffImpl, if_pos h1] at he
      by_cases h2 : a.id ∈ S2 <;> simp [h2] at he
    · have hchildsub : ∀ (p : TriliumNoteShort × TriliumNoteShort)
          (queue : List (TriliumNoteShort × TriliumNoteShort)),
          List.Sublist (queue.map Prod.snd) (a.children.map Prod.snd) → p ∈ queue →
          ∀ x ∈ allIds p.2, x ∈ allIds a := by
        intro p queue hsl hp x hx
        have hpm : p.2 ∈ a.children.map Prod.snd :=
          hsl.subset (List.mem_map.mpr ⟨p, hp, rfl⟩)
        obtain ⟨q, hq, hq2⟩ := List.mem_map.mp hpm
        rw [allIds_eq]
        refine List.mem_cons_of_mem _ ?_
        have : (q.1, p.2) ∈ a.children := by
          have : q = (q.1, p.2) := by
            rcases q with ⟨q1, q2⟩
            simp at hq2
            rw [hq2]
          rw [← this]
          exact hq
        exact mem_childrenIds_of_mem this x hx
      rcases hsc : scanChildren r a.children r.children (r, a) with ⟨csEvents, res⟩
      cases res with
      | error e2 =>
        rw [enumDiffImpl_eq_err h1 hsc] at he
        simp only [List.append_assoc, List.mem_append] at he
        rcases he with he | he | he | he
        · rw [contentDiffs_actual he]; exact id_mem_allIds a
        · rw [parentIdDiffs_actual he]; exact id_mem_allIds a
        · rw [attributeDiffs_actual he]; exact id_mem_allIds a
        · rw [scanChildren_events_actual (by rw [hsc]; exact he)]
          exact id_mem_allIds a
      | ok qr =>
        rcases qr with ⟨queue, unmatched⟩
        rw [enumDiffImpl_eq_ok h1 hsc] at he
        simp only [List.append_assoc, List.mem_append] at he
        rcases he with he | he | he | he | he | he
        · rw [contentDiffs_actual he]; exact id_mem_allIds a
        · rw [parentIdDiffs_actual he]; exact id_mem_allIds a
        · rw [attributeDiffs_actual he]; exact id_mem_allIds a
        · rw [scanChildren_events_actual (by rw [hsc]; exact he)]
          exact id_mem_allIds a
        · rcases List.mem_map.mp he with ⟨p, _, hpe⟩
          subst hpe
          exact id_mem_allIds a
        · obtain ⟨p, rp', ap', hp, hpe⟩ := childFold_events_mem he
          exact hchildsub p queue (scanChildren_queue_sublist hsc) hp
            e.actual.id (ih p.1 p.2 rp' ap' e hpe)

/-- Events below a matched-children queue live in the queued subtrees. -/
theorem childFold_events_ids {fuel : Nat}
    {queue : List (TriliumNoteShort × TriliumNoteShort)} {rp ap : List String}
    {e : DiffInfo} (he : e ∈ (childFold (enumDiffImpl fuel) queue rp ap).1) :
    ∃ s ∈ queue.map Prod.snd, e.actual.id ∈ allIds s := by
  obtain ⟨p, rp', ap', hp, hpe⟩ := childFold_events_mem he
  exact ⟨p.2, List.mem_map.mpr ⟨p, hp, rfl⟩, enumDiffImpl_events_ids fuel p.1 p.2 rp' ap' e hpe⟩

/-- Events below a matched-children queue taken from a children map carry
ids of that children map. -/
theorem childFold_events_in {fuel : Nat}
    {queue : List (TriliumNoteShort × TriliumNoteShort)}
    {cs : List (String × TriliumNoteShort)} {rp ap : List String}
    (hsl : List.Sublist (queue.map Prod.snd) (cs.map Prod.snd))
    {e : DiffInfo} (he : e ∈ (childFold (enumDiffImpl fuel) queue rp ap).1) :
    e.actual.id ∈ childrenIds cs := by
  obtain ⟨s, hs, hse⟩ := childFold_events_ids he
  obtain ⟨q, hq, hq2⟩ := List.mem_map.mp (hsl.subset hs)
  rcases q with ⟨q1, q2⟩
  simp only at hq2
  subst hq2
  exact mem_childrenIds_of_mem hq e.actual.id hse

/-- Parent-before-children ordering over the queue of matched children, given
the ordering property at the next fuel level. -/
theorem childFold_pbc {fuel : Nat} {a pa ca c0 : TriliumNoteShort} {lc l0 : String}
    (ih : ∀ (r a : TriliumNoteShort) (S1 S2 : List String)
      (pa ca : TriliumNoteShort) (lc : String),
      Occurs pa a → (lc, ca) ∈ pa.children → (allIds a).Nodup →
      PBC (enumDiffImpl fuel r a S1 S2).1 pa.id ca.id)
    (hndc : (childrenIds a.children).Nodup)
    (hocc' : Occurs pa c0) (hchild : (lc, ca) ∈ pa.children)
    (hmem : (l0, c0) ∈ a.children) :
    ∀ (queue : List (TriliumNoteShort × TriliumNoteShort)),
      List.Sublist (queue.map Prod.snd) (a.children.map Prod.snd) →
      ∀ rp ap, PBC (childFold (enumDiffImpl fuel) queue rp ap).1 pa.id ca.id := by
  have hca_pa : ca.id ∈ allIds pa := by
    rw [allIds_eq pa]
    exact List.mem_cons_of_mem _
      (mem_childrenIds_of_mem hchild ca.id (id_mem_allIds ca))
  have hca_c0 : ca.id ∈ allIds c0 := occurs_allIds_sub hocc' ca.id hca_pa
  have hpa_c0 : pa.id ∈ allIds c0 := occurs_id_mem hocc'
  have hpw : List.Pairwise List.Disjoint ((a.children.map Prod.snd).map allIds) := by
    have h := hndc
    rw [childrenIds_flatten] at h
    rw [List.map_map]
    exact (List.nodup_flatten.mp h).2
  intro queue
  induction queue with
  | nil =>
    intro _ rp ap i j e1 e2 h1 _ _ _
    simp [childFold] at h1
  | cons p rest ihq =>
    intro hsl rp ap
    simp only [List.map_cons] at hsl
    have hslrest : List.Sublist (rest.map Prod.snd) (a.children.map Prod.snd) :=
      (List.sublist_cons_self _ _).trans hsl
    obtain ⟨q, hq, hq2⟩ := List.mem_map.mp (hsl.subset (List.mem_cons_self _ _))
    rcases q with ⟨q1, q2⟩
    simp only at hq2
    subst hq2
    have hdisj : ∀ s ∈ rest.map Prod.snd, ∀ x, x ∈ allIds p.2 → x ∉ allIds s := by
      have hpwq : List.Pairwise List.Disjoint
          ((p.2 :: rest.map Prod.snd).map allIds) := hpw.sublist (hsl.map allIds)
      rw [List.map_cons, List.pairwise_cons] at hpwq
      intro s hs x hx hxs
      exact hpwq.1 (allIds s) (List.mem_map.mpr ⟨s, hs, rfl⟩) hx hxs
    rw [childFold]
    rcases hr : enumDiffImpl fuel p.1 p.2 rp ap with ⟨ev2, res2⟩
    by_cases hin : pa.id ∈ allIds p.2
    · have hpc : p.2 = c0 := childrenIds_overlap hndc hq hmem hin hpa_c0
      have hocc2 : Occurs pa p.2 := by rw [hpc]; exact hocc'
      have hca2 : ca.id ∈ allIds p.2 := by rw [hpc]; exact hca_c0
      have hnd2 : (allIds p.2).Nodup := nodup_allIds_of_mem hndc hq
      have hpbc2 : PBC ev2 pa.id ca.id := by
        have h := ih p.1 p.2 rp ap pa ca lc hocc2 hchild hnd2
        rw [hr] at h
        exact h
      cases res2 with
      | error e0 => exact hpbc2
      | ok st =>
        rcases st with ⟨rp', ap'⟩
        rcases hcf : childFold (enumDiffImpl fuel) rest rp' ap' with ⟨evs3, res3⟩
        simp only [hcf]
        refine pbc_append_left hpbc2 ?_
        intro e he
        have hmem3 : e.actual.id ∈ childrenIds a.children :=
          childFold_events_in hslrest (by rw [hcf]; exact he)
        obtain ⟨s, hs, hse⟩ := childFold_events_ids (e := e) (by rw [hcf]; exact he)
        constructor
        · intro heq
          exact hdisj s hs pa.id hin (heq ▸ hse)
        · intro heq
          exact hdisj s hs ca.id hca2 (heq ▸ hse)
    · have hcain : ca.id ∉ allIds p.2 := by
        intro hca
        have hpc : p.2 = c0 := childrenIds_overlap hndc hq hmem hca hca_c0
        rw [hpc] at hin
        exact hin hpa_c0
      have hx2 : ∀ e ∈ ev2, e.actual.id ≠ pa.id ∧ e.actual.id ≠ ca.id := by
        intro e he
        have hid := enumDiffImpl_events_ids fuel p.1 p.2 rp ap e (by rw [hr]; exact he)
        exact ⟨fun heq => hin (heq ▸ hid), fun heq => hcain (heq ▸ hid)⟩
      cases res2 with
      | error e0 => exact pbc_of_no_pid (fun e he => (hx2 e he).1)
      | ok st =>
        rcases st with ⟨rp', ap'⟩
        rcases hcf : childFold (enumDiffImpl fuel) rest rp' ap' with ⟨evs3, res3⟩
        simp only [hcf]
        refine pbc_append_right hx2 ?_
        have h := ihq hslrest rp' ap'
        rw [hcf] at h
        exact h

/-- Parent-before-children ordering of the fuelled generator, assuming no node
id repeats in the actual tree. -/
theorem enumDiffImpl_pbc :
    ∀ (fuel : Nat) (r a : TriliumNoteShort) (S1 S2 : List String)
      (pa ca : TriliumNoteShort) (lc : String),
      Occurs pa a → (lc, ca) ∈ pa.children → (allIds a).Nodup →
      PBC (enumDiffImpl fuel r a S1 S2).1 pa.id ca.id := by
  intro fuel
  induction fuel with
  | zero =>
    intro r a S1 S2 pa ca lc _ _ _ i j e1 e2 h1 _ _ _
    simp [enumDiffImpl] at h1
  | succ fuel ih =>
    intro r a S1 S2 pa ca lc hocc hchild hnodup
    by_cases h1 : r.id ∈ S1
    · intro i j e1 e2 he1 _ _ _
      rw [enumDiffImpl, if_pos h1] at he1
      by_cases h2 : a.id ∈ S2 <;> simp [h2] at he1
    · have hnd := hnodup
      rw [allIds_eq, List.nodup_cons] at hnd
      obtain ⟨hanotc, hndc⟩ := hnd
      have hca_pa : ca.id ∈ allIds pa := by
        rw [allIds_eq pa]
        exact List.mem_cons_of_mem _
          (mem_childrenIds_of_mem hchild ca.id (id_mem_allIds ca))
      rcases hsc : scanChildren r a.children r.children (r, a) with ⟨csEvents, res⟩
      cases hocc with
      | refl =>
        have hcid_in : ca.id ∈ childrenIds a.children :=
          mem_childrenIds_of_mem hchild ca.id (id_mem_allIds ca)
        have hown_ne : ∀ e : DiffInfo, e.actual = a → e.actual.id ≠ ca.id := by
          intro e he heq
          rw [he] at heq
          exact hanotc (heq ▸ hcid_in)
        cases res with
        | error e0 =>
          rw [enumDiffImpl_eq_err h1 hsc]
          refine pbc_of_no_cid ?_
          intro e he
          simp only [List.append_assoc, List.mem_append] at he
          rcases he with he | he | he | he
          · exact hown_ne e (contentDiffs_actual he)
          · exact hown_ne e (parentIdDiffs_actual he)
          · exact hown_ne e (attributeDiffs_actual he)
          · exact hown_ne e (scanChildren_events_actual (by rw [hsc]; exact he))
        | ok qr =>
          rcases qr with ⟨queue, unmatched⟩
          rw [enumDiffImpl_eq_ok h1 hsc]
          rw [List.append_assoc, List.append_assoc, List.append_assoc,
            List.append_assoc, ← List.append_assoc, ← List.append_assoc,
            ← List.append_assoc, ← List.append_assoc]
          refine pbc_append_split ?_ ?_
          · intro e he
            simp only [List.append_assoc, List.mem_append] at he
            rcases he with he | he | he | he | he
            · exact hown_ne e (contentDiffs_actual he)
            · exact hown_ne e (parentIdDiffs_actual he)
            · exact hown_ne e (attributeDiffs_actual he)
            · exact hown_ne e (scanChildren_events_actual (by rw [hsc]; exact he))
            · rcases List.mem_map.mp he with ⟨p, _, hpe⟩
              exact hown_ne e (by rw [← hpe])
          · intro e he
            have hmem := childFold_events_in (scanChildren_queue_sublist hsc) he
            intro heq
            exact hanotc (heq ▸ hmem)
      | child hmem hocc' =>
        rename_i c0 l0
        have hpa_ne : pa.id ≠ a.id := by
          intro heq
          exact hanotc (heq ▸ mem_childrenIds_of_mem hmem pa.id (occurs_id_mem hocc'))
        have hca_ne : ca.id ≠ a.id := by
          intro heq
          exact hanotc
            (heq ▸ mem_childrenIds_of_mem hmem ca.id (occurs_allIds_sub hocc' ca.id hca_pa))
        have hown_ne : ∀ e : DiffInfo, e.actual = a →
            e.actual.id ≠ pa.id ∧ e.actual.id ≠ ca.id := by
          intro e he
          rw [he]
          exact ⟨fun h => hpa_ne h.symm, fun h => hca_ne h.symm⟩
        cases res with
        | error e0 =>
          rw [enumDiffImpl_eq_err h1 hsc]
          refine pbc_of_no_pid ?_
          intro e he
          simp only [List.append_assoc, List.mem_append] at he
          rcases he with he | he | he | he
          · exact (hown_ne e (contentDiffs_actual he)).1
          · exact (hown_ne e (parentIdDiffs_actual he)).1
          · exact (hown_ne e (attributeDiffs_actual he)).1
          · exact (hown_ne e (scanChildren_events_actual (by rw [hsc]; exact he))).1
        | ok qr =>
          rcases qr with ⟨queue, unmatched⟩
          rw [enumDiffImpl_eq_ok h1 hsc]
          rw [List.append_assoc, List.append_assoc, List.append_assoc,
            List.append_assoc, ← List.append_assoc, ← List.append_assoc,
            ← List.append_assoc, ← List.append_assoc]
          refine pbc_append_right ?_ ?_
          · intro e he
            simp only [List.append_assoc, List.mem_append] at he
            rcases he with he | he | he | he | he
            · exact hown_ne e (contentDiffs_actual he)
            · exact hown_ne e (parentIdDiffs_actual he)
            · exact hown_ne e (attributeDiffs_actual he)
            · exact hown_ne e (scanChildren_events_actual (by rw [hsc]; exact he))
            · rcases List.mem_map.mp he with ⟨p, _, hpe⟩
              exact hown_ne e (by rw [← hpe])
          · exact childFold_pbc ih hndc hocc' hchild hmem queue
              (scanChildren_queue_sublist hsc) (r.id :: S1) (a.id :: S2)

/-- **C4 (amended).**  When every node id occurs at most once in the actual
tree (no fan-in), the diff stream is ordered parent-before-child: for any node
`pa` occurring in the actual tree and any child `ca` of `pa`, every event
attributed to `pa` precedes every event attributed to `ca`.  (With fan-in the
claimed ordering fails, see the counterexample.) -/
theorem diff_parent_before_children (r a pa ca : TriliumNoteShort) (lc : String)
    (hocc : Occurs pa a) (hchild : (lc, ca) ∈ pa.children)
    (hnodup : (allIds a).Nodup) :
    PBC (EnumDifferences r a).1 pa.id ca.id :=
  enumDiffImpl_pbc (nodeSize a) r a [] [] pa ca lc hocc hchild hnodup

/-- Reference child for the ordering witness. -/
def c4wCref : TriliumNoteShort := .mk "C" "text" "text/html" [] [] (some "c1") []

/-- Actual child for the ordering witness. -/
def c4wCact : TriliumNoteShort := .mk "C" "text" "text/html" [] [] (some "c2") []

/-- Reference root for the ordering witness. -/
def c4wref : TriliumNoteShort := .mk "P" "text" "text/html" [] [] (some "p1") [("c", c4wCref)]

/-- Actual root for the ordering witness: both the root and its child have
changed content, so the diff emits one event for each. -/
def c4wact : TriliumNoteShort := .mk "P" "text" "text/html" [] [] (some "p2") [("c", c4wCact)]

/-- The ordering theorem applied to a concrete id-unique tree: the root's
event sits at index 0, the child's at index 1, and the theorem yields 0 < 1. -/
theorem diff_parent_before_children_witness :
    (EnumDifferences c4wref c4wact).1[0]? =
        some ⟨.content_changed, c4wref, c4wact, .none⟩ ∧
    (EnumDifferences c4wref c4wact).1[1]? =
        some ⟨.content_changed, c4wCref, c4wCact, .none⟩ ∧
    (0 : Nat) < 1 :=
  ⟨rfl, rfl,
    diff_parent_before_children c4wref c4wact c4wact c4wCact "c"
      (Occurs.refl _) (List.Mem.head _) (by decide) 0 1
      ⟨.content_changed, c4wref, c4wact, .none⟩
      ⟨.content_changed, c4wCref, c4wCact, .none⟩ rfl rfl rfl rfl⟩

/-! ### Pull.py: `GetNotes` — the remote loader -/

/-- One remote note as served by the ETAPI endpoints, together with its
subtree: `children` pairs each child branch's `prefix` with the child's
response (modelling the consistently ordered `childBranchIds` /
`childNoteIds` zip of Pull.py line 309, with the branch endpoints returning
matching `parentNoteId` / `noteId` by construction). -/
inductive RemoteNote : Type where
  | mk
      (id : String)
      (title : String)
      (note_type : String)
      (mime_type : String)
      (parent_ids : List String)
      (attributes : List TriliumAttribute)
      (content : List Nat)
      (children : List (Option String × RemoteNote))
deriving Repr

namespace RemoteNote

def id : RemoteNote → String
  | .mk i _ _ _ _ _ _ _ => i

def title : RemoteNote → String
  | .mk _ t _ _ _ _ _ _ => t

def note_type : RemoteNote → String
  | .mk _ _ t _ _ _ _ _ => t

def mime_type : RemoteNote → String
  | .mk _ _ _ m _ _ _ _ => m

def parent_ids : RemoteNote → List String
  | .mk _ _ _ _ p _ _ _ => p

def attributes : RemoteNote → List TriliumAttribute
  | .mk _ _ _ _ _ a _ _ => a

def content : RemoteNote → List Nat
  | .mk _ _ _ _ _ _ c _ => c

def children : RemoteNote → List (Option String × RemoteNote)
  | .mk _ _ _ _ _ _ _ c => c

end RemoteNote

mutual

/-- Number of notes in a remote subtree; fuel for the worklist loop. -/
def remoteSize : RemoteNote → Nat
  | .mk _ _ _ _ _ _ _ children => 1 + remoteListSize children

/-- Total number of notes in a list of child branches. -/
def remoteListSize : List (Option String × RemoteNote) → Nat
  | [] => 0
  | (_, c) :: rest => remoteSize c + remoteListSize rest

end

mutual

/-- All note ids of a remote subtree. -/
def remoteIds : RemoteNote → List String
  | .mk i _ _ _ _ _ _ cs => i :: remoteListIds cs

/-- All note ids below a list of child branches. -/
def remoteListIds : List (Option String × RemoteNote) → List String
  | [] => []
  | (_, c) :: rest => remoteIds c ++ remoteListIds rest

end

/-- The no-sync test of Pull.py lines 274-275: the attribute is a `label`
named `NO_SYNC_ATTRIBUTE_NAME`. -/
def isNoSyncAttr (a : TriliumAttribute) : Bool :=
  a.attr_type == "label" && a.name == NO_SYNC_ATTRIBUTE_NAME

/-- Whether a response bears the reserved no-sync label (`include_note`
becomes `False`, Pull.py lines 272-284). -/
def hasNoSync (attrs : List TriliumAttribute) : Bool :=
  attrs.any isNoSyncAttr

/-- The skipped notification text of Pull.py lines 276-282. -/
def skipMessage (title nid : String) : String :=
  "The note '" ++ title ++ "' (" ++ nid ++ ") has been skipped because it is decorated with the '"
    ++ NO_SYNC_ATTRIBUTE_NAME ++ "' label."

/-- `hashlib.sha256(...).hexdigest()` of `TriliumNoteShort.CalculateHash`,
modelled as an injective encoding of the byte string (hash collisions are
assumed absent). -/
def CalculateHash (content : List Nat) : String :=
  "#" ++ String.intercalate ":" (content.map Nat.repr)

/-- Python dict assignment `m[k] = v` on an insertion-ordered association
list: overwrite in place if the key exists, append otherwise. -/
def dictSet {α : Type} (m : List (String × α)) (k : String) (v : α) : List (String × α) :=
  if m.any (fun p => p.1 == k) then
    m.map (fun p => if p.1 == k then (p.1, v) else p)
  else
    m ++ [(k, v)]

/-- Stable insertion of one attribute into a position-sorted prefix, placing
it after all attributes with a smaller-or-equal position: together with
`sortAttributes` this models the stable `attributes.sort(key=...item.position)`
of `_WorkingNote.FromResponse` (Pull.py lines 491-493). -/
def insertByPosition (a : TriliumAttribute) : List TriliumAttribute → List TriliumAttribute
  | [] => [a]
  | b :: rest =>
    if b.position ≤ a.position then b :: insertByPosition a rest else a :: b :: rest

/-- Stable sort of the attribute list by `position`. -/
def sortAttributes (attrs : List TriliumAttribute) : List TriliumAttribute :=
  attrs.foldr insertByPosition []

/-- The `content_extension` computation of `_WorkingNote.FromResponse`
(Pull.py lines 498-503). -/
def contentExtension (nt mime : String) : Option String :=
  if nt = "code" ∨ nt = "text" then mimetype_extension_map.lookup mime
  else Option.none

/-- `_WorkingNote` (Pull.py lines 460-484), restricted to the fields the
loader reads.  `children` and `exported_children` live in the loader state;
`content` carries the bytes the extraction phase downloads for this id. -/
structure WorkingNote where
  id : String
  title : String
  note_type : String
  mime_type : String
  parent_ids : List String
  attributes : List TriliumAttribute
  content_extension : Option String
  content : List Nat
  content_hash : Option String
deriving Repr

/-- `_WorkingNote.FromResponse` (Pull.py lines 487-515). -/
def WorkingNote.fromRemote (r : RemoteNote) : WorkingNote :=
  { id := r.id
    title := r.title
    note_type := r.note_type
    mime_type := r.mime_type
    parent_ids := r.parent_ids
    attributes := sortAttributes r.attributes
    content_extension := contentExtension r.note_type r.mime_type
    content := r.content
    content_hash := Option.none }

/-- `branch.get("prefix", None) or None` (Pull.py line 304): an empty
prefix string is falsy and collapses to `None`. -/
def normalizePrefix : Option String → Option String
  | Option.some "" => Option.none
  | o => o

/-- `setdefault(prefix, []).append(child)` on one note's children dict
(Pull.py lines 304 and 322). -/
def addToPrefixDict (d : List (Option String × List LinkChild)) (pre : Option String)
    (c : LinkChild) : List (Option String × List LinkChild) :=
  match d with
  | [] => [(pre, [c])]
  | (k, v) :: rest =>
    if k = pre then (k, v ++ [c]) :: rest else (k, v) :: addToPrefixDict rest pre c

/-- Children maps of all working notes, keyed by the owning note's id
(the mutable `_WorkingNote.children` fields). -/
def ChildrenMaps : Type := List (String × List (Option String × List LinkChild))

/-- Record one child under one note's children dict. -/
def addChildEdge (m : ChildrenMaps) (pid : String) (pre : Option String)
    (c : LinkChild) : ChildrenMaps :=
  match m with
  | [] => [(pid, addToPrefixDict [] pre c)]
  | (k, v) :: rest =>
    if k = pid then (k, addToPrefixDict v pre c) :: rest
    else (k, v) :: addChildEdge rest pid pre c

/-- The scheduling loop over `zip(response["childBranchIds"],
response["childNoteIds"])` (Pull.py lines 309-322).  `pid` is the current
note's id, `parentNone` whether the current item's `parent` is `None`.
Unvisited children are appended to the pending list (returned in
encounter order); an already visited child is linked immediately into the
current note's children dict (lines 314-322, raw branch prefix), after the
`assert parent is not None` of line 315. -/
def scheduleChildren (lookup : List (String × WorkingNote)) (pid : String)
    (parentNone : Bool) :
    List (Option String × RemoteNote) → ChildrenMaps →
    Except String (ChildrenMaps × List (Option String × Option String × RemoteNote))
  | [], cm => .ok (cm, [])
  | (pre, child) :: rest, cm =>
    match lookup.lookup child.id with
    | Option.none =>
      match scheduleChildren lookup pid parentNone rest cm with
      | .error e => .error e
      | .ok (cm', items) => .ok (cm', (Option.some pid, pre, child) :: items)
    | Option.some potential_note =>
      if parentNone then .error "AssertionError: parent is not None"
      else
        scheduleChildren lookup pid parentNone rest
          (addChildEdge cm pid pre ⟨potential_note.id, potential_note.title⟩)

/-- The `while search_items:` worklist loop of `GetNotes` (Pull.py lines
247-322).  The Python list with `append`/`pop()` is a stack popping the most
recently appended item; it is modelled head-first, so the items appended for
a note's children are pushed reversed.  Each item carries the parent's id,
the connecting branch's prefix, and the server's response subtree for the
searched id. -/
def pullScan :
    Nat → List (Option String × Option String × RemoteNote) →
    List (String × WorkingNote) → ChildrenMaps → List String →
    Except String (List (String × WorkingNote) × ChildrenMaps × List String)
  | 0, _, _, _, _ => .error "Fuel exhausted"
  | _ + 1, [], lookup, cm, skipped => .ok (lookup, cm, skipped)
  | fuel + 1, (parent, pre, r) :: stack, lookup, cm, skipped =>
    let noSyncAttrs := r.attributes.filter isNoSyncAttr
    if noSyncAttrs.isEmpty then
      let note := WorkingNote.fromRemote r
      let lookup' := dictSet lookup note.id note
      let cm' :=
        match parent with
        | Option.none => cm
        | Option.some pid =>
          addChildEdge cm pid (normalizePrefix pre) ⟨note.id, note.title⟩
      match scheduleChildren lookup' note.id parent.isNone r.children cm' with
      | .error e => .error e
      | .ok (cm'', items) => pullScan fuel (items.reverse ++ stack) lookup' cm'' skipped
    else
      pullScan fuel stack lookup cm
        (skipped ++ noSyncAttrs.map (fun _ => skipMessage r.title r.id))

/-- The content-extraction phase (Pull.py lines 334-363): a note without a
content extension keeps `content_hash = None`; otherwise the downloaded
bytes are hashed with `TriliumNoteShort.CalculateHash`. -/
def extractContent (lookup : List (String × WorkingNote)) : List (String × WorkingNote) :=
  lookup.map (fun p =>
    (p.1,
      { p.2 with
          content_hash :=
            match p.2.content_extension with
            | Option.some _ => Option.some (CalculateHash p.2.content)
            | Option.none => Option.none }))

/-- `exported_children` dicts of all working notes, keyed by owner id. -/
def ExportedMaps : Type := List (String × List (String × WorkingNote))

/-- The `for parent_id in note.parent_ids:` loop of `UpdateExportedChildren`
(Pull.py lines 401-414), parameterized by the recursive call: skip the
`"root"` parent and parents that were not loaded; look the link name up via
`GetLinkName` (a missing entry is the `KeyError` of line 395); newly insert
the note under its parent and recurse into the parent. -/
def updateExportedLoop
    (rec : ExportedMaps → WorkingNote → Except String ExportedMaps)
    (lookup : List (String × WorkingNote)) (cm : ChildrenMaps) (note : WorkingNote) :
    List String → ExportedMaps → Except String ExportedMaps
  | [], ex => .ok ex
  | pid :: rest, ex =>
    if pid = "root" then updateExportedLoop rec lookup cm note rest ex
    else
      match lookup.lookup pid with
      | Option.none => updateExportedLoop rec lookup cm note rest ex
      | Option.some parent_note =>
        match GetLinkName note.id ((cm.lookup pid).getD []) with
        | Option.none => .error ("KeyError: " ++ note.id)
        | Option.some link_name =>
          let pex := (ex.lookup pid).getD []
          if pex.any (fun p => p.1 == link_name) then
            updateExportedLoop rec lookup cm note rest ex
          else
            match rec (dictSet ex pid (pex ++ [(link_name, note)])) parent_note with
            | .error e => .error e
            | .ok ex' => updateExportedLoop rec lookup cm note rest ex'

/-- `UpdateExportedChildren` (Pull.py lines 398-414), fuelled: the Python
recursion climbs to a parent only after adding a new export link. -/
def updateExported (lookup : List (String × WorkingNote)) (cm : ChildrenMaps) :
    Nat → ExportedMaps → WorkingNote → Except String ExportedMaps
  | 0, _, _ => .error "RecursionError"
  | fuel + 1, ex, note =>
    updateExportedLoop (updateExported lookup cm fuel) lookup cm note note.parent_ids ex

/-- The driver loop `for working_note in note_lookup.values():
UpdateExportedChildren(working_note)` (Pull.py lines 418-419). -/
def buildExported (lookup : List (String × WorkingNote)) (cm : ChildrenMaps)
    (fuel : Nat) :
    List (String × WorkingNote) → ExportedMaps → Except String ExportedMaps
  | [], ex => .ok ex
  | (_, note) :: rest, ex =>
    match updateExported lookup cm fuel ex note with
    | .error e => .error e
    | .ok ex' => buildExported lookup cm fuel rest ex'

/-- The `children` dict comprehension of `CreateTriliumNote` (Pull.py lines
440-443), parameterized by the recursive call and threading the
`trilium_note_lookup` memo table. -/
def createTriliumChildren
    (rec : List (String × TriliumNoteShort) → WorkingNote →
      Except String (TriliumNoteShort × List (String × TriliumNoteShort))) :
    List (String × WorkingNote) → List (String × TriliumNoteShort) →
    Except String (List (String × TriliumNoteShort) × List (String × TriliumNoteShort))
  | [], tl => .ok ([], tl)
  | (link_name, child) :: rest, tl =>
    match rec tl child with
    | .error e => .error e
    | .ok (t, tl') =>
      match createTriliumChildren rec rest tl' with
      | .error e => .error e
      | .ok (cs, tl'') => .ok ((link_name, t) :: cs, tl'')

/-- `CreateTriliumNote` (Pull.py lines 424-448), fuelled: memoized on
`trilium_note_lookup`, filtering `parent_ids` down to loaded notes and
building children from `exported_children`; the note is memoized only
after its whole subtree is built (line 446). -/
def createTrilium (lookup : List (String × WorkingNote)) (ex : ExportedMaps) :
    Nat → List (String × TriliumNoteShort) → WorkingNote →
    Except String (TriliumNoteShort × List (String × TriliumNoteShort))
  | 0, _, _ => .error "RecursionError"
  | fuel + 1, tl, note =>
    match tl.lookup note.id with
    | Option.some t => .ok (t, tl)
    | Option.none =>
      let parent_ids := note.parent_ids.filter (fun pid => lookup.any (fun p => p.1 == pid))
      match createTriliumChildren (createTrilium lookup ex fuel)
          ((ex.lookup note.id).getD []) tl with
      | .error e => .error e
      | .ok (cs, tl') =>
        let result : TriliumNoteShort :=
          .mk note.id note.note_type note.mime_type parent_ids note.attributes
            note.content_hash cs
        .ok (result, dictSet tl' result.id result)

/-- `Pull.GetNotes` (Pull.py lines 202-452) for a server whose response for
`root_note_id` is the subtree `remote`: scan phase, content extraction,
export organization, and finally `CreateTriliumNote(note_lookup[config.root_note_id])`
(line 452), whose subscript raises `KeyError` when the root was never
loaded.  Returns the built tree and the skipped notifications. -/
def PullGetNotes (root_note_id : String) (remote : RemoteNote) :
    Except String (TriliumNoteShort × List String) :=
  match pullScan (remoteSize remote + 1) [(Option.none, Option.none, remote)] [] [] [] with
  | .error e => .error e
  | .ok (lookup0, cm, skipped) =>
    let lookup := extractContent lookup0
    match buildExported lookup cm (remoteSize remote + 1) lookup [] with
    | .error e => .error e
    | .ok ex =>
      match lookup.lookup root_note_id with
      | Option.none => .error ("KeyError: " ++ root_note_id)
      | Option.some rootNote =>
        match createTrilium lookup ex (remoteSize remote + 1) [] rootNote with
        | .error e => .error e
        | .ok (t, _) => .ok (t, skipped)

/-- A remote note occurs in a remote tree. -/
inductive ROccurs : RemoteNote → RemoteNote → Prop where
  | refl (n : RemoteNote) : ROccurs n n
  | child {p c n : RemoteNote} {pre : Option String} (h : (pre, c) ∈ n.children)
      (hp : ROccurs p c) : ROccurs p n

/-- A remote note occurs along a path whose nodes above it all lack the
no-sync label (so the scan actually reaches it). -/
inductive CleanOccurs : RemoteNote → RemoteNote → Prop where
  | refl (n : RemoteNote) : CleanOccurs n n
  | child {p c n : RemoteNote} {pre : Option String} (h : (pre, c) ∈ n.children)
      (hn : hasNoSync n.attributes = false) (hp : CleanOccurs p c) : CleanOccurs p n

/-- The remote `parentNoteIds` data is consistent with the tree edges: a
reported parent that exists in the tree is an actual direct parent. -/
def ParentConsistent (root : RemoteNote) : Prop :=
  ∀ p c, ROccurs p root → ROccurs c root → p.id ∈ c.parent_ids →
    ∃ pre, (pre, c) ∈ p.children

/-- The scan-loop state: `note_lookup`, the children dicts, and the skipped
notifications. -/
def ScanState : Type :=
  List (String × WorkingNote) × ChildrenMaps × List String

mutual

/-- Reference evaluation of the worklist loop on one popped item and its
whole subtree (depth-first).  Mirrors one `while` iteration of Pull.py lines
247-322 followed by the iterations for everything it schedules. -/
def specScanNote : Option String → Option String → RemoteNote → ScanState → ScanState
  | parent, pre, .mk i ti nt mi pids attrs cont cs, st =>
    let r : RemoteNote := .mk i ti nt mi pids attrs cont cs
    let noSyncAttrs := attrs.filter isNoSyncAttr
    if noSyncAttrs.isEmpty then
      let note := WorkingNote.fromRemote r
      let lookup' := dictSet st.1 note.id note
      let cm' :=
        match parent with
        | Option.none => st.2.1
        | Option.some pid =>
          addChildEdge st.2.1 pid (normalizePrefix pre) ⟨note.id, note.title⟩
      specScanList i cs (lookup', cm', st.2.2)
    else
      (st.1, st.2.1, st.2.2 ++ noSyncAttrs.map (fun _ => skipMessage ti i))

/-- Reference evaluation of the loop on a list of scheduled children of one
note: the worklist is a stack, so the child scheduled last is processed
first — the list is consumed right to left. -/
def specScanList (pid : String) : List (Option String × RemoteNote) → ScanState → ScanState
  | [], st => st
  | (pre, c) :: rest, st => specScanNote (Option.some pid) pre c (specScanList pid rest st)

end

/-- Reference evaluation of the loop on a whole worklist (top of stack
first). -/
def specStack : List (Option String × Option String × RemoteNote) → ScanState → ScanState
  | [], st => st
  | (par, pre, r) :: rest, st => specStack rest (specScanNote par pre r st)

/-- Total number of remote notes sitting in a worklist. -/
def stackSizes (stack : List (Option String × Option String × RemoteNote)) : Nat :=
  (stack.map (fun it => remoteSize it.2.2)).sum

/-- All remote ids sitting in a worklist. -/
def stackIds (stack : List (Option String × Option String × RemoteNote)) : List String :=
  (stack.map (fun it => remoteIds it.2.2)).flatten

/-- Worklist invariant: the pending subtrees carry pairwise distinct ids,
none of which has been loaded yet. -/
def ScanInv (stack : List (Option String × Option String × RemoteNote))
    (lookup : List (String × WorkingNote)) : Prop :=
  (stackIds stack).Nodup ∧ ∀ x ∈ stackIds stack, x ∉ lookup.map Prod.fst

theorem remoteIds_eq (r : RemoteNote) : remoteIds r = r.id :: remoteListIds r.children := by
  cases r with
  | mk i ti nt mi p a c cs => rfl

theorem remoteSize_eq (r : RemoteNote) : remoteSize r = 1 + remoteListSize r.children := by
  cases r with
  | mk i ti nt mi p a c cs => rfl

theorem mem_remoteListIds {pc : Option String × RemoteNote}
    {cs : List (Option String × RemoteNote)} (h : pc ∈ cs) :
    ∀ x ∈ remoteIds pc.2, x ∈ remoteListIds cs := by
  induction cs with
  | nil => cases h
  | cons hd tl ih =>
    rcases hd with ⟨pre, c⟩
    intro x hx
    rw [remoteListIds, List.mem_append]
    rcases List.mem_cons.mp h with h0 | h0
    · subst h0
      exact Or.inl hx
    · exact Or.inr (ih h0 x hx)

theorem remoteListSize_eq_sum (cs : List (Option String × RemoteNote)) :
    (cs.map (fun pc => remoteSize pc.2)).sum = remoteListSize cs := by
  induction cs with
  | nil => rfl
  | cons hd tl ih =>
    rcases hd with ⟨pre, c⟩
    rw [remoteListSize, List.map_cons, List.sum_cons, ih]

theorem id_mem_remoteIds (r : RemoteNote) : r.id ∈ remoteIds r := by
  rw [remoteIds_eq]
  exact List.mem_cons_self _ _

theorem remoteListIds_flatten (cs : List (Option String × RemoteNote)) :
    remoteListIds cs = (cs.map (fun pc => remoteIds pc.2)).flatten := by
  induction cs with
  | nil => rfl
  | cons hd tl ih =>
    rcases hd with ⟨pre, c⟩
    rw [remoteListIds, ih]
    simp

theorem lookup_eq_none_of_not_mem_keys {α : Type} {m : List (String × α)} {x : String}
    (h : x ∉ m.map Prod.fst) : m.lookup x = Option.none := by
  induction m with
  | nil => rfl
  | cons hd tl ih =>
    rcases hd with ⟨k, v⟩
    simp only [List.map_cons, List.mem_cons, not_or] at h
    rw [List.lookup_cons]
    have : (x == k) = false := by
      rw [beq_eq_false_iff_ne]
      exact fun heq => h.1 (heq ▸ rfl)
    rw [this]
    exact ih h.2

theorem dictSet_fresh {α : Type} {m : List (String × α)} {k : String} (v : α)
    (h : k ∉ m.map Prod.fst) : dictSet m k v = m ++ [(k, v)] := by
  unfold dictSet
  have hany : m.any (fun p => p.1 == k) = false := by
    rw [List.any_eq_false]
    intro p hp hbeq
    exact h (eq_of_beq hbeq ▸ List.mem_map.mpr ⟨p, hp, rfl⟩)
  rw [hany]
  simp

theorem scheduleChildren_fresh {lookup : List (String × WorkingNote)} {pid : String}
    {pn : Bool} :
    ∀ {cs : List (Option String × RemoteNote)} {cm : ChildrenMaps},
      (∀ pc ∈ cs, lookup.lookup pc.2.id = Option.none) →
      scheduleChildren lookup pid pn cs cm =
        .ok (cm, cs.map (fun pc => (Option.some pid, pc.1, pc.2))) := by
  intro cs
  induction cs with
  | nil => intro cm _; rfl
  | cons hd tl ih =>
    rcases hd with ⟨pre, c⟩
    intro cm h
    rw [scheduleChildren]
    simp only [h (pre, c) (List.mem_cons_self _ _),
      ih (fun pc hpc => h pc (List.mem_cons_of_mem _ hpc)), List.map_cons]

theorem specStack_append (xs ys : List (Option String × Option String × RemoteNote))
    (st : ScanState) : specStack (xs ++ ys) st = specStack ys (specStack xs st) := by
  induction xs generalizing st with
  | nil => rfl
  | cons hd tl ih =>
    rcases hd with ⟨par, pre, r⟩
    rw [List.cons_append, specStack, specStack, ih]

theorem specStack_reverse_map (pid : String) (cs : List (Option String × RemoteNote))
    (st : ScanState) :
    specStack ((cs.map (fun pc => (Option.some pid, pc.1, pc.2))).reverse) st =
      specScanList pid cs st := by
  induction cs generalizing st with
  | nil => rfl
  | cons hd tl ih =>
    rcases hd with ⟨pre, c⟩
    rw [List.map_cons, List.reverse_cons, specStack_append, ih, specScanList]
    rfl

theorem stackIds_cons (par pre : Option String) (r : RemoteNote)
    (rest : List (Option String × Option String × RemoteNote)) :
    stackIds ((par, pre, r) :: rest) = remoteIds r ++ stackIds rest := rfl

theorem stackSizes_cons (par pre : Option String) (r : RemoteNote)
    (rest : List (Option String × Option String × RemoteNote)) :
    stackSizes ((par, pre, r) :: rest) = remoteSize r + stackSizes rest := by
  unfold stackSizes
  rw [List.map_cons, List.sum_cons]

theorem stackIds_append (xs ys : List (Option String × Option String × RemoteNote)) :
    stackIds (xs ++ ys) = stackIds xs ++ stackIds ys := by
  unfold stackIds
  rw [List.map_append, List.flatten_append]

theorem stackSizes_append (xs ys : List (Option String × Option String × RemoteNote)) :
    stackSizes (xs ++ ys) = stackSizes xs + stackSizes ys := by
  unfold stackSizes
  rw [List.map_append, List.sum_append]

theorem stackIds_reverse (xs : List (Option String × Option String × RemoteNote)) :
    ∀ x, x ∈ stackIds xs.reverse ↔ x ∈ stackIds xs := by
  intro x
  unfold stackIds
  rw [List.map_reverse]
  constructor
  · intro h
    rcases List.mem_flatten.mp h with ⟨l, hl, hx⟩
    exact List.mem_flatten.mpr ⟨l, List.mem_reverse.mp hl, hx⟩
  · intro h
    rcases List.mem_flatten.mp h with ⟨l, hl, hx⟩
    exact List.mem_flatten.mpr ⟨l, List.mem_reverse.mpr hl, hx⟩

theorem stackIds_reverse_nodup {xs : List (Option String × Option String × RemoteNote)}
    (h : (stackIds xs).Nodup) : (stackIds xs.reverse).Nodup := by
  unfold stackIds at h ⊢
  rw [List.map_reverse]
  rw [List.nodup_flatten] at h ⊢
  refine ⟨fun l hl => h.1 l (List.mem_reverse.mp hl), ?_⟩
  rw [List.pairwise_reverse]
  exact h.2.imp (fun hd => List.Disjoint.symm hd)

theorem stackIds_map_children (pid : String) (cs : List (Option String × RemoteNote)) :
    stackIds (cs.map (fun pc => (Option.some pid, pc.1, pc.2))) = remoteListIds cs := by
  induction cs with
  | nil => rfl
  | cons hd tl ih =>
    rcases hd with ⟨pre, c⟩
    rw [List.map_cons, stackIds_cons, remoteListIds, ih]

theorem stackSizes_map_children (pid : String) (cs : List (Option String × RemoteNote)) :
    stackSizes (cs.map (fun pc => (Option.some pid, pc.1, pc.2))) = remoteListSize cs := by
  induction cs with
  | nil => rfl
  | cons hd tl ih =>
    rcases hd with ⟨pre, c⟩
    rw [List.map_cons, stackSizes_cons, remoteListSize, ih]

theorem stackSizes_reverse (xs : List (Option String × Option String × RemoteNote)) :
    stackSizes xs.reverse = stackSizes xs := by
  unfold stackSizes
  rw [List.map_reverse, List.sum_reverse]

theorem fromRemote_id (r : RemoteNote) : (WorkingNote.fromRemote r).id = r.id := rfl

theorem fromRemote_title (r : RemoteNote) : (WorkingNote.fromRemote r).title = r.title := rfl

theorem specScanNote_def (parent pre : Option String) (r : RemoteNote) (st : ScanState) :
    specScanNote parent pre r st =
      if (r.attributes.filter isNoSyncAttr).isEmpty then
        specScanList r.id r.children
          (dictSet st.1 (WorkingNote.fromRemote r).id (WorkingNote.fromRemote r),
           (match parent with
            | Option.none => st.2.1
            | Option.some pid =>
              addChildEdge st.2.1 pid (normalizePrefix pre)
                ⟨(WorkingNote.fromRemote r).id, (WorkingNote.fromRemote r).title⟩),
           st.2.2)
      else
        (st.1, st.2.1,
          st.2.2 ++ (r.attributes.filter isNoSyncAttr).map
            (fun _ => skipMessage r.title r.id)) := by
  cases r with
  | mk i ti nt mi p a c cs => rfl

/-- The worklist loop agrees with the depth-first reference evaluation on
any worklist whose pending ids are fresh and pairwise distinct. -/
theorem pullScan_spec :
    ∀ (fuel : Nat) (stack : List (Option String × Option String × RemoteNote))
      (lookup : List (String × WorkingNote)) (cm : ChildrenMaps) (skipped : List String),
      stackSizes stack < fuel → ScanInv stack lookup →
      pullScan fuel stack lookup cm skipped = .ok (specStack stack (lookup, cm, skipped)) := by
  intro fuel
  induction fuel with
  | zero => intro stack lookup cm skipped h _; omega
  | succ fuel ih =>
    intro stack lookup cm skipped hsz hinv
    cases stack with
    | nil => rfl
    | cons it rest =>
      rcases it with ⟨par, pre, r⟩
      rw [stackSizes_cons] at hsz
      rw [pullScan, specStack, specScanNote_def]
      by_cases hn : (r.attributes.filter isNoSyncAttr).isEmpty = true
      · rw [if_pos hn]
        simp only [hn, if_true, fromRemote_id, fromRemote_title]
        have hhead : ∀ x ∈ remoteIds r, x ∈ stackIds ((par, pre, r) :: rest) := by
          intro x hx
          rw [stackIds_cons, List.mem_append]
          exact Or.inl hx
        have hfreshroot : r.id ∉ lookup.map Prod.fst :=
          hinv.2 r.id (hhead r.id (id_mem_remoteIds r))
        have hkeys' :
            (dictSet lookup r.id (WorkingNote.fromRemote r)).map
              Prod.fst = lookup.map Prod.fst ++ [r.id] := by
          rw [dictSet_fresh _ hfreshroot]
          simp
        have hndhead : (remoteIds r).Nodup ∧
            ∀ x ∈ remoteIds r, x ∉ stackIds rest := by
          have h1 := hinv.1
          rw [stackIds_cons, List.nodup_append] at h1
          exact ⟨h1.1, fun x hx hx' => h1.2.2 hx hx'⟩
        have hchildfresh : ∀ pc ∈ r.children,
            (dictSet lookup r.id (WorkingNote.fromRemote r)).lookup pc.2.id = Option.none := by
          intro pc hpc
          apply lookup_eq_none_of_not_mem_keys
          rw [hkeys']
          rw [List.mem_append, List.mem_singleton]
          have hmem : pc.2.id ∈ remoteListIds r.children :=
            mem_remoteListIds hpc pc.2.id (id_mem_remoteIds pc.2)
          have hne : pc.2.id ≠ r.id := by
            have h1 := hndhead.1
            rw [remoteIds_eq, List.nodup_cons] at h1
            intro heq
            exact h1.1 (heq ▸ hmem)
          push_neg
          refine ⟨?_, hne⟩
          exact hinv.2 pc.2.id (hhead pc.2.id (by rw [remoteIds_eq]; exact List.mem_cons_of_mem _ hmem))
        simp only [scheduleChildren_fresh hchildfresh]
        have hsz' : stackSizes
            ((r.children.map (fun pc => (Option.some r.id, pc.1, pc.2))).reverse ++ rest) < fuel := by
          rw [stackSizes_append, stackSizes_reverse, stackSizes_map_children]
          have := remoteSize_eq r
          omega
        have h1 := hinv.1
        rw [stackIds_cons, remoteIds_eq, List.cons_append, List.nodup_cons,
          List.nodup_append] at h1
        have hinv' : ScanInv
            ((r.children.map (fun pc => (Option.some r.id, pc.1, pc.2))).reverse ++ rest)
            (dictSet lookup r.id (WorkingNote.fromRemote r)) := by
          constructor
          · rw [stackIds_append]
            rw [List.nodup_append]
            refine ⟨?_, h1.2.2.1, ?_⟩
            · apply stackIds_reverse_nodup
              rw [stackIds_map_children]
              exact h1.2.1
            · intro x hx
              rw [stackIds_reverse, stackIds_map_children] at hx
              exact fun hx' => h1.2.2.2 hx hx'
          · intro x hx
            rw [hkeys']
            rw [stackIds_append] at hx
            rw [List.mem_append, List.mem_singleton]
            push_neg
            rcases List.mem_append.mp hx with hx | hx
            · rw [stackIds_reverse, stackIds_map_children] at hx
              refine ⟨?_, ?_⟩
              · exact hinv.2 x (by
                  rw [stackIds_cons, remoteIds_eq]
                  exact List.mem_append.mpr (Or.inl (List.mem_cons_of_mem _ hx)))
              · intro heq
                exact h1.1 (heq ▸ List.mem_append.mpr (Or.inl hx))
            · refine ⟨hinv.2 x (by rw [stackIds_cons]; exact List.mem_append.mpr (Or.inr hx)), ?_⟩
              intro heq
              exact h1.1 (heq ▸ List.mem_append.mpr (Or.inr hx))
        rw [ih _ _ _ _ hsz' hinv']
        rw [specStack_append, specStack_reverse_map]
      · rw [if_neg hn]
        simp only [hn, Bool.false_eq_true, if_false]
        have hsz' : stackSizes rest < fuel := by
          have := remoteSize_eq r
          omega
        have hinv' : ScanInv rest lookup := by
          constructor
          · have h1 := hinv.1
            rw [stackIds_cons, List.nodup_append] at h1
            exact h1.2.1
          · intro x hx
            exact hinv.2 x (by rw [stackIds_cons]; exact List.mem_append.mpr (Or.inr hx))
        exact ih _ _ _ _ hsz' hinv'

theorem remoteSize_le_of_mem {pc : Option String × RemoteNote}
    {cs : List (Option String × RemoteNote)} (h : pc ∈ cs) :
    remoteSize pc.2 ≤ remoteListSize cs := by
  induction cs with
  | nil => cases h
  | cons hd tl ih =>
    rcases hd with ⟨pre, c⟩
    rw [remoteListSize]
    rcases List.mem_cons.mp h with h0 | h0
    · subst h0
      show remoteSize c ≤ remoteSize c + remoteListSize tl
      omega
    · have := ih h0
      omega

/-- Structural induction on remote trees through the nested children list. -/
theorem RemoteNote.rec_children {P : RemoteNote → Prop}
    (h : ∀ r : RemoteNote, (∀ pc ∈ r.children, P pc.2) → P r) : ∀ r, P r := by
  have hn : ∀ (n : Nat) (r : RemoteNote), remoteSize r ≤ n → P r := by
    intro n
    induction n with
    | zero =>
      intro r h0
      rw [remoteSize_eq] at h0
      omega
    | succ n ih =>
      intro r hle
      refine h r (fun pc hpc => ih pc.2 ?_)
      have h1 := remoteSize_le_of_mem hpc
      rw [remoteSize_eq] at hle
      omega
  exact fun r => hn (remoteSize r) r (Nat.le_refl _)

mutual

/-- The `note_lookup` entries the scan appends while processing one
subtree, in insertion order. -/
def loadedEntries : RemoteNote → List (String × WorkingNote)
  | .mk i ti nt mi p a co cs =>
    if (a.filter isNoSyncAttr).isEmpty then
      (i, WorkingNote.fromRemote (.mk i ti nt mi p a co cs)) :: loadedList cs
    else []

/-- The entries appended while processing a children list (right to left). -/
def loadedList : List (Option String × RemoteNote) → List (String × WorkingNote)
  | [] => []
  | (_, c) :: rest => loadedList rest ++ loadedEntries c

end

mutual

/-- The skipped notifications the scan appends while processing one
subtree. -/
def skippedMsgs : RemoteNote → List String
  | .mk i ti _ _ _ a _ cs =>
    if (a.filter isNoSyncAttr).isEmpty then skippedList cs
    else (a.filter isNoSyncAttr).map (fun _ => skipMessage ti i)

/-- The notifications appended while processing a children list. -/
def skippedList : List (Option String × RemoteNote) → List String
  | [] => []
  | (_, c) :: rest => skippedList rest ++ skippedMsgs c

end

theorem loadedEntries_eq (r : RemoteNote) :
    loadedEntries r =
      if (r.attributes.filter isNoSyncAttr).isEmpty then
        (r.id, WorkingNote.fromRemote r) :: loadedList r.children
      else [] := by
  cases r with
  | mk i ti nt mi p a co cs => rfl

theorem skippedMsgs_eq (r : RemoteNote) :
    skippedMsgs r =
      if (r.attributes.filter isNoSyncAttr).isEmpty then skippedList r.children
      else (r.attributes.filter isNoSyncAttr).map (fun _ => skipMessage r.title r.id) := by
  cases r with
  | mk i ti nt mi p a co cs => rfl

/-- **C8 (counterexample).**  A remote tree whose root itself bears the
no-sync label: the scan skips the root, `note_lookup` stays empty, and the
final `note_lookup[config.root_note_id]` of Pull.py line 452 raises
`KeyError` — the load does not complete without an error, refuting the
claim for `N` = root. -/
def c8root : RemoteNote :=
  .mk "rootN" "Root" "text" "text/html" [] [⟨"a1", "label", NO_SYNC_ATTRIBUTE_NAME, Option.none, 0, false⟩] [] []

/-- The root-bearing-no-sync load fails with `KeyError` instead of
completing with a notice. -/
theorem c8_counterexample :
    hasNoSync c8root.attributes = true ∧
    PullGetNotes c8root.id c8root = .error ("KeyError: " ++ "rootN") := ⟨rfl, rfl⟩

theorem noSync_isEmpty_iff (a : List TriliumAttribute) :
    (a.filter isNoSyncAttr).isEmpty = true ↔ hasNoSync a = false := by
  unfold hasNoSync
  rw [List.isEmpty_iff, List.filter_eq_nil, List.any_eq_false]

theorem cleanOccurs_ids_sub {p r : RemoteNote} (h : CleanOccurs p r) :
    ∀ x ∈ remoteIds p, x ∈ remoteIds r := by
  induction h with
  | refl => exact fun x hx => hx
  | child hmem _ _ ih =>
    intro x hx
    rw [remoteIds_eq]
    refine List.mem_cons_of_mem _ ?_
    exact mem_remoteListIds hmem x (ih x hx)

theorem cleanOccurs_rOccurs {p r : RemoteNote} (h : CleanOccurs p r) : ROccurs p r := by
  induction h with
  | refl => exact ROccurs.refl _
  | child hmem _ _ ih => exact ROccurs.child hmem ih

theorem specScanList_skipped_of {cs : List (Option String × RemoteNote)} (pid : String)
    (h : ∀ pc ∈ cs, ∀ (par pre : Option String) (st : ScanState),
      (specScanNote par pre pc.2 st).2.2 = st.2.2 ++ skippedMsgs pc.2) :
    ∀ st : ScanState, (specScanList pid cs st).2.2 = st.2.2 ++ skippedList cs := by
  induction cs with
  | nil => intro st; rw [specScanList, skippedList, List.append_nil]
  | cons hd tl ih =>
    rcases hd with ⟨pre0, c⟩
    intro st
    rw [specScanList, skippedList]
    rw [h (pre0, c) (List.mem_cons_self _ _)]
    rw [ih (fun pc hpc => h pc (List.mem_cons_of_mem _ hpc))]
    rw [List.append_assoc]

/-- The skipped notifications accumulate exactly the subtree's messages. -/
theorem specScanNote_skipped :
    ∀ (r : RemoteNote) (par pre : Option String) (st : ScanState),
      (specScanNote par pre r st).2.2 = st.2.2 ++ skippedMsgs r := by
  refine RemoteNote.rec_children (fun r ihc => ?_)
  intro par pre st
  rw [specScanNote_def, skippedMsgs_eq]
  by_cases hn : (r.attributes.filter isNoSyncAttr).isEmpty = true
  · rw [if_pos hn, if_pos hn]
    exact specScanList_skipped_of r.id (fun pc hpc par' pre' st' => ihc pc hpc par' pre' st') _
  · rw [if_neg hn, if_neg hn]

theorem specScanList_skipped (pid : String) (cs : List (Option String × RemoteNote))
    (st : ScanState) : (specScanList pid cs st).2.2 = st.2.2 ++ skippedList cs :=
  specScanList_skipped_of pid (fun pc _ => specScanNote_skipped pc.2) st

theorem loadedList_keys_sub_of {cs : List (Option String × RemoteNote)}
    (h : ∀ pc ∈ cs, ∀ k, k ∈ (loadedEntries pc.2).map Prod.fst → k ∈ remoteIds pc.2) :
    ∀ k, k ∈ (loadedList cs).map Prod.fst → k ∈ remoteListIds cs := by
  induction cs with
  | nil => intro k hk; cases hk
  | cons hd tl ih =>
    rcases hd with ⟨pre0, c⟩
    intro k hk
    rw [loadedList, List.map_append, List.mem_append] at hk
    rw [remoteListIds, List.mem_append]
    rcases hk with hk | hk
    · exact Or.inr (ih (fun pc hpc => h pc (List.mem_cons_of_mem _ hpc)) k hk)
    · exact Or.inl (h (pre0, c) (List.mem_cons_self _ _) k hk)

theorem loadedEntries_keys_sub :
    ∀ (r : RemoteNote) (k : String), k ∈ (loadedEntries r).map Prod.fst → k ∈ remoteIds r := by
  refine RemoteNote.rec_children (fun r ihc => ?_)
  intro k hk
  rw [loadedEntries_eq] at hk
  by_cases hn : (r.attributes.filter isNoSyncAttr).isEmpty = true
  · rw [if_pos hn] at hk
    rw [List.map_cons, List.mem_cons] at hk
    rw [remoteIds_eq]
    rcases hk with hk | hk
    · exact hk ▸ List.mem_cons_self _ _
    · exact List.mem_cons_of_mem _
        (loadedList_keys_sub_of (fun pc hpc => ihc pc hpc) k hk)
  · rw [if_neg hn] at hk
    cases hk

theorem loadedList_keys_sub {cs : List (Option String × RemoteNote)} {k : String}
    (hk : k ∈ (loadedList cs).map Prod.fst) : k ∈ remoteListIds cs :=
  loadedList_keys_sub_of (fun pc _ => loadedEntries_keys_sub pc.2) k hk

theorem specScanList_lookup_of {cs : List (Option String × RemoteNote)} (pid : String)
    (h : ∀ pc ∈ cs, ∀ (par pre : Option String) (st : ScanState),
      (remoteIds pc.2).Nodup → (∀ x ∈ remoteIds pc.2, x ∉ st.1.map Prod.fst) →
      (specScanNote par pre pc.2 st).1 = st.1 ++ loadedEntries pc.2) :
    ∀ st : ScanState, (remoteListIds cs).Nodup →
      (∀ x ∈ remoteListIds cs, x ∉ st.1.map Prod.fst) →
      (specScanList pid cs st).1 = st.1 ++ loadedList cs := by
  induction cs with
  | nil => intro st _ _; rw [specScanList, loadedList, List.append_nil]
  | cons hd tl ih =>
    rcases hd with ⟨pre0, c⟩
    intro st hnd hfresh
    rw [remoteListIds, List.nodup_append] at hnd
    rw [specScanList, loadedList]
    have hreck := ih (fun pc hpc => h pc (List.mem_cons_of_mem _ hpc)) st hnd.2.1
      (fun x hx => hfresh x (by rw [remoteListIds, List.mem_append]; exact Or.inr hx))
    rw [h (pre0, c) (List.mem_cons_self _ _) _ _ _ hnd.1 ?hfreshc]
    case hfreshc =>
      intro x hx
      rw [hreck, List.map_append, List.mem_append]
      push_neg
      refine ⟨hfresh x (by rw [remoteListIds, List.mem_append]; exact Or.inl hx), ?_⟩
      intro hx'
      exact hnd.2.2 hx (loadedList_keys_sub hx')
    rw [hreck, List.append_assoc]

/-- The `note_lookup` entries accumulate exactly the subtree's loaded
entries when the subtree's ids are distinct and fresh. -/
theorem specScanNote_lookup :
    ∀ (r : RemoteNote) (par pre : Option String) (st : ScanState),
      (remoteIds r).Nodup → (∀ x ∈ remoteIds r, x ∉ st.1.map Prod.fst) →
      (specScanNote par pre r st).1 = st.1 ++ loadedEntries r := by
  refine RemoteNote.rec_children (fun r ihc => ?_)
  intro par pre st hnd hfresh
  rw [specScanNote_def, loadedEntries_eq]
  by_cases hn : (r.attributes.filter isNoSyncAttr).isEmpty = true
  · rw [if_pos hn, if_pos hn]
    rw [remoteIds_eq, List.nodup_cons] at hnd
    have hset : dictSet st.1 r.id (WorkingNote.fromRemote r) =
        st.1 ++ [(r.id, WorkingNote.fromRemote r)] :=
      dictSet_fresh _ (hfresh r.id (id_mem_remoteIds r))
    rw [fromRemote_id, hset]
    rw [specScanList_lookup_of r.id (fun pc hpc => ihc pc hpc) _ hnd.2 ?hfr]
    case hfr =>
      intro x hx
      rw [List.map_append, List.mem_append]
      push_neg
      refine ⟨hfresh x (by rw [remoteIds_eq]; exact List.mem_cons_of_mem _ hx), ?_⟩
      intro hx'
      rw [List.map_singleton, List.mem_singleton] at hx'
      simp only at hx'
      exact hnd.1 (hx' ▸ hx)
    rw [List.append_assoc]
    rfl
  · rw [if_neg hn, if_neg hn]
    rw [List.append_nil]

/-- A remote note the scan actually loads: it is reached through a chain
of non-skipped ancestors and is itself not skipped. -/
def LoadedOccurs (n r : RemoteNote) : Prop :=
  CleanOccurs n r ∧ hasNoSync n.attributes = false

theorem loadedList_mem_of {cs : List (Option String × RemoteNote)}
    {pc : Option String × RemoteNote} (hpc : pc ∈ cs) {q : String × WorkingNote}
    (hq : q ∈ loadedEntries pc.2) : q ∈ loadedList cs := by
  induction cs with
  | nil => cases hpc
  | cons hd tl ih =>
    rcases hd with ⟨pre0, c⟩
    rw [loadedList, List.mem_append]
    rcases List.mem_cons.mp hpc with h0 | h0
    · subst h0
      exact Or.inr hq
    · exact Or.inl (ih h0)

/-- Every loaded entry is the working note of a loaded remote node. -/
theorem mem_loadedEntries :
    ∀ (r : RemoteNote) (q : String × WorkingNote), q ∈ loadedEntries r →
      ∃ n, LoadedOccurs n r ∧ q = (n.id, WorkingNote.fromRemote n) := by
  refine RemoteNote.rec_children (fun r ihc => ?_)
  intro q hq
  rw [loadedEntries_eq] at hq
  by_cases hn : (r.attributes.filter isNoSyncAttr).isEmpty = true
  · rw [if_pos hn] at hq
    have hclean : hasNoSync r.attributes = false := (noSync_isEmpty_iff _).mp hn
    rcases List.mem_cons.mp hq with h0 | h0
    · exact ⟨r, ⟨CleanOccurs.refl r, hclean⟩, h0⟩
    · have hlist : ∀ (cs : List (Option String × RemoteNote)),
          (∀ pc ∈ cs, ∀ q' ∈ loadedEntries pc.2,
            ∃ n, LoadedOccurs n pc.2 ∧ q' = (n.id, WorkingNote.fromRemote n)) →
          q ∈ loadedList cs →
          ∃ pc ∈ cs, ∃ n, LoadedOccurs n pc.2 ∧ q = (n.id, WorkingNote.fromRemote n) := by
        intro cs
        induction cs with
        | nil => intro _ hq'; cases hq'
        | cons hd tl ih =>
          rcases hd with ⟨pre0, c⟩
          intro h hq'
          rw [loadedList, List.mem_append] at hq'
          rcases hq' with hq' | hq'
          · rcases ih (fun pc hpc => h pc (List.mem_cons_of_mem _ hpc)) hq' with ⟨pc, hpc, hn'⟩
            exact ⟨pc, List.mem_cons_of_mem _ hpc, hn'⟩
          · exact ⟨(pre0, c), List.mem_cons_self _ _,
              h (pre0, c) (List.mem_cons_self _ _) q hq'⟩
      rcases hlist r.children (fun pc hpc q' hq' => ihc pc hpc q' hq') h0 with
        ⟨pc, hpc, n, hno, hqe⟩
      exact ⟨n, ⟨CleanOccurs.child hpc hclean hno.1, hno.2⟩, hqe⟩
  · rw [if_neg hn] at hq
    cases hq

/-- Every loaded remote node contributes its working-note entry. -/
theorem loadedEntries_mem_of {n r : RemoteNote} (hocc : CleanOccurs n r) :
    hasNoSync n.attributes = false →
    (n.id, WorkingNote.fromRemote n) ∈ loadedEntries r := by
  induction hocc with
  | refl =>
    intro hclean
    rw [loadedEntries_eq, if_pos ((noSync_isEmpty_iff _).mpr hclean)]
    exact List.mem_cons_self _ _
  | child hmem hn _ ih =>
    intro hclean
    rw [loadedEntries_eq, if_pos ((noSync_isEmpty_iff _).mpr hn)]
    exact List.mem_cons_of_mem _ (loadedList_mem_of hmem (ih hclean))

theorem loadedList_keys_excl {x : String} {c0 : RemoteNote} :
    ∀ {cs : List (Option String × RemoteNote)} {pre0 : Option String},
      (pre0, c0) ∈ cs → (remoteListIds cs).Nodup → x ∈ remoteIds c0 →
      x ∉ (loadedEntries c0).map Prod.fst → x ∉ (loadedList cs).map Prod.fst := by
  intro cs
  induction cs with
  | nil => intro pre0 hmem; cases hmem
  | cons hd tl ih =>
    rcases hd with ⟨pre1, c1⟩
    intro pre0 hmem hnd hx hx0 hx'
    rw [remoteListIds, List.nodup_append] at hnd
    rw [loadedList, List.map_append, List.mem_append] at hx'
    rcases List.mem_cons.mp hmem with h0 | h0
    · injection h0 with h1 h2
      subst h2
      rcases hx' with hx' | hx'
      · exact hnd.2.2 hx (loadedList_keys_sub hx')
      · exact hx0 hx'
    · rcases hx' with hx' | hx'
      · exact ih h0 hnd.2.1 hx hx0 hx'
      · exact hnd.2.2 (loadedEntries_keys_sub c1 x hx') (mem_remoteListIds h0 x hx)

/-- The whole subtree of a reachable no-sync node contributes no loaded
entry. -/
theorem loadedEntries_excludes {N r : RemoteNote} (hocc : CleanOccurs N r) :
    hasNoSync N.attributes = true → (remoteIds r).Nodup →
    ∀ x ∈ remoteIds N, x ∉ (loadedEntries r).map Prod.fst := by
  induction hocc with
  | refl =>
    intro hns _ x _ hx'
    rw [loadedEntries_eq] at hx'
    rw [if_neg (by rw [noSync_isEmpty_iff]; rw [hns]; exact fun h => Bool.true_eq_false.mp h)]
      at hx'
    cases hx'
  | child hmem hn hp ih =>
    rename_i c0 node pre0
    intro hns hnd x hx hx'
    rw [remoteIds_eq, List.nodup_cons] at hnd
    have hxc0 : x ∈ remoteIds c0 := cleanOccurs_ids_sub hp x hx
    rw [loadedEntries_eq, if_pos ((noSync_isEmpty_iff _).mpr hn)] at hx'
    rw [List.map_cons, List.mem_cons] at hx'
    rcases hx' with hx' | hx'
    · simp only at hx'
      exact hnd.1 (hx' ▸ mem_remoteListIds hmem x hxc0)
    · have hndc : (remoteIds c0).Nodup := by
        have h2 := hnd.2
        rw [remoteListIds_flatten, List.nodup_flatten] at h2
        exact h2.1 (remoteIds c0) (List.mem_map.mpr ⟨(pre0, c0), hmem, rfl⟩)
      exact loadedList_keys_excl hmem hnd.2 hxc0 (ih hns hndc x hx) hx'

theorem skippedList_mem_of {cs : List (Option String × RemoteNote)}
    {pc : Option String × RemoteNote} (hpc : pc ∈ cs) {m : String}
    (hm : m ∈ skippedMsgs pc.2) : m ∈ skippedList cs := by
  induction cs with
  | nil => cases hpc
  | cons hd tl ih =>
    rcases hd with ⟨pre0, c⟩
    rw [skippedList, List.mem_append]
    rcases List.mem_cons.mp hpc with h0 | h0
    · subst h0
      exact Or.inr hm
    · exact Or.inl (ih h0)

/-- A reachable no-sync node's notification is recorded. -/
theorem skippedMsgs_mem {N r : RemoteNote} (hocc : CleanOccurs N r) :
    hasNoSync N.attributes = true → skipMessage N.title N.id ∈ skippedMsgs r := by
  induction hocc with
  | refl =>
    intro hns
    rw [skippedMsgs_eq]
    rw [if_neg (by rw [noSync_isEmpty_iff]; rw [hns]; exact fun h => Bool.true_eq_false.mp h)]
    rcases List.any_eq_true.mp hns with ⟨a, ha, hna⟩
    exact List.mem_map.mpr ⟨a, List.mem_filter.mpr ⟨ha, hna⟩, rfl⟩
  | child hmem hn _ ih =>
    intro hns
    rw [skippedMsgs_eq, if_pos ((noSync_isEmpty_iff _).mpr hn)]
    exact skippedList_mem_of hmem (ih hns)

/-- The children dict of note `pid` records a child with note id `cid`. -/
def cmContains (cm : ChildrenMaps) (pid cid : String) : Prop :=
  ∃ d, cm.lookup pid = Option.some d ∧ cid ∈ (flattenChildren d).map Prod.fst

theorem flattenChildren_cons (pc : Option String × List LinkChild)
    (d : List (Option String × List LinkChild)) :
    flattenChildren (pc :: d) =
      pc.2.map (fun c => (c.id, displayName pc.1 c.title)) ++ flattenChildren d := by
  unfold flattenChildren
  rw [List.flatMap_cons]

theorem flattenChildren_addToPrefixDict (d : List (Option String × List LinkChild))
    (pre : Option String) (c : LinkChild) :
    ∀ x, x ∈ (flattenChildren (addToPrefixDict d pre c)).map Prod.fst ↔
      x ∈ (flattenChildren d).map Prod.fst ∨ x = c.id := by
  intro x
  induction d with
  | nil =>
    rw [addToPrefixDict, flattenChildren_cons]
    simp [flattenChildren]
  | cons hd tl ih =>
    rcases hd with ⟨k, v⟩
    rw [addToPrefixDict]
    by_cases hk : k = pre
    · rw [if_pos hk, flattenChildren_cons, flattenChildren_cons]
      simp only [List.map_append, List.map_cons, List.map_nil, List.mem_append,
        List.mem_cons, List.not_mem_nil, or_false]
      tauto
    · rw [if_neg hk, flattenChildren_cons, flattenChildren_cons]
      simp only [List.map_append, List.mem_append]
      rw [ih]
      tauto

theorem addChildEdge_lookup_self (m : ChildrenMaps) (pid : String) (pre : Option String)
    (c : LinkChild) :
    (addChildEdge m pid pre c).lookup pid =
      Option.some (addToPrefixDict ((m.lookup pid).getD []) pre c) := by
  induction m with
  | nil =>
    rw [addChildEdge]
    simp [List.lookup_cons]
  | cons hd tl ih =>
    rcases hd with ⟨k, v⟩
    rw [addChildEdge]
    by_cases hk : k = pid
    · rw [if_pos hk]
      subst hk
      simp [List.lookup_cons]
    · rw [if_neg hk]
      rw [List.lookup_cons, List.lookup_cons]
      have hb : (pid == k) = false := by
        rw [beq_eq_false_iff_ne]
        exact fun h => hk h.symm
      simp only [hb, ih]

theorem addChildEdge_lookup_ne (m : ChildrenMaps) {pid q : String} (pre : Option String)
    (c : LinkChild) (hq : q ≠ pid) :
    (addChildEdge m pid pre c).lookup q = m.lookup q := by
  induction m with
  | nil =>
    rw [addChildEdge]
    rw [List.lookup_cons]
    have hb : (q == pid) = false := by rw [beq_eq_false_iff_ne]; exact hq
    simp only [hb]
  | cons hd tl ih =>
    rcases hd with ⟨k, v⟩
    rw [addChildEdge]
    by_cases hk : k = pid
    · rw [if_pos hk]
      subst hk
      rw [List.lookup_cons, List.lookup_cons]
      have hb : (q == k) = false := by rw [beq_eq_false_iff_ne]; exact hq
      simp only [hb]
    · rw [if_neg hk]
      rw [List.lookup_cons, List.lookup_cons]
      by_cases hqk : (q == k) = true
      · simp only [hqk]
      · rw [Bool.not_eq_true] at hqk
        simp only [hqk, ih]

theorem cmContains_addChildEdge_self (m : ChildrenMaps) (pid : String)
    (pre : Option String) (c : LinkChild) :
    cmContains (addChildEdge m pid pre c) pid c.id := by
  refine ⟨addToPrefixDict ((m.lookup pid).getD []) pre c, addChildEdge_lookup_self m pid pre c, ?_⟩
  exact (flattenChildren_addToPrefixDict _ pre c c.id).mpr (Or.inr rfl)

theorem cmContains_addChildEdge_mono {m : ChildrenMaps} {a b : String}
    (h : cmContains m a b) (pid : String) (pre : Option String) (c : LinkChild) :
    cmContains (addChildEdge m pid pre c) a b := by
  rcases h with ⟨d, hd, hb⟩
  by_cases ha : a = pid
  · subst ha
    refine ⟨addToPrefixDict ((m.lookup a).getD []) pre c, addChildEdge_lookup_self m a pre c, ?_⟩
    rw [hd]
    exact (flattenChildren_addToPrefixDict d pre c b).mpr (Or.inl hb)
  · exact ⟨d, by rw [addChildEdge_lookup_ne m pre c ha, hd], hb⟩

theorem specScanList_cm_mono_of {cs : List (Option String × RemoteNote)}
    (h : ∀ pc ∈ cs, ∀ (par pre : Option String) (st : ScanState) (a b : String),
      cmContains st.2.1 a b → cmContains (specScanNote par pre pc.2 st).2.1 a b) :
    ∀ (pid : String) (st : ScanState) (a b : String),
      cmContains st.2.1 a b → cmContains (specScanList pid cs st).2.1 a b := by
  induction cs with
  | nil => intro pid st a b hc; exact hc
  | cons hd tl ih =>
    rcases hd with ⟨pre0, c⟩
    intro pid st a b hc
    rw [specScanList]
    exact h (pre0, c) (List.mem_cons_self _ _) _ _ _ a b
      (ih (fun pc hpc => h pc (List.mem_cons_of_mem _ hpc)) pid st a b hc)

/-- The children dicts only grow during the scan. -/
theorem specScanNote_cm_mono :
    ∀ (r : RemoteNote) (par pre : Option String) (st : ScanState) (a b : String),
      cmContains st.2.1 a b → cmContains (specScanNote par pre r st).2.1 a b := by
  refine RemoteNote.rec_children (fun r ihc => ?_)
  intro par pre st a b hc
  rw [specScanNote_def]
  by_cases hn : (r.attributes.filter isNoSyncAttr).isEmpty = true
  · rw [if_pos hn]
    refine specScanList_cm_mono_of (fun pc hpc => ihc pc hpc) r.id _ a b ?_
    cases par with
    | none => exact hc
    | some pid => exact cmContains_addChildEdge_mono hc pid _ _
  · rw [if_neg hn]
    exact hc

theorem specScanList_cm_mono (pid : String) (cs : List (Option String × RemoteNote))
    (st : ScanState) (a b : String) (hc : cmContains st.2.1 a b) :
    cmContains (specScanList pid cs st).2.1 a b :=
  specScanList_cm_mono_of (fun pc _ => specScanNote_cm_mono pc.2) pid st a b hc

/-- Processing a non-skipped child under parent id `pid` records its edge in
the parent's children dict. -/
theorem specScanNote_cm_self {c : RemoteNote} (hc : hasNoSync c.attributes = false)
    (pid : String) (pre : Option String) (st : ScanState) :
    cmContains (specScanNote (Option.some pid) pre c st).2.1 pid c.id := by
  rw [specScanNote_def, if_pos ((noSync_isEmpty_iff _).mpr hc)]
  refine specScanList_cm_mono c.id c.children _ pid c.id ?_
  rw [fromRemote_id, fromRemote_title]
  exact cmContains_addChildEdge_self st.2.1 pid (normalizePrefix pre) ⟨c.id, c.title⟩

theorem specScanList_cm_of_mem {pid : String} {cs : List (Option String × RemoteNote)}
    {pre0 : Option String} {c0 : RemoteNote} (hmem : (pre0, c0) ∈ cs) {a b : String}
    (hP : ∀ st : ScanState, cmContains (specScanNote (Option.some pid) pre0 c0 st).2.1 a b) :
    ∀ st : ScanState, cmContains (specScanList pid cs st).2.1 a b := by
  induction cs with
  | nil => cases hmem
  | cons hd tl ih =>
    intro st
    rw [specScanList]
    rcases List.mem_cons.mp hmem with h0 | h0
    · subst h0
      exact hP _
    · rcases hd with ⟨pre1, c1⟩
      exact specScanNote_cm_mono c1 _ _ _ a b (ih h0 st)

/-- Every tree edge between two reachable non-skipped nodes ends up in the
parent's children dict. -/
theorem specScanNote_cm_path {p r : RemoteNote} (hocc : CleanOccurs p r) :
    hasNoSync p.attributes = false →
    ∀ {pre1 : Option String} {c : RemoteNote},
      (pre1, c) ∈ p.children → hasNoSync c.attributes = false →
      ∀ (par pre0 : Option String) (st : ScanState),
        cmContains (specScanNote par pre0 r st).2.1 p.id c.id := by
  induction hocc with
  | refl =>
    intro hp pre1 c hmem hc par pre0 st
    rw [specScanNote_def, if_pos ((noSync_isEmpty_iff _).mpr hp)]
    exact specScanList_cm_of_mem hmem (fun st' => specScanNote_cm_self hc _ pre1 st') _
  | child hmem1 hn hp ih =>
    intro hp' pre1 c hmem hc par pre0 st
    rw [specScanNote_def, if_pos ((noSync_isEmpty_iff _).mpr hn)]
    exact specScanList_cm_of_mem hmem1 (fun st' => ih hp' hmem hc _ _ st') _

theorem uniqueLinkNames_eq_foldl (children : List (Option String × List LinkChild)) :
    uniqueLinkNames children =
      (assignLinkNames (flattenChildren children) []).foldl
        (fun m a => dictSet m a.1 a.2) [] := rfl

theorem dictSet_keys_acc {α : Type} (m : List (String × α)) (k : String) (v : α) :
    ∀ x, x ∈ m.map Prod.fst → x ∈ (dictSet m k v).map Prod.fst := by
  intro x hx
  unfold dictSet
  by_cases h : m.any (fun p => p.1 == k) = true
  · rw [h]
    simp only [if_true]
    rcases List.mem_map.mp hx with ⟨q, hq, he⟩
    refine List.mem_map.mpr ⟨if q.1 == k then (q.1, v) else q, List.mem_map.mpr ⟨q, hq, rfl⟩, ?_⟩
    by_cases hb : (q.1 == k) = true
    · rw [if_pos hb]
      exact he
    · rw [Bool.not_eq_true] at hb
      rw [if_neg (by rw [hb]; exact fun hh => Bool.false_eq_true.mp hh)]
      exact he
  · rw [Bool.not_eq_true] at h
    rw [h]
    simp only [Bool.false_eq_true, if_false, List.map_append, List.mem_append]
    exact Or.inl hx

theorem dictSet_keys_self {α : Type} (m : List (String × α)) (k : String) (v : α) :
    k ∈ (dictSet m k v).map Prod.fst := by
  unfold dictSet
  by_cases h : m.any (fun p => p.1 == k) = true
  · rw [h]
    simp only [if_true]
    rcases List.any_eq_true.mp h with ⟨q, hq, hb⟩
    refine List.mem_map.mpr ⟨(q.1, v), List.mem_map.mpr ⟨q, hq, by rw [if_pos hb]⟩, eq_of_beq hb⟩
  · rw [Bool.not_eq_true] at h
    rw [h]
    simp only [Bool.false_eq_true, if_false, List.map_append, List.mem_append]
    exact Or.inr (by simp)

theorem foldl_dictSet_keys_acc {α : Type} (l : List (String × α)) :
    ∀ (acc : List (String × α)) (x : String), x ∈ acc.map Prod.fst →
      x ∈ (l.foldl (fun m a => dictSet m a.1 a.2) acc).map Prod.fst := by
  induction l with
  | nil => intro acc x hx; exact hx
  | cons hd tl ih =>
    intro acc x hx
    rw [List.foldl_cons]
    exact ih _ x (dictSet_keys_acc acc hd.1 hd.2 x hx)

theorem foldl_dictSet_keys_mem {α : Type} (l : List (String × α)) :
    ∀ (acc : List (String × α)) (k : String), k ∈ l.map Prod.fst →
      k ∈ (l.foldl (fun m a => dictSet m a.1 a.2) acc).map Prod.fst := by
  induction l with
  | nil => intro acc k hk; cases hk
  | cons hd tl ih =>
    intro acc k hk
    rw [List.foldl_cons]
    rcases List.mem_cons.mp (by rw [List.map_cons] at hk; exact hk) with h0 | h0
    · subst h0
      exact foldl_dictSet_keys_acc tl _ _ (dictSet_keys_self acc hd.1 hd.2)
    · exact ih _ k h0

theorem assignLinkNames_keys :
    ∀ (l : List (String × String)) (m : List (String × Nat)),
      (assignLinkNames l m).map Prod.fst = l.map Prod.fst := by
  intro l
  induction l with
  | nil => intro m; rfl
  | cons hd tl ih =>
    rcases hd with ⟨cid, dname⟩
    intro m
    rw [assignLinkNames]
    rcases h : m.lookup dname with _ | num
    · rw [List.map_cons, ih, List.map_cons]
    · rw [List.map_cons, ih, List.map_cons]

/-- `GetLinkName` finds a link name for every child recorded in the parent's
children dict. -/
theorem getLinkName_isSome {children : List (Option String × List LinkChild)} {cid : String}
    (h : cid ∈ (flattenChildren children).map Prod.fst) :
    (GetLinkName cid children).isSome = true := by
  unfold GetLinkName
  have hk : cid ∈ (uniqueLinkNames children).map Prod.fst := by
    rw [uniqueLinkNames_eq_foldl]
    refine foldl_dictSet_keys_mem _ [] cid ?_
    rw [assignLinkNames_keys]
    exact h
  rcases List.mem_map.mp hk with ⟨q, hq, he⟩
  have := lookup_isSome_of_mem hq
  rw [he] at this
  exact this

theorem lookup_map_update_self {α : Type} {m : List (String × α)} {k : String} (v : α)
    (h : m.any (fun p => p.1 == k) = true) :
    (m.map (fun p => if p.1 == k then (p.1, v) else p)).lookup k = Option.some v := by
  induction m with
  | nil => cases h
  | cons hd tl ih =>
    rw [List.any_cons] at h
    rw [List.map_cons]
    by_cases hb : (hd.1 == k) = true
    · rw [if_pos hb]
      rw [List.lookup_cons]
      have : (k == hd.1) = true := by rw [beq_iff_eq]; exact (eq_of_beq hb).symm
      simp only [this]
    · rw [Bool.not_eq_true] at hb
      rw [if_neg (by rw [hb]; exact fun hh => Bool.false_eq_true.mp hh)]
      rw [List.lookup_cons]
      have : (k == hd.1) = false := by
        rw [beq_eq_false_iff_ne]
        intro he
        rw [he] at hb
        simp at hb
      simp only [this]
      rw [hb, Bool.false_or] at h
      exact ih h

theorem lookup_map_update_ne {α : Type} (m : List (String × α)) {k : String} (v : α)
    {q : String} (h : q ≠ k) :
    (m.map (fun p => if p.1 == k then (p.1, v) else p)).lookup q = m.lookup q := by
  induction m with
  | nil => rfl
  | cons hd tl ih =>
    rw [List.map_cons]
    by_cases hb : (hd.1 == k) = true
    · rw [if_pos hb]
      rw [List.lookup_cons, List.lookup_cons]
      have : (q == hd.1) = false := by
        rw [beq_eq_false_iff_ne]
        intro he
        exact h (he.trans (eq_of_beq hb))
      simp only [this, ih]
    · rw [Bool.not_eq_true] at hb
      rw [if_neg (by rw [hb]; exact fun hh => Bool.false_eq_true.mp hh)]
      rw [List.lookup_cons, List.lookup_cons]
      by_cases hq : (q == hd.1) = true
      · simp only [hq]
      · rw [Bool.not_eq_true] at hq
        simp only [hq, ih]

theorem lookup_append_some {α : Type} {m : List (String × α)} {q : String} {w : α}
    (h : m.lookup q = Option.some w) (ys : List (String × α)) :
    (m ++ ys).lookup q = Option.some w := by
  induction m with
  | nil => cases h
  | cons hd tl ih =>
    rcases hd with ⟨a, b⟩
    rw [List.cons_append, List.lookup_cons]
    rw [List.lookup_cons] at h
    by_cases hq : (q == a) = true
    · rw [hq] at h ⊢
      exact h
    · rw [Bool.not_eq_true] at hq
      rw [hq] at h ⊢
      exact ih h

theorem lookup_append_none {α : Type} {m : List (String × α)} {q : String}
    (h : m.lookup q = Option.none) (ys : List (String × α)) :
    (m ++ ys).lookup q = ys.lookup q := by
  induction m with
  | nil => rfl
  | cons hd tl ih =>
    rcases hd with ⟨a, b⟩
    rw [List.cons_append, List.lookup_cons]
    rw [List.lookup_cons] at h
    by_cases hq : (q == a) = true
    · rw [hq] at h
      cases h
    · rw [Bool.not_eq_true] at hq
      rw [hq] at h ⊢
      exact ih h

theorem dictSet_lookup_self {α : Type} (m : List (String × α)) (k : String) (v : α) :
    (dictSet m k v).lookup k = Option.some v := by
  unfold dictSet
  by_cases h : m.any (fun p => p.1 == k) = true
  · rw [h]
    simp only [if_true]
    exact lookup_map_update_self v h
  · rw [Bool.not_eq_true] at h
    rw [h]
    simp only [Bool.false_eq_true, if_false]
    have hnone : m.lookup k = Option.none := by
      apply lookup_eq_none_of_not_mem_keys
      intro hk
      rcases List.mem_map.mp hk with ⟨q, hq, he⟩
      have := List.any_eq_false.mp h q hq
      rw [beq_iff_eq] at this
      exact this he
    rw [lookup_append_none hnone]
    rw [List.lookup_cons]
    simp

theorem dictSet_lookup_ne {α : Type} (m : List (String × α)) (k : String) (v : α)
    {q : String} (h : q ≠ k) : (dictSet m k v).lookup q = m.lookup q := by
  unfold dictSet
  by_cases hany : m.any (fun p => p.1 == k) = true
  · rw [hany]
    simp only [if_true]
    exact lookup_map_update_ne m v h
  · rw [Bool.not_eq_true] at hany
    rw [hany]
    simp only [Bool.false_eq_true, if_false]
    rcases hq : m.lookup q with _ | w
    · rw [lookup_append_none hq]
      rw [List.lookup_cons]
      have : (q == k) = false := by rw [beq_eq_false_iff_ne]; exact h
      simp only [this]
      rfl
    · exact lookup_append_some hq _

theorem mem_dictSet {α : Type} {m : List (String × α)} {k : String} {v : α}
    {q : String × α} (h : q ∈ dictSet m k v) : q ∈ m ∨ q.2 = v := by
  unfold dictSet at h
  by_cases hany : m.any (fun p => p.1 == k) = true
  · rw [hany] at h
    simp only [if_true] at h
    rcases List.mem_map.mp h with ⟨p, hp, he⟩
    by_cases hb : (p.1 == k) = true
    · rw [if_pos hb] at he
      exact Or.inr (by rw [← he])
    · rw [Bool.not_eq_true] at hb
      rw [if_neg (by rw [hb]; exact fun hh => Bool.false_eq_true.mp hh)] at he
      exact Or.inl (he ▸ hp)
  · rw [Bool.not_eq_true] at hany
    rw [hany] at h
    simp only [Bool.false_eq_true, if_false] at h
    rcases List.mem_append.mp h with h | h
    · exact Or.inl h
    · rw [List.mem_singleton] at h
      exact Or.inr (by rw [h])

/-- Invariant of the `exported_children` maps: every export link was
inserted for a loaded child under one of its loaded, reported parents. -/
def ExInv (lookup : List (String × WorkingNote)) (ex : ExportedMaps) : Prop :=
  ∀ pid d, ex.lookup pid = Option.some d →
    (∃ pw, (pid, pw) ∈ lookup) ∧
    ∀ ln c, (ln, c) ∈ d → pid ∈ c.parent_ids ∧ ∃ k, (k, c) ∈ lookup

/-- `UpdateExportedChildren` completes on every loaded note when every
loaded (child, loaded parent) pair has a link name and the parent chain
descends a rank. -/
theorem updateExported_ok (lookup : List (String × WorkingNote)) (cm : ChildrenMaps)
    (rank : String → Nat)
    (hids : ∀ q ∈ lookup, (Prod.snd q).id = q.1)
    (hlink : ∀ w, (∃ k, (k, w) ∈ lookup) → ∀ pid ∈ w.parent_ids, ∀ pw,
      lookup.lookup pid = Option.some pw →
      (GetLinkName w.id ((cm.lookup pid).getD [])).isSome = true)
    (hrank : ∀ w, (∃ k, (k, w) ∈ lookup) → ∀ pid ∈ w.parent_ids, ∀ pw,
      lookup.lookup pid = Option.some pw → rank pid < rank w.id) :
    ∀ (fuel : Nat) (note : WorkingNote), (∃ k, (k, note) ∈ lookup) → rank note.id < fuel →
      ∀ ex, ExInv lookup ex →
      ∃ ex', updateExported lookup cm fuel ex note = .ok ex' ∧ ExInv lookup ex' := by
  intro fuel
  induction fuel with
  | zero => intro note _ hrk; omega
  | succ fuel ih =>
    intro note hmem hrk ex hexinv
    rw [updateExported]
    have hloop : ∀ pids, (∀ pid ∈ pids, pid ∈ note.parent_ids) → ∀ ex0, ExInv lookup ex0 →
        ∃ ex', updateExportedLoop (updateExported lookup cm fuel) lookup cm note pids ex0 =
          .ok ex' ∧ ExInv lookup ex' := by
      intro pids
      induction pids with
      | nil => intro _ ex0 hex0; exact ⟨ex0, rfl, hex0⟩
      | cons pid rest ihp =>
        intro hsub ex0 hex0
        rw [updateExportedLoop]
        by_cases hroot : pid = "root"
        · rw [if_pos hroot]
          exact ihp (fun p hp => hsub p (List.mem_cons_of_mem _ hp)) ex0 hex0
        · rw [if_neg hroot]
          rcases hlp : lookup.lookup pid with _ | parent_note
          · simp only
            exact ihp (fun p hp => hsub p (List.mem_cons_of_mem _ hp)) ex0 hex0
          · simp only
            have hgl := hlink note hmem pid (hsub pid (List.mem_cons_self _ _)) parent_note hlp
            rcases hgo : GetLinkName note.id ((cm.lookup pid).getD []) with _ | link_name
            · rw [hgo] at hgl
              cases hgl
            · simp only
              by_cases hin : ((ex0.lookup pid).getD []).any (fun p => p.1 == link_name) = true
              · rw [if_pos hin]
                exact ihp (fun p hp => hsub p (List.mem_cons_of_mem _ hp)) ex0 hex0
              · rw [if_neg hin]
                have hex1 : ExInv lookup
                    (dictSet ex0 pid (((ex0.lookup pid).getD []) ++ [(link_name, note)])) := by
                  intro pid' d' hlook'
                  by_cases hp' : pid' = pid
                  · subst hp'
                    rw [dictSet_lookup_self] at hlook'
                    injection hlook' with hd'
                    subst hd'
                    refine ⟨⟨parent_note, mem_of_lookup_eq_some hlp⟩, ?_⟩
                    intro ln' c' hmem'
                    rcases List.mem_append.mp hmem' with hm | hm
                    · rcases hgd : ex0.lookup pid' with _ | pd
                      · rw [hgd] at hm
                        cases hm
                      · rw [hgd] at hm
                        exact (hex0 pid' pd hgd).2 ln' c' hm
                    · rw [List.mem_singleton] at hm
                      injection hm with hm1 hm2
                      subst hm2
                      exact ⟨hsub pid' (List.mem_cons_self _ _), hmem⟩
                  · rw [dictSet_lookup_ne _ _ _ hp'] at hlook'
                    exact hex0 pid' d' hlook'
                have hpmem : (pid, parent_note) ∈ lookup := mem_of_lookup_eq_some hlp
                have hprk : rank parent_note.id < fuel := by
                  have h1 := hrank note hmem pid (hsub pid (List.mem_cons_self _ _)) parent_note hlp
                  have h2 := hids (pid, parent_note) hpmem
                  simp only at h2
                  rw [h2]
                  omega
                rcases ih parent_note ⟨pid, hpmem⟩ hprk _ hex1 with ⟨ex2, hrec, hex2⟩
                rw [hrec]
                exact ihp (fun p hp => hsub p (List.mem_cons_of_mem _ hp)) ex2 hex2
    exact hloop note.parent_ids (fun _ h => h) ex hexinv

/-- The driver loop over all loaded notes completes. -/
theorem buildExported_ok (lookup : List (String × WorkingNote)) (cm : ChildrenMaps)
    (rank : String → Nat) (fuel : Nat)
    (hids : ∀ q ∈ lookup, (Prod.snd q).id = q.1)
    (hlink : ∀ w, (∃ k, (k, w) ∈ lookup) → ∀ pid ∈ w.parent_ids, ∀ pw,
      lookup.lookup pid = Option.some pw →
      (GetLinkName w.id ((cm.lookup pid).getD [])).isSome = true)
    (hrank : ∀ w, (∃ k, (k, w) ∈ lookup) → ∀ pid ∈ w.parent_ids, ∀ pw,
      lookup.lookup pid = Option.some pw → rank pid < rank w.id)
    (hfuel : ∀ q ∈ lookup, rank (Prod.snd q).id < fuel) :
    ∀ entries, (∀ q ∈ entries, q ∈ lookup) → ∀ ex, ExInv lookup ex →
      ∃ ex', buildExported lookup cm fuel entries ex = .ok ex' ∧ ExInv lookup ex' := by
  intro entries
  induction entries with
  | nil => intro _ ex hex; exact ⟨ex, rfl, hex⟩
  | cons q rest ihq =>
    rcases q with ⟨k, note⟩
    intro hsub ex hex
    rw [buildExported]
    have hm : (k, note) ∈ lookup := hsub (k, note) (List.mem_cons_self _ _)
    rcases updateExported_ok lookup cm rank hids hlink hrank fuel note ⟨k, hm⟩
        (hfuel (k, note) hm) ex hex with ⟨ex1, hup, hex1⟩
    rw [hup]
    exact ihq (fun p hp => hsub p (List.mem_cons_of_mem _ hp)) ex1 hex1

/-- `CreateTriliumNote` completes when the export edges descend a rank. -/
theorem createTrilium_ok (lookup : List (String × WorkingNote)) (ex : ExportedMaps)
    (crank : String → Nat)
    (hedge : ∀ pid d, ex.lookup pid = Option.some d → ∀ ln c, (ln, c) ∈ d →
      crank c.id < crank pid) :
    ∀ (fuel : Nat) (note : WorkingNote) (tl : List (String × TriliumNoteShort)),
      crank note.id < fuel →
      ∃ t tl', createTrilium lookup ex fuel tl note = .ok (t, tl') := by
  intro fuel
  induction fuel with
  | zero => intro note tl hrk; omega
  | succ fuel ih =>
    intro note tl hrk
    rw [createTrilium]
    rcases hm : tl.lookup note.id with _ | t
    · simp only
      have hfold : ∀ d, (∀ p ∈ d, crank (Prod.snd p).id < crank note.id) →
          ∀ tl0, ∃ cs tl1,
            createTriliumChildren (createTrilium lookup ex fuel) d tl0 = .ok (cs, tl1) := by
        intro d
        induction d with
        | nil => intro _ tl0; exact ⟨[], tl0, rfl⟩
        | cons p rest ihd =>
          rcases p with ⟨ln, c⟩
          intro hlt tl0
          rw [createTriliumChildren]
          rcases ih c tl0 (by
            have := hlt (ln, c) (List.mem_cons_self _ _)
            simp only at this
            omega) with ⟨t1, tl1, hc1⟩
          simp only [hc1]
          rcases ihd (fun p hp => hlt p (List.mem_cons_of_mem _ hp)) tl1 with ⟨cs, tl2, hc2⟩
          simp only [hc2]
          exact ⟨(ln, t1) :: cs, tl2, rfl⟩
      rcases hd : ex.lookup note.id with _ | d
      · simp only [Option.getD_none]
        rcases hfold [] (fun p hp => by cases hp) tl with ⟨cs, tl1, hc⟩
        simp only [hc]
        exact ⟨_, _, rfl⟩
      · simp only [Option.getD_some]
        rcases hfold d (fun p hp => hedge note.id d hd p.1 p.2 (by
            rcases p with ⟨a, b⟩
            exact hp)) tl with ⟨cs, tl1, hc⟩
        simp only [hc]
        exact ⟨_, _, rfl⟩
    · exact ⟨t, tl, rfl⟩

/-- Every id in the tree built by `CreateTriliumNote` names a loaded note. -/
theorem createTrilium_ids (lookup : List (String × WorkingNote)) (ex : ExportedMaps)
    (hexkeys : ∀ pid d, ex.lookup pid = Option.some d → ∀ ln c, (ln, c) ∈ d →
      c.id ∈ lookup.map Prod.fst) :
    ∀ (fuel : Nat) (tl : List (String × TriliumNoteShort)) (note : WorkingNote)
      (t : TriliumNoteShort) (tl' : List (String × TriliumNoteShort)),
      createTrilium lookup ex fuel tl note = .ok (t, tl') →
      note.id ∈ lookup.map Prod.fst →
      (∀ q ∈ tl, ∀ x ∈ allIds (Prod.snd q), x ∈ lookup.map Prod.fst) →
      (∀ x ∈ allIds t, x ∈ lookup.map Prod.fst) ∧
      (∀ q ∈ tl', ∀ x ∈ allIds (Prod.snd q), x ∈ lookup.map Prod.fst) := by
  intro fuel
  induction fuel with
  | zero =>
    intro tl note t tl' h
    rw [createTrilium] at h
    cases h
  | succ fuel ih =>
    intro tl note t tl' h hnote htl
    rw [createTrilium] at h
    rcases hm : tl.lookup note.id with _ | t0
    · rw [hm] at h
      simp only at h
      have hfold : ∀ (d : List (String × WorkingNote)) (tl0 : List (String × TriliumNoteShort))
          (cs : List (String × TriliumNoteShort)) (tl1 : List (String × TriliumNoteShort)),
          createTriliumChildren (createTrilium lookup ex fuel) d tl0 = .ok (cs, tl1) →
          (∀ p ∈ d, (Prod.snd p).id ∈ lookup.map Prod.fst) →
          (∀ q ∈ tl0, ∀ x ∈ allIds (Prod.snd q), x ∈ lookup.map Prod.fst) →
          (∀ q ∈ cs, ∀ x ∈ allIds (Prod.snd q), x ∈ lookup.map Prod.fst) ∧
          (∀ q ∈ tl1, ∀ x ∈ allIds (Prod.snd q), x ∈ lookup.map Prod.fst) := by
        intro d
        induction d with
        | nil =>
          intro tl0 cs tl1 hc _ htl0
          rw [createTriliumChildren] at hc
          injection hc with hc
          injection hc with hc1 hc2
          subst hc1
          subst hc2
          exact ⟨fun q hq => absurd hq (List.not_mem_nil q), htl0⟩
        | cons p rest ihd =>
          rcases p with ⟨ln, c⟩
          intro tl0 cs tl1 hc hd0 htl0
          rw [createTriliumChildren] at hc
          rcases hc1 : createTrilium lookup ex fuel tl0 c with e1 | r1
          · rw [hc1] at hc
            cases hc
          · rcases r1 with ⟨t1, tlx⟩
            rw [hc1] at hc
            simp only at hc
            rcases hc2 : createTriliumChildren (createTrilium lookup ex fuel) rest tlx with
              e2 | r2
            · rw [hc2] at hc
              cases hc
            · rcases r2 with ⟨cs2, tl2⟩
              rw [hc2] at hc
              simp only at hc
              injection hc with hc
              injection hc with hca hcb
              subst hca
              subst hcb
              have h1 := ih tl0 c t1 tlx hc1
                (hd0 (ln, c) (List.mem_cons_self _ _)) htl0
              have h2 := ihd tlx cs2 tl2 hc2
                (fun p hp => hd0 p (List.mem_cons_of_mem _ hp)) h1.2
              refine ⟨?_, h2.2⟩
              intro q hq x hx
              rcases List.mem_cons.mp hq with hq0 | hq0
              · subst hq0
                exact h1.1 x hx
              · exact h2.1 q hq0 x hx
      rcases hcf : createTriliumChildren (createTrilium lookup ex fuel)
          ((ex.lookup note.id).getD []) tl with ef | rf
      · rw [hcf] at h
        cases h
      · rcases rf with ⟨cs, tl1⟩
        rw [hcf] at h
        simp only at h
        injection h with h0
        injection h0 with h1 h2
        have hdmem : ∀ p ∈ (ex.lookup note.id).getD [], (Prod.snd p).id ∈ lookup.map Prod.fst := by
          rcases hdl : ex.lookup note.id with _ | d
          · intro p hp
            simp at hp
          · intro p hp
            exact hexkeys note.id d hdl p.1 p.2 (by rcases p with ⟨a, b⟩; exact hp)
        have hf := hfold _ tl cs tl1 hcf hdmem htl
        have htids : ∀ x ∈ allIds t, x ∈ lookup.map Prod.fst := by
          intro x hx
          rw [← h1] at hx
          rw [allIds_eq] at hx
          rcases List.mem_cons.mp hx with hx0 | hx0
          · exact hx0 ▸ hnote
          · rw [childrenIds_flatten] at hx0
            rcases List.mem_flatten.mp hx0 with ⟨l, hl, hxl⟩
            rcases List.mem_map.mp hl with ⟨q, hq, hqe⟩
            subst hqe
            exact hf.1 q hq x hxl
        refine ⟨htids, ?_⟩
        intro q hq x hx
        rw [← h2] at hq
        rcases mem_dictSet hq with hq0 | hq0
        · exact hf.2 q hq0 x hx
        · rw [hq0, h1] at hx
          exact htids x hx
    · rw [hm] at h
      simp only at h
      injection h with h0
      injection h0 with h1 h2
      subst h2
      refine ⟨?_, htl⟩
      intro x hx
      rw [← h1] at hx
      exact htl (note.id, t0) (mem_of_lookup_eq_some hm) x hx

mutual

/-- The size of the subtree rooted at the first node carrying a given id
(depth-first, left to right). -/
def findSize : RemoteNote → String → Option Nat
  | .mk i ti nt mi p a co cs, x =>
    if i = x then Option.some (1 + remoteListSize cs)
    else findSizeList cs x

/-- `findSize` over a children list, first hit wins. -/
def findSizeList : List (Option String × RemoteNote) → String → Option Nat
  | [], _ => Option.none
  | (_, c) :: rest, x =>
    match findSize c x with
    | Option.some s => Option.some s
    | Option.none => findSizeList rest x

end

theorem findSize_eq (r : RemoteNote) (x : String) :
    findSize r x =
      if r.id = x then Option.some (remoteSize r) else findSizeList r.children x := by
  cases r with
  | mk i ti nt mi p a co cs => rw [remoteSize_eq]; rfl

theorem findSizeList_none_of {cs : List (Option String × RemoteNote)} {x : String}
    (h : ∀ pc ∈ cs, findSize pc.2 x = Option.none) : findSizeList cs x = Option.none := by
  induction cs with
  | nil => rfl
  | cons hd tl ih =>
    rcases hd with ⟨pre0, c⟩
    rw [findSizeList]
    rw [h (pre0, c) (List.mem_cons_self _ _)]
    exact ih (fun pc hpc => h pc (List.mem_cons_of_mem _ hpc))

theorem findSize_none :
    ∀ (r : RemoteNote) (x : String), x ∉ remoteIds r → findSize r x = Option.none := by
  refine RemoteNote.rec_children (fun r ihc => ?_)
  intro x hx
  rw [findSize_eq]
  rw [remoteIds_eq] at hx
  rw [if_neg (fun h => hx (by rw [← h]; exact List.mem_cons_self _ _))]
  refine findSizeList_none_of (fun pc hpc => ihc pc hpc x ?_)
  intro hmem
  exact hx (List.mem_cons_of_mem _ (mem_remoteListIds hpc x hmem))

theorem rOccurs_ids_sub {p r : RemoteNote} (h : ROccurs p r) :
    ∀ x ∈ remoteIds p, x ∈ remoteIds r := by
  induction h with
  | refl => exact fun x hx => hx
  | child hmem _ ih =>
    intro x hx
    rw [remoteIds_eq]
    exact List.mem_cons_of_mem _ (mem_remoteListIds hmem x (ih x hx))

theorem rOccurs_id_mem {p r : RemoteNote} (h : ROccurs p r) : p.id ∈ remoteIds r :=
  rOccurs_ids_sub h p.id (id_mem_remoteIds p)

theorem rOccurs_child_of {p r c : RemoteNote} {pre : Option String} (h : ROccurs p r)
    (hc : (pre, c) ∈ p.children) : ROccurs c r := by
  induction h with
  | refl => exact ROccurs.child hc (ROccurs.refl c)
  | child hmem _ ih => exact ROccurs.child hmem ih

theorem remoteSize_child_lt {pre : Option String} {c node : RemoteNote}
    (h : (pre, c) ∈ node.children) : remoteSize c < remoteSize node := by
  have h1 := remoteSize_le_of_mem h
  simp only at h1
  have h2 := remoteSize_eq node
  omega

theorem remoteSize_le_of_occurs {p r : RemoteNote} (h : ROccurs p r) :
    remoteSize p ≤ remoteSize r := by
  induction h with
  | refl => exact Nat.le_refl _
  | child hmem _ ih => exact ih.trans (Nat.le_of_lt (remoteSize_child_lt hmem))

theorem findSizeList_mem {x : String} {c1 : RemoteNote} {s : Nat} :
    ∀ {cs : List (Option String × RemoteNote)} {pre1 : Option String},
      (pre1, c1) ∈ cs → (remoteListIds cs).Nodup → x ∈ remoteIds c1 →
      findSize c1 x = Option.some s → findSizeList cs x = Option.some s := by
  intro cs
  induction cs with
  | nil => intro pre1 h; cases h
  | cons hd tl ih =>
    rcases hd with ⟨pre2, c2⟩
    intro pre1 hmem hnd hx hs
    rw [remoteListIds, List.nodup_append] at hnd
    rw [findSizeList]
    rcases List.mem_cons.mp hmem with h0 | h0
    · injection h0 with h1 h2
      subst h2
      rw [hs]
    · have hn2 : findSize c2 x = Option.none :=
        findSize_none c2 x (fun hx2 => hnd.2.2 hx2 (mem_remoteListIds h0 x hx))
      rw [hn2]
      exact ih h0 hnd.2.1 hx hs

/-- With distinct ids, `findSize` returns the size of the occurring
subtree. -/
theorem findSize_occurs {n r : RemoteNote} (hocc : ROccurs n r) :
    (remoteIds r).Nodup → findSize r n.id = Option.some (remoteSize n) := by
  induction hocc with
  | refl =>
    intro _
    rw [findSize_eq, if_pos rfl]
  | child hmem hp ih =>
    rename_i c1 node pre1
    intro hnd
    rw [remoteIds_eq, List.nodup_cons] at hnd
    have hxc1 : n.id ∈ remoteIds c1 := rOccurs_id_mem hp
    have hne : node.id ≠ n.id := fun h => hnd.1 (h ▸ mem_remoteListIds hmem n.id hxc1)
    rw [findSize_eq, if_neg hne]
    have hndc1 : (remoteIds c1).Nodup := by
      have h2 := hnd.2
      rw [remoteListIds_flatten, List.nodup_flatten] at h2
      exact h2.1 (remoteIds c1) (List.mem_map.mpr ⟨(pre1, c1), hmem, rfl⟩)
    exact findSizeList_mem hmem hnd.2 hxc1 (ih hndc1)

/-- The per-note effect of the extraction phase. -/
def extractNote (w : WorkingNote) : WorkingNote :=
  { w with
      content_hash :=
        match w.content_extension with
        | Option.some _ => Option.some (CalculateHash w.content)
        | Option.none => Option.none }

theorem extractContent_eq (l : List (String × WorkingNote)) :
    extractContent l = l.map (fun p => (p.1, extractNote p.2)) := rfl

theorem extractContent_keys (l : List (String × WorkingNote)) :
    (extractContent l).map Prod.fst = l.map Prod.fst := by
  rw [extractContent_eq]
  induction l with
  | nil => rfl
  | cons hd tl ih =>
    rw [List.map_cons, List.map_cons, List.map_cons, ih]

/-- **C8 (amended).**  For a remote tree with distinct note ids, consistent
`parentNoteIds`, and a root that does not itself bear the no-sync label:
whenever a node `N` reachable through non-skipped ancestors bears the
no-sync label, the load completes without an error, `N`'s skip notification
is recorded as a non-fatal notice, and no id of `N`'s subtree appears in
the loaded tree.  (When the root itself bears the label, the load instead
dies with `KeyError`, see the counterexample; and a no-sync node nested
under another skipped node is excluded but gets no notice of its own.) -/
theorem pullGetNotes_noSync (remote N : RemoteNote)
    (hnd : (remoteIds remote).Nodup)
    (hcons : ParentConsistent remote)
    (hroot : hasNoSync remote.attributes = false)
    (hocc : CleanOccurs N remote)
    (hns : hasNoSync N.attributes = true) :
    ∃ t, PullGetNotes remote.id remote = .ok (t, skippedMsgs remote) ∧
      skipMessage N.title N.id ∈ skippedMsgs remote ∧
      ∀ x ∈ remoteIds N, x ∉ allIds t := by
  have hscan : pullScan (remoteSize remote + 1) [(Option.none, Option.none, remote)] [] [] [] =
      .ok (specScanNote Option.none Option.none remote ([], [], [])) := by
    have hs := pullScan_spec (remoteSize remote + 1) [(Option.none, Option.none, remote)] [] [] []
      (by
        rw [stackSizes_cons]
        have h0 : stackSizes ([] : List (Option String × Option String × RemoteNote)) = 0 := rfl
        omega)
      (by
        constructor
        · rw [stackIds_cons]
          have h0 : stackIds ([] : List (Option String × Option String × RemoteNote)) = [] := rfl
          rw [h0, List.append_nil]
          exact hnd
        · intro x hx
          simp)
    rw [hs]
    rfl
  rcases hsp : specScanNote Option.none Option.none remote ([], [], []) with ⟨lookup0, cm, skipped⟩
  have hlk0 : lookup0 = loadedEntries remote := by
    have h := specScanNote_lookup remote Option.none Option.none ([], [], []) hnd
      (fun x hx => by simp)
    rw [hsp] at h
    simpa using h
  have hskip : skipped = skippedMsgs remote := by
    have h := specScanNote_skipped remote Option.none Option.none ([], [], [])
    rw [hsp] at h
    simpa using h
  have hcm : ∀ (p c : RemoteNote) (pre1 : Option String), CleanOccurs p remote →
      hasNoSync p.attributes = false → (pre1, c) ∈ p.children →
      hasNoSync c.attributes = false → cmContains cm p.id c.id := by
    intro p c pre1 hpo hpn hmem hcn
    have h := specScanNote_cm_path hpo hpn hmem hcn Option.none Option.none ([], [], [])
    rw [hsp] at h
    exact h
  set L := extractContent lookup0 with hL
  have hkeys : L.map Prod.fst = (loadedEntries remote).map Prod.fst := by
    rw [hL, extractContent_keys, hlk0]
  have hentry : ∀ q ∈ L, ∃ n, LoadedOccurs n remote ∧ q.1 = n.id ∧
      q.2 = extractNote (WorkingNote.fromRemote n) := by
    intro q hq
    rw [hL, extractContent_eq] at hq
    rcases List.mem_map.mp hq with ⟨p, hp, hpe⟩
    rw [hlk0] at hp
    rcases mem_loadedEntries remote p hp with ⟨n, hno, hpe2⟩
    subst hpe
    refine ⟨n, hno, ?_, ?_⟩
    · rw [hpe2]
    · rw [hpe2]
  have hids : ∀ q ∈ L, (Prod.snd q).id = q.1 := by
    intro q hq
    rcases hentry q hq with ⟨n, _, h1, h2⟩
    rw [h1, h2]
    rfl
  have hrootmem : (remote.id, extractNote (WorkingNote.fromRemote remote)) ∈ L := by
    rw [hL, extractContent_eq]
    refine List.mem_map.mpr ⟨(remote.id, WorkingNote.fromRemote remote), ?_, rfl⟩
    rw [hlk0]
    exact loadedEntries_mem_of (CleanOccurs.refl remote) hroot
  have hpc : ∀ w, (∃ k, (k, w) ∈ L) → ∀ pid ∈ w.parent_ids, ∀ pw,
      L.lookup pid = Option.some pw →
      ∃ (np nc : RemoteNote) (pre : Option String),
        LoadedOccurs np remote ∧ LoadedOccurs nc remote ∧ np.id = pid ∧ nc.id = w.id ∧
        (pre, nc) ∈ np.children := by
    intro w hw pid hpid pw hpw
    rcases hw with ⟨k, hkw⟩
    rcases hentry (k, w) hkw with ⟨nc, hnc, h1, h2⟩
    rcases hentry (pid, pw) (mem_of_lookup_eq_some hpw) with ⟨np, hnp, h3, h4⟩
    simp only at h1 h2 h3 h4
    have hpid' : pid ∈ nc.parent_ids := by
      rw [h2] at hpid
      exact hpid
    rcases hcons np nc (cleanOccurs_rOccurs hnp.1) (cleanOccurs_rOccurs hnc.1)
      (by rw [← h3]; exact hpid') with ⟨pre, hpre⟩
    exact ⟨np, nc, pre, hnp, hnc, h3.symm, by rw [h2]; rfl, hpre⟩
  have hlink : ∀ w, (∃ k, (k, w) ∈ L) → ∀ pid ∈ w.parent_ids, ∀ pw,
      L.lookup pid = Option.some pw →
      (GetLinkName w.id ((cm.lookup pid).getD [])).isSome = true := by
    intro w hw pid hpid pw hpw
    rcases hpc w hw pid hpid pw hpw with ⟨np, nc, pre, hnp, hnc, h3, h4, hpre⟩
    rcases hcm np nc pre hnp.1 hnp.2 hpre hnc.2 with ⟨d, hd, hdm⟩
    rw [h3] at hd
    rw [hd]
    simp only [Option.getD_some]
    rw [← h4]
    exact getLinkName_isSome hdm
  have hrank : ∀ w, (∃ k, (k, w) ∈ L) → ∀ pid ∈ w.parent_ids, ∀ pw,
      L.lookup pid = Option.some pw →
      remoteSize remote - (findSize remote pid).getD 0 <
        remoteSize remote - (findSize remote w.id).getD 0 := by
    intro w hw pid hpid pw hpw
    rcases hpc w hw pid hpid pw hpw with ⟨np, nc, pre, hnp, hnc, h3, h4, hpre⟩
    have hfp := findSize_occurs (cleanOccurs_rOccurs hnp.1) hnd
    have hfc := findSize_occurs (cleanOccurs_rOccurs hnc.1) hnd
    have hlt := remoteSize_child_lt hpre
    have hle := remoteSize_le_of_occurs (cleanOccurs_rOccurs hnp.1)
    rw [← h3, ← h4, hfp, hfc]
    simp only [Option.getD_some]
    omega
  have hfuel : ∀ q ∈ L,
      remoteSize remote - (findSize remote (Prod.snd q).id).getD 0 < remoteSize remote + 1 := by
    intro q hq
    omega
  have hexnil : ExInv L [] := by
    intro pid d h
    cases h
  rcases buildExported_ok L cm
      (fun x => remoteSize remote - (findSize remote x).getD 0) (remoteSize remote + 1)
      hids hlink hrank hfuel L (fun q hq => hq) [] hexnil with ⟨ex, hbe, hexinv⟩
  have hrootlookup : ∃ rw0, L.lookup remote.id = Option.some rw0 := by
    have hsome := lookup_isSome_of_mem hrootmem
    rcases hro : L.lookup remote.id with _ | rw0
    · rw [hro] at hsome
      cases hsome
    · exact ⟨rw0, rfl⟩
  rcases hrootlookup with ⟨rootw, hrootlk⟩
  have hrid : rootw.id = remote.id := by
    have h := hids (remote.id, rootw) (mem_of_lookup_eq_some hrootlk)
    simpa using h
  have hedge : ∀ pid d, ex.lookup pid = Option.some d → ∀ ln c, (ln, c) ∈ d →
      (findSize remote c.id).getD 0 < (findSize remote pid).getD 0 := by
    intro pid d hd ln c hcd
    have hinv := hexinv pid d hd
    rcases hinv.1 with ⟨pw, hpw⟩
    rcases hinv.2 ln c hcd with ⟨hpidmem, k, hkc⟩
    rcases hentry (k, c) hkc with ⟨nc, hnc, h1, h2⟩
    rcases hentry (pid, pw) hpw with ⟨np, hnp, h3, h4⟩
    simp only at h1 h2 h3 h4
    have hpid' : pid ∈ nc.parent_ids := by
      rw [h2] at hpidmem
      exact hpidmem
    rcases hcons np nc (cleanOccurs_rOccurs hnp.1) (cleanOccurs_rOccurs hnc.1)
      (by rw [← h3]; exact hpid') with ⟨pre, hpre⟩
    have hfp := findSize_occurs (cleanOccurs_rOccurs hnp.1) hnd
    have hfc := findSize_occurs (cleanOccurs_rOccurs hnc.1) hnd
    have hlt := remoteSize_child_lt hpre
    have hcid : c.id = nc.id := by rw [h2]; rfl
    rw [hcid, h3, hfp, hfc]
    simp only [Option.getD_some]
    exact hlt
  have hcrank : (findSize remote rootw.id).getD 0 < remoteSize remote + 1 := by
    rw [hrid, findSize_occurs (ROccurs.refl remote) hnd]
    simp only [Option.getD_some]
    omega
  rcases createTrilium_ok L ex (fun x => (findSize remote x).getD 0) hedge
      (remoteSize remote + 1) rootw [] hcrank with ⟨t, tl', hct⟩
  have hexkeys : ∀ pid d, ex.lookup pid = Option.some d → ∀ ln c, (ln, c) ∈ d →
      c.id ∈ L.map Prod.fst := by
    intro pid d hd ln c hcd
    rcases (hexinv pid d hd).2 ln c hcd with ⟨_, k, hkc⟩
    refine List.mem_map.mpr ⟨(k, c), hkc, ?_⟩
    have h := hids (k, c) hkc
    simp only at h
    exact h.symm
  have hrootkey : rootw.id ∈ L.map Prod.fst := by
    rw [hrid]
    exact List.mem_map.mpr ⟨(remote.id, extractNote (WorkingNote.fromRemote remote)), hrootmem, rfl⟩
  have htids := createTrilium_ids L ex hexkeys (remoteSize remote + 1) [] rootw t tl' hct
    hrootkey (fun q hq => absurd hq (List.not_mem_nil q))
  refine ⟨t, ?_, skippedMsgs_mem hocc hns, ?_⟩
  · unfold PullGetNotes
    rw [hscan, hsp]
    simp only
    rw [← hL]
    simp only [hbe, hrootlk, hct, hskip]
  · intro x hx hxt
    have h1 := htids.1 x hxt
    rw [hkeys] at h1
    exact loadedEntries_excludes hocc hns hnd x hx h1

/-- Clean child of the exclusion witness tree. -/
def c8wC : RemoteNote := .mk "C" "Child" "text" "text/html" ["R"] [] [1] []

/-- Grandchild below the no-sync node, also excluded. -/
def c8wG : RemoteNote := .mk "G" "Grandchild" "text" "text/html" ["N"] [] [3] []

/-- No-sync child of the exclusion witness tree. -/
def c8wN : RemoteNote :=
  .mk "N" "Skipped" "text" "text/html" ["R"]
    [⟨"a1", "label", NO_SYNC_ATTRIBUTE_NAME, Option.none, 0, false⟩] [2] [(Option.none, c8wG)]

/-- Root of the exclusion witness tree. -/
def c8wroot : RemoteNote :=
  .mk "R" "Root" "text" "text/html" [] [] [0] [(Option.none, c8wC), (Option.some "p", c8wN)]

theorem c8w_occ {x : RemoteNote} (h : ROccurs x c8wroot) :
    x = c8wroot ∨ x = c8wC ∨ x = c8wN ∨ x = c8wG := by
  cases h with
  | refl => exact Or.inl rfl
  | child hmem hp =>
    rename_i c pre
    have hc : c = c8wC ∨ c = c8wN := by
      rcases List.mem_cons.mp hmem with h0 | h0
      · injection h0 with h1 h2
        exact Or.inl h2
      · rcases List.mem_cons.mp h0 with h1 | h1
        · injection h1 with h2 h3
          exact Or.inr h3
        · cases h1
    rcases hc with hc | hc
    · subst hc
      cases hp with
      | refl => exact Or.inr (Or.inl rfl)
      | child hmem2 hp2 => cases hmem2
    · subst hc
      cases hp with
      | refl => exact Or.inr (Or.inr (Or.inl rfl))
      | child hmem2 hp2 =>
        rename_i c2 pre2
        have hc2 : c2 = c8wG := by
          rcases List.mem_cons.mp hmem2 with h0 | h0
          · injection h0 with h1 h2
            try exact h2
          · cases h0
        subst hc2
        cases hp2 with
        | refl => exact Or.inr (Or.inr (Or.inr rfl))
        | child hmem3 _ => cases hmem3

theorem c8w_cons : ParentConsistent c8wroot := by
  intro p c hpo hco hpid
  rcases c8w_occ hco with hc | hc | hc | hc <;> subst hc <;>
    rcases c8w_occ hpo with hp | hp | hp | hp <;> subst hp <;>
      simp [c8wroot, c8wC, c8wN, c8wG, RemoteNote.id, RemoteNote.parent_ids,
        RemoteNote.children] at hpid ⊢

/-- The amended loader theorem applied to a concrete tree: the load returns
a tree without the skipped subtree's ids and records the notice. -/
theorem pullGetNotes_noSync_witness :
    (remoteIds c8wroot).Nodup ∧
    (∃ t, PullGetNotes c8wroot.id c8wroot = .ok (t, skippedMsgs c8wroot) ∧
      skipMessage c8wN.title c8wN.id ∈ skippedMsgs c8wroot ∧
      ∀ x ∈ remoteIds c8wN, x ∉ allIds t) :=
  ⟨by decide,
    pullGetNotes_noSync c8wroot c8wN (by decide) c8w_cons rfl
      (CleanOccurs.child
        (List.Mem.tail _ (List.Mem.head _)) rfl (CleanOccurs.refl _)) rfl⟩

/-! ### Pull.Pull serialization and LocalFilesystem.GetNotes deserialization
(claim C1) -/

/-- `CurrentShell.ScrubFilename` (an external CommonEnvironment utility not
part of this repository).  Modelled from the spec as the identity: the link
names considered are assumed filename-safe. -/
def ScrubFilename (name : String) : String := name

/-- One entry of a note's store directory.  `attrsFile` is the
`attributes.yaml` sidecar; its payload is the deserialized attribute list:
the YAML codec (`TriliumAttribute.SerializeItems` / `DeserializeItems`,
generated schema code not present in this repository) is modelled from the
spec as a perfect round trip.  `linkDir` is a symbolic-link directory whose
target's basename is the child note id.  Plain non-link subdirectories are
not modelled: `Pull` never writes them. -/
inductive FsItem where
  | file (name : String) (content : List Nat)
  | attrsFile (attributes : List TriliumAttribute)
  | linkDir (name : String) (target : String)
deriving Repr

/-- The directory `SaveContent` (Pull.py lines 99-127) plus `WalkHierarchy`
(Pull.py lines 149-174) produce for one note: the `content<ext>` file (when
the note has a content extension), the attributes sidecar, and one link
entry per child. -/
def serializeNote (contents : String → List Nat) (n : TriliumNoteShort) : List FsItem :=
  (match contentExtension n.note_type n.mime_type with
   | Option.some ext => [FsItem.file (CONTENT_FILENAME ++ ext) (contents n.id)]
   | Option.none => []) ++
  [FsItem.attrsFile n.attributes] ++
  n.children.map (fun p => FsItem.linkDir (linkDirectoryName (ScrubFilename p.1)) p.2.id)

mutual

/-- The `WalkHierarchy` traversal (Pull.py lines 149-178): emit each note's
store directory once, guarded by the `visited` set, descending into the
children in order. -/
def serializeWalk (contents : String → List Nat) :
    TriliumNoteShort → List String → List String × List (String × List FsItem)
  | n, visited =>
    if n.id ∈ visited then (visited, [])
    else
      match n with
      | .mk i nt mt pi a h cs =>
        match serializeChildrenWalk contents cs (i :: visited) with
        | (v2, rest) =>
          (v2, (i, serializeNote contents (.mk i nt mt pi a h cs)) :: rest)

/-- The traversal over a children dict. -/
def serializeChildrenWalk (contents : String → List Nat) :
    List (String × TriliumNoteShort) → List String → List String × List (String × List FsItem)
  | [], v => (v, [])
  | (_, c) :: restc, v =>
    match serializeWalk contents c v with
    | (v2, s1) =>
      match serializeChildrenWalk contents restc v2 with
      | (v3, s2) => (v3, s1 ++ s2)

end

/-- The whole store `Pull` writes for the pulled tree `D`: one directory
per note, in first-visit order. -/
def Serialize (contents : String → List Nat) (D : TriliumNoteShort) :
    List (String × List FsItem) :=
  (serializeWalk contents D []).2

mutual

/-- Reference store: each node's directory once, pre-order. -/
def storeSpec (contents : String → List Nat) : TriliumNoteShort → List (String × List FsItem)
  | .mk i nt mt pi a h cs =>
    (i, serializeNote contents (.mk i nt mt pi a h cs)) :: storeSpecList contents cs

/-- Reference store of a children dict. -/
def storeSpecList (contents : String → List Nat) :
    List (String × TriliumNoteShort) → List (String × List FsItem)
  | [] => []
  | (_, c) :: rest => storeSpec contents c ++ storeSpecList contents rest

end

/-- The mime-type recovery loop of `_AddWorkingData` (LocalFilesystem.py
lines 207-210): the first map entry whose extension is a suffix of the
content file's name. -/
def recoverMime (name : String) : Option String :=
  match mimetype_extension_map.find? (fun p => p.2.data.isSuffixOf name.data) with
  | Option.some p => Option.some p.1
  | Option.none => Option.none

/-- The accumulator of the `_AddWorkingData` item loop (LocalFilesystem.py
lines 183-186). -/
structure ScanItems where
  mime_type : Option String
  content_hash : Option String
  attributes : List TriliumAttribute
  children : List (String × String)
  errors : List String
deriving Repr

/-- One iteration of the `_AddWorkingData` item loop (LocalFilesystem.py
lines 188-243): the attributes sidecar extends the attribute list (asserted
empty), a `content*` file is hashed and its extension mapped back to a mime
type (an unknown extension is a non-fatal error), any other file is a
non-fatal error, and a link directory must match the `[link] {name}`
template and resolve to a non-temporary id; the child is recorded under the
full item name. -/
def scanItem (st : ScanItems) : FsItem → Except String ScanItems
  | .attrsFile attributes =>
    if st.attributes.isEmpty then
      .ok { st with attributes := st.attributes ++ attributes }
    else
      .error "AssertionError: not attributes"
  | .file name bytes =>
    if CONTENT_FILENAME.data.isPrefixOf name.data then
      match st.content_hash with
      | Option.some _ => .error "AssertionError: content_hash is None"
      | Option.none =>
        match st.mime_type with
        | Option.some _ => .error "AssertionError: mime_type is None"
        | Option.none =>
          match recoverMime name with
          | Option.some mime =>
            .ok { st with content_hash := Option.some (CalculateHash bytes),
                          mime_type := Option.some mime }
          | Option.none =>
            .ok { st with content_hash := Option.some (CalculateHash bytes),
                          errors := st.errors ++
                            ["ERROR: Unable to determine the mime type for '" ++ name ++ "'."] }
    else
      .ok { st with errors := st.errors ++ ["ERROR: '" ++ name ++ "' is a file."] }
  | .linkDir name target =>
    if "[link] ".data.isPrefixOf name.data then
      if TriliumNoteShort.IsTemporaryId target then
        .error "AssertionError: not IsTemporaryId(child_id)"
      else
        .ok { st with children := dictSet st.children name target }
    else
      .ok { st with errors := st.errors ++ ["ERROR: '" ++ name ++ "' is not recognized."] }

/-- The `_AddWorkingData` item loop over a whole note directory. -/
def addWorkingData : List FsItem → ScanItems → Except String ScanItems
  | [], st => .ok st
  | item :: rest, st =>
    match scanItem st item with
    | .error e => .error e
    | .ok st2 => addWorkingData rest st2

/-- The scan loop of `LocalFilesystem.GetNotes` (lines 84-93): process
every store directory, collecting the successful `_WorkingData` records (a
directory with item errors is not recorded, the errors are) and asserting
that no note id repeats. -/
def scanStore : List (String × List FsItem) → List WorkingData → List String →
    Except String (List WorkingData × List String)
  | [], data, errs => .ok (data, errs)
  | (note_id, items) :: rest, data, errs =>
    match addWorkingData items ⟨Option.none, Option.none, [], [], []⟩ with
    | .error e => .error e
    | .ok st =>
      if st.errors.isEmpty then
        if data.any (fun w => w.id == note_id) then
          .error "AssertionError: note_id not in working_data_lookup"
        else
          scanStore rest (data ++ [⟨note_id, st.mime_type, st.content_hash,
            st.attributes, st.children⟩]) errs
      else
        scanStore rest data (errs ++ st.errors)

/-- `LocalFilesystem.GetNotes` (lines 51-155) over an in-memory store:
scan every directory, return `None` when any non-fatal error was reported
(the `processing_dm.result != 0` early return of line 95), otherwise run
the organize phase. -/
def localGetNotes (store : List (String × List FsItem)) :
    Except String (Option TriliumNoteShort) :=
  match scanStore store [] [] with
  | .error e => .error e
  | .ok (data, errs) =>
    if errs.isEmpty then
      match organizeNotes data with
      | .error e => .error e
      | .ok t => .ok (Option.some t)
    else
      .ok Option.none

/-- The `_WorkingData` record deserialization produces for one serialized
note (given the hypotheses of the round-trip theorem). -/
def wdOf (contents : String → List Nat) (n : TriliumNoteShort) : WorkingData :=
  ⟨n.id,
   (match contentExtension n.note_type n.mime_type with
    | Option.some _ => Option.some n.mime_type
    | Option.none => Option.none),
   (match contentExtension n.note_type n.mime_type with
    | Option.some _ => Option.some (CalculateHash (contents n.id))
    | Option.none => Option.none),
   n.attributes,
   n.children.map (fun p => (linkDirectoryName (ScrubFilename p.1), p.2.id))⟩

mutual

/-- Round-trip correspondence between a pulled tree and a reloaded tree:
ids, content fingerprints and ordered attribute lists agree, and the child
edges correspond in order, with each reloaded link name being the on-disk
item name `[link] <scrubbed original name>`. -/
def RT : TriliumNoteShort → TriliumNoteShort → Prop
  | .mk i nt mt pi a h cs, t =>
    t.id = i ∧ t.content_hash = h ∧ t.attributes = a ∧ RTchildren cs t.children

/-- Child-edge correspondence, in order. -/
def RTchildren : List (String × TriliumNoteShort) → List (String × TriliumNoteShort) → Prop
  | [], l => l = []
  | p :: rest, l =>
    match l with
    | [] => False
    | q :: ql =>
      q.1 = linkDirectoryName (ScrubFilename p.1) ∧ RT p.2 q.2 ∧ RTchildren rest ql

end

mutual

/-- Ids of a note tree in post order: the order in which the organize phase
memoizes the created notes. -/
def postIds : TriliumNoteShort → List String
  | .mk i _ _ _ _ _ cs => postListIds cs ++ [i]

/-- Post-order ids below a children dict. -/
def postListIds : List (String × TriliumNoteShort) → List String
  | [] => []
  | (_, c) :: rest => postIds c ++ postListIds rest

end

mutual

/-- The `_WorkingData` records the scan collects for a serialized tree, in
store (pre-)order. -/
def preWds (contents : String → List Nat) : TriliumNoteShort → List WorkingData
  | .mk i nt mt pi a h cs =>
    wdOf contents (.mk i nt mt pi a h cs) :: preWdsList contents cs

/-- The records below a children dict. -/
def preWdsList (contents : String → List Nat) :
    List (String × TriliumNoteShort) → List WorkingData
  | [] => []
  | (_, c) :: rest => preWds contents c ++ preWdsList contents rest

end

/-- Structural induction on note trees through the nested children list. -/
theorem TriliumNoteShort.recChildren {P : TriliumNoteShort → Prop}
    (h : ∀ n : TriliumNoteShort, (∀ pc ∈ n.children, P pc.2) → P n) : ∀ n, P n := by
  have hn : ∀ (k : Nat) (n : TriliumNoteShort), nodeSize n ≤ k → P n := by
    intro k
    induction k with
    | zero =>
      intro n h0
      have := nodeSize_pos n
      omega
    | succ k ih =>
      intro n hle
      refine h n (fun pc hpc => ih pc.2 ?_)
      rcases pc with ⟨l, c⟩
      have h1 := nodeSize_lt_of_mem_children hpc
      show nodeSize c ≤ k
      omega
  exact fun n => hn (nodeSize n) n (Nat.le_refl _)

/-- **C1 (counterexample).**  A pulled tree whose root links a child under
the name `"c"`: the serialized link directory is named `"[link] c"`, and
`_AddWorkingData` records the child under the *full item name* (line 243
uses `note_item`, not the regex capture), so the reloaded tree's child-edge
link name is `"[link] c"`, not `"c"` — the child-edge shape is not
preserved. -/
def c1C : TriliumNoteShort :=
  .mk "C" "text" "text/html" ["R"] [] (Option.some (CalculateHash [5])) []

/-- Root of the round-trip counterexample. -/
def c1D : TriliumNoteShort :=
  .mk "R" "text" "text/html" [] [] (Option.some (CalculateHash [7])) [("c", c1C)]

/-- Content bytes of the round-trip counterexample. -/
def c1contents : String → List Nat := fun i => if i = "R" then [7] else [5]

/-- Serializing and reloading keeps ids and fingerprints but renames the
child edge to the on-disk `[link] c` entry name. -/
theorem c1_counterexample :
    c1D.children.map Prod.fst = ["c"] ∧
    localGetNotes (Serialize c1contents c1D) =
      .ok (Option.some (.mk "R" "text" "text/html" [] []
        (Option.some (CalculateHash [7]))
        [("[link] c",
          .mk "C" "text" "text/html" ["R"] [] (Option.some (CalculateHash [5])) [])])) ∧
    ("[link] c" : String) ≠ "c" :=
  ⟨rfl, rfl, by decide⟩

theorem postIds_eq (n : TriliumNoteShort) : postIds n = postListIds n.children ++ [n.id] := by
  cases n with
  | mk i nt mt pi a h cs => rfl

theorem preWds_eq (contents : String → List Nat) (n : TriliumNoteShort) :
    preWds contents n = wdOf contents n :: preWdsList contents n.children := by
  cases n with
  | mk i nt mt pi a h cs => rfl

theorem mem_postIds :
    ∀ (n : TriliumNoteShort) (x : String), x ∈ postIds n ↔ x ∈ allIds n := by
  refine TriliumNoteShort.recChildren (fun n ihc => ?_)
  intro x
  rw [postIds_eq, allIds_eq]
  rw [List.mem_append, List.mem_singleton, List.mem_cons]
  have hlist : x ∈ postListIds n.children ↔ x ∈ childrenIds n.children := by
    have h : ∀ (cs : List (String × TriliumNoteShort)),
        (∀ pc ∈ cs, ∀ y, y ∈ postIds pc.2 ↔ y ∈ allIds pc.2) →
        (x ∈ postListIds cs ↔ x ∈ childrenIds cs) := by
      intro cs
      induction cs with
      | nil => intro _; exact Iff.rfl
      | cons hd tl ih =>
        rcases hd with ⟨l, c⟩
        intro hin
        rw [postListIds, childrenIds, List.mem_append, List.mem_append]
        rw [hin (l, c) (List.mem_cons_self _ _) x,
          ih (fun pc hpc => hin pc (List.mem_cons_of_mem _ hpc))]
    exact h n.children (fun pc hpc => ihc pc hpc)
  rw [hlist]
  tauto

theorem preWdsList_ids_of {contents : String → List Nat}
    {cs : List (String × TriliumNoteShort)}
    (h : ∀ pc ∈ cs, (preWds contents pc.2).map (fun w => w.id) = allIds pc.2) :
    (preWdsList contents cs).map (fun w => w.id) = childrenIds cs := by
  induction cs with
  | nil => rfl
  | cons hd tl ih =>
    rcases hd with ⟨l, c⟩
    rw [preWdsList, childrenIds, List.map_append]
    rw [h (l, c) (List.mem_cons_self _ _),
      ih (fun pc hpc => h pc (List.mem_cons_of_mem _ hpc))]

theorem preWds_ids (contents : String → List Nat) :
    ∀ n : TriliumNoteShort, (preWds contents n).map (fun w => w.id) = allIds n := by
  refine TriliumNoteShort.recChildren (fun n ihc => ?_)
  rw [preWds_eq, allIds_eq, List.map_cons]
  rw [preWdsList_ids_of (fun pc hpc => ihc pc hpc)]
  rfl

theorem occurs_child_of {n D c : TriliumNoteShort} {l : String} (h : Occurs n D)
    (hc : (l, c) ∈ n.children) : Occurs c D := by
  induction h with
  | refl => exact Occurs.child hc (Occurs.refl c)
  | child hmem _ ih => exact Occurs.child hmem ih

theorem occurs_nodup {n D : TriliumNoteShort} (h : Occurs n D) :
    (allIds D).Nodup → (allIds n).Nodup := by
  induction h with
  | refl => exact fun h => h
  | child hmem _ ih =>
    intro hnd
    refine ih ?_
    rw [allIds_eq, List.nodup_cons] at hnd
    exact nodup_allIds_of_mem hnd.2 hmem

theorem preWdsList_mem_of {contents : String → List Nat}
    {cs : List (String × TriliumNoteShort)} {pc : String × TriliumNoteShort}
    (hpc : pc ∈ cs) {w : WorkingData} (hw : w ∈ preWds contents pc.2) :
    w ∈ preWdsList contents cs := by
  induction cs with
  | nil => cases hpc
  | cons hd tl ih =>
    rcases hd with ⟨l, c⟩
    rw [preWdsList, List.mem_append]
    rcases List.mem_cons.mp hpc with h0 | h0
    · subst h0
      exact Or.inl hw
    · exact Or.inr (ih h0)

theorem occurs_mem_preWds {contents : String → List Nat} {m D : TriliumNoteShort}
    (h : Occurs m D) : wdOf contents m ∈ preWds contents D := by
  induction h with
  | refl =>
    rw [preWds_eq]
    exact List.mem_cons_self _ _
  | child hmem _ ih =>
    rw [preWds_eq]
    exact List.mem_cons_of_mem _ (preWdsList_mem_of hmem ih)

theorem mem_preWds {contents : String → List Nat} :
    ∀ (n : TriliumNoteShort) (w : WorkingData), w ∈ preWds contents n →
      ∃ m, Occurs m n ∧ w = wdOf contents m := by
  refine TriliumNoteShort.recChildren (fun n ihc => ?_)
  intro w hw
  rw [preWds_eq] at hw
  rcases List.mem_cons.mp hw with h0 | h0
  · exact ⟨n, Occurs.refl n, h0⟩
  · have hlist : ∀ (cs : List (String × TriliumNoteShort)),
        (∀ pc ∈ cs, ∀ w' ∈ preWds contents pc.2, ∃ m, Occurs m pc.2 ∧ w' = wdOf contents m) →
        w ∈ preWdsList contents cs →
        ∃ pc ∈ cs, ∃ m, Occurs m pc.2 ∧ w = wdOf contents m := by
      intro cs
      induction cs with
      | nil => intro _ hx; cases hx
      | cons hd tl ih =>
        rcases hd with ⟨l, c⟩
        intro hin hx
        rw [preWdsList, List.mem_append] at hx
        rcases hx with hx | hx
        · exact ⟨(l, c), List.mem_cons_self _ _, hin (l, c) (List.mem_cons_self _ _) w hx⟩
        · rcases ih (fun pc hpc => hin pc (List.mem_cons_of_mem _ hpc)) hx with ⟨pc, hpc, hm⟩
          exact ⟨pc, List.mem_cons_of_mem _ hpc, hm⟩
    rcases hlist n.children (fun pc hpc => ihc pc hpc) h0 with ⟨pc, hpc, m, hm, hwm⟩
    exact ⟨m, Occurs.child hpc hm, hwm⟩

theorem occurs_parent {m n : TriliumNoteShort} (h : Occurs m n) :
    m = n ∨ ∃ pa l, Occurs pa n ∧ (l, m) ∈ pa.children := by
  induction h with
  | refl => exact Or.inl rfl
  | @child c node l0 hmem _ ih =>
    rcases ih with h0 | ⟨pa, l, hpa, hml⟩
    · subst h0
      exact Or.inr ⟨node, l0, Occurs.refl node, hmem⟩
    · exact Or.inr ⟨pa, l, Occurs.child hmem hpa, hml⟩

/-- Per-node side conditions of the round-trip theorem, all guaranteed by
`Pull` for a freshly pulled tree: the written content file's extension maps
back to the note's mime type and that mime type has a note type; the stored
fingerprint is the hash of the content bytes written for this id (and is
absent exactly when no content file is written); the children carry
permanent ids; and the on-disk link names of the children are pairwise
distinct. -/
def NodeOK (contents : String → List Nat) (m : TriliumNoteShort) : Prop :=
  (∀ ext, contentExtension m.note_type m.mime_type = Option.some ext →
    recoverMime (CONTENT_FILENAME ++ ext) = Option.some m.mime_type ∧
    (mimetype_note_type_map.lookup m.mime_type).isSome) ∧
  (wdOf contents m).content_hash = m.content_hash ∧
  (∀ p ∈ m.children, TriliumNoteShort.IsTemporaryId p.2.id = false) ∧
  (m.children.map (fun p => linkDirectoryName (ScrubFilename p.1))).Nodup

theorem isPrefixOf_append_self (l m : List Char) : l.isPrefixOf (l ++ m) = true :=
  List.isPrefixOf_iff_prefix.mpr (List.prefix_append _ _)

theorem find_eq_of_nodup_ids {l : List WorkingData}
    (hnd : (l.map (fun w => w.id)).Nodup) {w : WorkingData} (hw : w ∈ l) :
    l.find? (fun v => v.id == w.id) = Option.some w := by
  induction l with
  | nil => cases hw
  | cons v tl ih =>
    rw [List.map_cons, List.nodup_cons] at hnd
    rcases List.mem_cons.mp hw with h0 | h0
    · subst h0
      rw [List.find?_cons_of_pos]
      rw [beq_iff_eq]
    · by_cases hb : (v.id == w.id) = true
      · exact absurd (List.mem_map.mpr ⟨w, h0, (eq_of_beq hb).symm⟩) hnd.1
      · have hfalse : (v.id == w.id) = false := by rwa [Bool.not_eq_true] at hb
        simp only [List.find?_cons, hfalse]
        exact ih hnd.2 h0

theorem nodeSize_eq (n : TriliumNoteShort) : nodeSize n = 1 + childrenSize n.children := by
  cases n with
  | mk i nt mt pi a h cs => rfl

theorem childrenIds_length_of {cs : List (String × TriliumNoteShort)}
    (h : ∀ pc ∈ cs, (allIds pc.2).length = nodeSize pc.2) :
    (childrenIds cs).length = childrenSize cs := by
  induction cs with
  | nil => rfl
  | cons hd tl ih =>
    rcases hd with ⟨l, c⟩
    rw [childrenIds, childrenSize, List.length_append,
      h (l, c) (List.mem_cons_self _ _),
      ih (fun pc hpc => h pc (List.mem_cons_of_mem _ hpc))]

theorem allIds_length : ∀ n : TriliumNoteShort, (allIds n).length = nodeSize n := by
  refine TriliumNoteShort.recChildren (fun n ihc => ?_)
  rw [allIds_eq, List.length_cons, nodeSize_eq,
    childrenIds_length_of (fun pc hpc => ihc pc hpc)]
  omega

theorem allIds_mem_occurs :
    ∀ (n : TriliumNoteShort) (x : String), x ∈ allIds n → ∃ m, Occurs m n ∧ m.id = x := by
  refine TriliumNoteShort.recChildren (fun n ihc => ?_)
  intro x hx
  rw [allIds_eq] at hx
  rcases List.mem_cons.mp hx with h0 | h0
  · exact ⟨n, Occurs.refl n, h0.symm⟩
  · have hlist : ∀ (cs : List (String × TriliumNoteShort)),
        (∀ pc ∈ cs, ∀ y ∈ allIds pc.2, ∃ m, Occurs m pc.2 ∧ m.id = y) →
        x ∈ childrenIds cs → ∃ pc ∈ cs, ∃ m, Occurs m pc.2 ∧ m.id = x := by
      intro cs
      induction cs with
      | nil => intro _ hc; cases hc
      | cons hd tl ih =>
        rcases hd with ⟨l, c⟩
        intro hin hc
        rw [childrenIds, List.mem_append] at hc
        rcases hc with hc | hc
        · exact ⟨(l, c), List.mem_cons_self _ _, hin (l, c) (List.mem_cons_self _ _) x hc⟩
        · rcases ih (fun pc hpc => hin pc (List.mem_cons_of_mem _ hpc)) hc with ⟨pc, hpc, hm⟩
          exact ⟨pc, List.mem_cons_of_mem _ hpc, hm⟩
    rcases hlist n.children (fun pc hpc => ihc pc hpc) h0 with ⟨pc, hpc, m, hm, hid⟩
    exact ⟨m, Occurs.child hpc hm, hid⟩

theorem occurs_child_target_mem {D c : TriliumNoteShort} {l : String} :
    ∀ {m : TriliumNoteShort}, Occurs m D → (l, c) ∈ m.children →
      c.id ∈ childrenIds D.children := by
  intro m hm
  induction hm with
  | refl =>
    intro hc
    exact mem_childrenIds_of_mem hc c.id (id_mem_allIds c)
  | child hmem _ ih =>
    intro hc
    refine mem_childrenIds_of_mem hmem c.id ?_
    rw [allIds_eq]
    exact List.mem_cons_of_mem _ (ih hc)

theorem mem_preWdsList {contents : String → List Nat}
    {cs : List (String × TriliumNoteShort)} {w : WorkingData}
    (h : w ∈ preWdsList contents cs) : ∃ pc ∈ cs, w ∈ preWds contents pc.2 := by
  induction cs with
  | nil => cases h
  | cons hd tl ih =>
    rcases hd with ⟨l, c⟩
    rw [preWdsList, List.mem_append] at h
    rcases h with h | h
    · exact ⟨(l, c), List.mem_cons_self _ _, h⟩
    · rcases ih h with ⟨pc, hpc, hw⟩
      exact ⟨pc, List.mem_cons_of_mem _ hpc, hw⟩

theorem lookup_isSome_of_mem_keys {α : Type} {m : List (String × α)} {x : String}
    (h : x ∈ m.map Prod.fst) : (m.lookup x).isSome := by
  rcases List.mem_map.mp h with ⟨q, hq, he⟩
  subst he
  exact lookup_isSome_of_mem hq

theorem wdOf_id (contents : String → List Nat) (m : TriliumNoteShort) :
    (wdOf contents m).id = m.id := rfl

theorem wdOf_children (contents : String → List Nat) (m : TriliumNoteShort) :
    (wdOf contents m).children =
      m.children.map (fun p => (linkDirectoryName (ScrubFilename p.1), p.2.id)) := rfl

theorem addWorkingData_links (cs : List (String × TriliumNoteShort)) :
    ∀ st : ScanItems,
      (∀ p ∈ cs, TriliumNoteShort.IsTemporaryId p.2.id = false) →
      (st.children.map Prod.fst ++
        cs.map (fun p => linkDirectoryName (ScrubFilename p.1))).Nodup →
      addWorkingData
          (cs.map (fun p => FsItem.linkDir (linkDirectoryName (ScrubFilename p.1)) p.2.id))
          st =
        .ok { st with children := (st.children ++
          cs.map (fun p => (linkDirectoryName (ScrubFilename p.1), p.2.id))) } := by
  induction cs with
  | nil =>
    intro st _ _
    simp only [List.map_nil, List.append_nil]
    rfl
  | cons p rest ih =>
    intro st htmp hnd
    simp only [List.map_cons] at hnd ⊢
    have hpre : "[link] ".data.isPrefixOf (linkDirectoryName (ScrubFilename p.1)).data
        = true := by
      rw [linkDirectoryName, String.data_append]
      exact isPrefixOf_append_self _ _
    have htmp0 := htmp p (List.mem_cons_self _ _)
    have hfresh : linkDirectoryName (ScrubFilename p.1) ∉ st.children.map Prod.fst := by
      rw [List.nodup_append] at hnd
      intro hmem
      exact hnd.2.2 hmem (List.mem_cons_self _ _)
    have hstep : scanItem st (FsItem.linkDir (linkDirectoryName (ScrubFilename p.1)) p.2.id)
        = .ok { st with children :=
            st.children ++ [(linkDirectoryName (ScrubFilename p.1), p.2.id)] } := by
      simp only [scanItem, hpre, if_true, htmp0, Bool.false_eq_true, if_false]
      rw [dictSet_fresh _ hfresh]
    rw [addWorkingData]
    simp only [hstep]
    have hnd2 : (({ st with children :=
        st.children ++ [(linkDirectoryName (ScrubFilename p.1), p.2.id)] }
          : ScanItems).children.map Prod.fst ++
        rest.map (fun p => linkDirectoryName (ScrubFilename p.1))).Nodup := by
      simp only [List.map_append, List.map_cons, List.map_nil]
      rw [List.append_assoc, List.singleton_append]
      exact hnd
    rw [ih _ (fun q hq => htmp q (List.mem_cons_of_mem _ hq)) hnd2]
    simp only [List.append_assoc, List.singleton_append]

theorem addWorkingData_serialize (contents : String → List Nat) (n : TriliumNoteShort)
    (hok : NodeOK contents n) :
    addWorkingData (serializeNote contents n) ⟨Option.none, Option.none, [], [], []⟩ =
      .ok ⟨(wdOf contents n).mime_type, (wdOf contents n).content_hash,
        n.attributes, (wdOf contents n).children, []⟩ := by
  obtain ⟨hmime, _, htmp, hlinks⟩ := hok
  rw [serializeNote]
  simp only [wdOf, wdOf_children]
  rcases hext : contentExtension n.note_type n.mime_type with _ | ext
  · simp only [List.nil_append, List.singleton_append]
    rw [addWorkingData]
    simp only [scanItem, List.isEmpty_nil, if_true, List.nil_append]
    have := addWorkingData_links n.children
      ⟨Option.none, Option.none, n.attributes, [], []⟩ htmp
      (by simpa using hlinks)
    rw [this]
    rfl
  · simp only [List.singleton_append, List.cons_append, List.nil_append]
    have hpre : CONTENT_FILENAME.data.isPrefixOf (CONTENT_FILENAME ++ ext).data = true := by
      rw [String.data_append]
      exact isPrefixOf_append_self _ _
    have hrec := (hmime ext hext).1
    rw [addWorkingData]
    simp only [scanItem, hpre, if_true, hrec]
    rw [addWorkingData]
    simp only [scanItem, List.isEmpty_nil, if_true, List.nil_append]
    have := addWorkingData_links n.children
      ⟨Option.some n.mime_type, Option.some (CalculateHash (contents n.id)),
        n.attributes, [], []⟩ htmp
      (by simpa using hlinks)
    rw [this]
    rfl

theorem serializeChildrenWalk_spec_of {contents : String → List Nat}
    {cs : List (String × TriliumNoteShort)}
    (ihc : ∀ pc ∈ cs, ∀ visited : List String, (allIds pc.2).Nodup →
      (∀ x ∈ allIds pc.2, x ∉ visited) →
      ∃ v', serializeWalk contents pc.2 visited = (v', storeSpec contents pc.2) ∧
        ∀ x, x ∈ v' ↔ (x ∈ allIds pc.2 ∨ x ∈ visited)) :
    ∀ visited : List String, (childrenIds cs).Nodup →
      (∀ x ∈ childrenIds cs, x ∉ visited) →
      ∃ v', serializeChildrenWalk contents cs visited = (v', storeSpecList contents cs) ∧
        ∀ x, x ∈ v' ↔ (x ∈ childrenIds cs ∨ x ∈ visited) := by
  induction cs with
  | nil =>
    intro visited _ _
    refine ⟨visited, rfl, fun x => ?_⟩
    rw [childrenIds]
    simp
  | cons hd tl ih =>
    rcases hd with ⟨l, c⟩
    intro visited hnd hdisj
    rw [childrenIds] at hnd hdisj
    rw [List.nodup_append] at hnd
    obtain ⟨v2, hw, hv2⟩ := ihc (l, c) (List.mem_cons_self _ _) visited hnd.1
      (fun x hx => hdisj x (List.mem_append.mpr (Or.inl hx)))
    obtain ⟨v3, hw2, hv3⟩ := ih (fun pc hpc => ihc pc (List.mem_cons_of_mem _ hpc)) v2
      hnd.2.1
      (fun x hx hm => by
        rcases (hv2 x).mp hm with hc | hvis
        · exact hnd.2.2 hc hx
        · exact hdisj x (List.mem_append.mpr (Or.inr hx)) hvis)
    refine ⟨v3, ?_, fun x => ?_⟩
    · rw [serializeChildrenWalk]
      simp only [hw, hw2]
      rw [storeSpecList]
    · rw [hv3, hv2, childrenIds, List.mem_append]
      tauto

theorem serializeWalk_spec (contents : String → List Nat) :
    ∀ n : TriliumNoteShort, ∀ visited : List String, (allIds n).Nodup →
      (∀ x ∈ allIds n, x ∉ visited) →
      ∃ v', serializeWalk contents n visited = (v', storeSpec contents n) ∧
        ∀ x, x ∈ v' ↔ (x ∈ allIds n ∨ x ∈ visited) := by
  refine TriliumNoteShort.recChildren (fun n ihc => ?_)
  intro visited hnd hdisj
  have hguard : n.id ∉ visited := hdisj n.id (id_mem_allIds n)
  rw [allIds_eq, List.nodup_cons] at hnd
  have hndc : (childrenIds n.children).Nodup := hnd.2
  have hdisj2 : ∀ x ∈ childrenIds n.children, x ∉ n.id :: visited := by
    intro x hx hm
    rcases List.mem_cons.mp hm with h0 | h0
    · exact hnd.1 (h0 ▸ hx)
    · exact hdisj x (by rw [allIds_eq]; exact List.mem_cons_of_mem _ hx) h0
  obtain ⟨v2, hw, hv2⟩ := serializeChildrenWalk_spec_of (fun pc hpc => ihc pc hpc)
    (n.id :: visited) hndc hdisj2
  cases n with
  | mk i nt mt pi a h cs =>
    refine ⟨v2, ?_, fun x => ?_⟩
    · rw [serializeWalk, if_neg hguard]
      simp only [TriliumNoteShort.children, TriliumNoteShort.id] at hw
      rw [storeSpec]
      simp only [hw]
    · rw [hv2, allIds_eq, List.mem_cons, List.mem_cons]
      tauto

theorem Serialize_eq_storeSpec (contents : String → List Nat) (D : TriliumNoteShort)
    (hnd : (allIds D).Nodup) :
    Serialize contents D = storeSpec contents D := by
  obtain ⟨v, hw, -⟩ := serializeWalk_spec contents D [] hnd
    (fun x _ => List.not_mem_nil x)
  rw [Serialize, hw]

theorem scanStore_storeSpecList_of {contents : String → List Nat} :
    ∀ cs : List (String × TriliumNoteShort),
      (∀ pc ∈ cs, (∀ m, Occurs m pc.2 → NodeOK contents m) → (allIds pc.2).Nodup →
        ∀ (rest : List (String × List FsItem)) (data : List WorkingData) (errs : List String),
          (∀ w ∈ data, w.id ∉ allIds pc.2) →
          scanStore (storeSpec contents pc.2 ++ rest) data errs =
            scanStore rest (data ++ preWds contents pc.2) errs) →
      (∀ pc ∈ cs, ∀ m, Occurs m pc.2 → NodeOK contents m) →
      (childrenIds cs).Nodup →
      ∀ (rest : List (String × List FsItem)) (data : List WorkingData) (errs : List String),
        (∀ w ∈ data, w.id ∉ childrenIds cs) →
        scanStore (storeSpecList contents cs ++ rest) data errs =
          scanStore rest (data ++ preWdsList contents cs) errs := by
  intro cs
  induction cs with
  | nil =>
    intro _ _ _ rest data errs _
    rw [storeSpecList, preWdsList, List.nil_append, List.append_nil]
  | cons hd tl ih =>
    obtain ⟨l, c⟩ := hd
    intro ihc hok hnd rest data errs hfresh
    rw [childrenIds, List.nodup_append] at hnd
    rw [storeSpecList, preWdsList, List.append_assoc]
    rw [ihc (l, c) (List.mem_cons_self _ _) (hok _ (List.mem_cons_self _ _)) hnd.1
      (storeSpecList contents tl ++ rest) data errs
      (fun w hw hx => hfresh w hw
        (by rw [childrenIds]; exact List.mem_append.mpr (Or.inl hx)))]
    have hfresh2 : ∀ w ∈ data ++ preWds contents c, w.id ∉ childrenIds tl := by
      intro w hw hx
      rcases List.mem_append.mp hw with h0 | h0
      · exact hfresh w h0 (by rw [childrenIds]; exact List.mem_append.mpr (Or.inr hx))
      · have hcid : w.id ∈ allIds c := by
          rw [← preWds_ids contents c]
          exact List.mem_map.mpr ⟨w, h0, rfl⟩
        exact hnd.2.2 hcid hx
    rw [ih (fun pc hpc => ihc pc (List.mem_cons_of_mem _ hpc))
      (fun pc hpc => hok pc (List.mem_cons_of_mem _ hpc)) hnd.2.1 rest
      (data ++ preWds contents c) errs hfresh2]
    rw [List.append_assoc]

theorem scanStore_storeSpec {contents : String → List Nat} :
    ∀ n : TriliumNoteShort,
      (∀ m, Occurs m n → NodeOK contents m) → (allIds n).Nodup →
      ∀ (rest : List (String × List FsItem)) (data : List WorkingData) (errs : List String),
        (∀ w ∈ data, w.id ∉ allIds n) →
        scanStore (storeSpec contents n ++ rest) data errs =
          scanStore rest (data ++ preWds contents n) errs := by
  refine TriliumNoteShort.recChildren (fun n ihc => ?_)
  intro hok hnd rest data errs hfresh
  rw [allIds_eq, List.nodup_cons] at hnd
  have hser := addWorkingData_serialize contents n (hok n (Occurs.refl n))
  have hany : data.any (fun w => w.id == n.id) = false := by
    rw [List.any_eq_false]
    intro w hw hb
    exact hfresh w hw (by
      rw [allIds_eq]
      exact (eq_of_beq hb) ▸ List.mem_cons_self _ _)
  have hfresh2 : ∀ w ∈ data ++
      [⟨n.id, (wdOf contents n).mime_type, (wdOf contents n).content_hash,
        n.attributes, (wdOf contents n).children⟩], w.id ∉ childrenIds n.children := by
    intro w hw hx
    rcases List.mem_append.mp hw with h0 | h0
    · exact hfresh w h0 (by rw [allIds_eq]; exact List.mem_cons_of_mem _ hx)
    · rw [List.mem_singleton] at h0
      subst h0
      exact hnd.1 hx
  cases n with
  | mk i nt mt pi a h cs =>
    rw [storeSpec, preWds, List.cons_append]
    simp only [TriliumNoteShort.id] at hser hany hfresh2 ⊢
    simp only [scanStore, hser, List.isEmpty_nil, if_true, hany, Bool.false_eq_true,
      if_false]
    rw [scanStore_storeSpecList_of cs (fun pc hpc => ihc pc hpc)
      (fun pc hpc m hm => hok m (Occurs.child hpc hm)) hnd.2 rest _ errs hfresh2]
    rw [List.append_assoc, List.singleton_append]
    rfl

theorem scanStore_spec (contents : String → List Nat) (D : TriliumNoteShort)
    (hok : ∀ m, Occurs m D → NodeOK contents m) (hnd : (allIds D).Nodup) :
    scanStore (storeSpec contents D) [] [] = .ok (preWds contents D, []) := by
  have hmain := scanStore_storeSpec D hok hnd [] [] []
    (fun w hw => absurd hw (List.not_mem_nil w))
  rw [List.append_nil] at hmain
  rw [hmain]
  rfl

/-- The ensure-entry step of the `parent_map` construction
(LocalFilesystem.py lines 102-103). -/
def pmEnsure (m : List (String × List String)) (wid : String) :
    List (String × List String) :=
  if m.any (fun q => q.1 == wid) then m else m ++ [(wid, [])]

/-- The per-child step of the `parent_map` construction (LocalFilesystem.py
lines 105-108): append the scanning id to the child target's parent list. -/
def pmInner (wid : String) (m' : List (String × List String)) (p : String × String) :
    List (String × List String) :=
  if m'.any (fun q => q.1 == p.2) then
    m'.map (fun q => if q.1 == p.2 then (q.1, q.2 ++ [wid]) else q)
  else
    m' ++ [(p.2, [wid])]

/-- One scanned directory's contribution to the `parent_map`. -/
def pmStep (m : List (String × List String)) (wd : WorkingData) :
    List (String × List String) :=
  wd.children.foldl (pmInner wd.id) (pmEnsure m wd.id)

theorem buildParentMap_eq (data : List WorkingData) :
    buildParentMap data = data.foldl pmStep [] := rfl

theorem pmInner_lookup_map (wid : String) (m' : List (String × List String)) (t x : String) :
    (m'.map (fun q => if q.1 == t then (q.1, q.2 ++ [wid]) else q)).lookup x
      = (m'.lookup x).map (fun v => if (x == t) = true then v ++ [wid] else v) := by
  have hcongr : m'.map (fun q => if q.1 == t then (q.1, q.2 ++ [wid]) else q)
      = m'.map (fun q => (q.1, if (q.1 == t) = true then q.2 ++ [wid] else q.2)) := by
    apply List.map_congr_left
    intro q _
    by_cases hq : (q.1 == t) = true <;> simp [hq]
  rw [hcongr, lookup_map_values m' (fun k v => if (k == t) = true then v ++ [wid] else v) x]

theorem pmInner_lookup_ne {x : String} (wid : String) (m' : List (String × List String))
    (p : String × String) (hne : p.2 ≠ x) :
    (pmInner wid m' p).lookup x = m'.lookup x := by
  rw [pmInner]
  have hxf : (x == p.2) = false := by
    rw [beq_eq_false_iff_ne]
    exact fun h => hne h.symm
  by_cases hc : m'.any (fun q => q.1 == p.2) = true
  · rw [if_pos hc, pmInner_lookup_map, hxf]
    simp
  · rw [if_neg hc]
    rcases hs : m'.lookup x with _ | v
    · rw [lookup_append_none hs, List.lookup_cons, hxf]
      rfl
    · exact lookup_append_some hs _

theorem pmInner_fold_lookup_ne {x : String} (wid : String) :
    ∀ (cs : List (String × String)) (m' : List (String × List String)),
      (∀ p ∈ cs, p.2 ≠ x) →
      (cs.foldl (pmInner wid) m').lookup x = m'.lookup x := by
  intro cs
  induction cs with
  | nil => intro m' _; rfl
  | cons p tl ih =>
    intro m' hne
    rw [List.foldl_cons, ih _ (fun q hq => hne q (List.mem_cons_of_mem _ hq)),
      pmInner_lookup_ne wid m' p (hne p (List.mem_cons_self _ _))]

theorem pmEnsure_lookup_ne {x : String} (m : List (String × List String)) (wid : String)
    (hne : wid ≠ x) : (pmEnsure m wid).lookup x = m.lookup x := by
  rw [pmEnsure]
  by_cases hc : m.any (fun q => q.1 == wid) = true
  · rw [if_pos hc]
  · rw [if_neg hc]
    rcases hs : m.lookup x with _ | v
    · rw [lookup_append_none hs, List.lookup_cons]
      have hxf : (x == wid) = false := by
        rw [beq_eq_false_iff_ne]
        exact fun h => hne h.symm
      rw [hxf]
      rfl
    · exact lookup_append_some hs _

theorem pmEnsure_lookup_none (m : List (String × List String)) (wid : String)
    (hnone : m.lookup wid = Option.none) :
    (pmEnsure m wid).lookup wid = Option.some ([] : List String) := by
  rw [pmEnsure]
  have hc : m.any (fun q => q.1 == wid) = false := by
    rw [List.any_eq_false]
    intro q hq hb
    have hs := lookup_isSome_of_mem hq
    rw [eq_of_beq hb, hnone] at hs
    cases hs
  rw [hc]
  simp only [Bool.false_eq_true, if_false]
  rw [lookup_append_none hnone, List.lookup_cons]
  simp

theorem buildParentMap_fold_root {x : String} :
    ∀ (data : List WorkingData) (m : List (String × List String)),
      (∀ w ∈ data, ∀ p ∈ w.children, p.2 ≠ x) →
      (m.lookup x = Option.some [] ∨ (m.lookup x = Option.none ∧ ∃ w ∈ data, w.id = x)) →
      (data.foldl pmStep m).lookup x = Option.some [] := by
  intro data
  induction data with
  | nil =>
    intro m _ hm
    rcases hm with h | ⟨_, w, hw, _⟩
    · exact h
    · cases hw
  | cons wd tl ih =>
    intro m hnotgt hm
    rw [List.foldl_cons]
    apply ih _ (fun w hw p hp => hnotgt w (List.mem_cons_of_mem _ hw) p hp)
    have hinner := pmInner_fold_lookup_ne (x := x) wd.id wd.children (pmEnsure m wd.id)
      (hnotgt wd (List.mem_cons_self _ _))
    rcases hm with h | ⟨hn, w, hw, hid⟩
    · left
      rw [pmStep, hinner]
      by_cases he : wd.id = x
      · subst he
        rw [pmEnsure]
        have hc : m.any (fun q => q.1 == wd.id) = true :=
          List.any_eq_true.mpr ⟨(wd.id, []), mem_of_lookup_eq_some h, by simp⟩
        rw [if_pos hc]
        exact h
      · rw [pmEnsure_lookup_ne m wd.id he]
        exact h
    · by_cases he : wd.id = x
      · left
        rw [pmStep, hinner]
        subst he
        exact pmEnsure_lookup_none m wd.id hn
      · right
        constructor
        · rw [pmStep, hinner, pmEnsure_lookup_ne m wd.id he]
          exact hn
        · rcases List.mem_cons.mp hw with h0 | h0
          · exact absurd (h0 ▸ hid) he
          · exact ⟨w, h0, hid⟩

theorem buildParentMap_root (data : List WorkingData) (x : String)
    (hnotgt : ∀ w ∈ data, ∀ p ∈ w.children, p.2 ≠ x)
    (hmem : ∃ w ∈ data, w.id = x) :
    (buildParentMap data).lookup x = Option.some [] := by
  rw [buildParentMap_eq]
  exact buildParentMap_fold_root data [] hnotgt (Or.inr ⟨rfl, hmem⟩)

theorem pmInner_target {x : String} (wid : String) (m' : List (String × List String))
    (p : String × String) (hp : p.2 = x) :
    ∃ v, (pmInner wid m' p).lookup x = Option.some v ∧ v ≠ [] := by
  subst hp
  rw [pmInner]
  by_cases hc : m'.any (fun q => q.1 == p.2) = true
  · rw [if_pos hc]
    rcases List.any_eq_true.mp hc with ⟨q, hq, hb⟩
    have hs := lookup_isSome_of_mem hq
    rw [eq_of_beq hb] at hs
    rcases Option.isSome_iff_exists.mp hs with ⟨v0, hv0⟩
    refine ⟨v0 ++ [wid], ?_, by simp⟩
    rw [pmInner_lookup_map, hv0]
    simp
  · rw [if_neg hc]
    have hnone : m'.lookup p.2 = Option.none := by
      apply lookup_eq_none_of_not_mem_keys
      intro hk
      rcases List.mem_map.mp hk with ⟨q, hq, he⟩
      have := List.any_eq_false.mp (Bool.not_eq_true _ |>.mp hc) q hq
      rw [beq_iff_eq] at this
      exact this he
    refine ⟨[wid], ?_, by simp⟩
    rw [lookup_append_none hnone, List.lookup_cons]
    simp

theorem pmInner_preserves {x : String} (wid : String) (m' : List (String × List String))
    (p : String × String) (hQ : ∃ v, m'.lookup x = Option.some v ∧ v ≠ []) :
    ∃ v, (pmInner wid m' p).lookup x = Option.some v ∧ v ≠ [] := by
  by_cases hp : p.2 = x
  · exact pmInner_target wid m' p hp
  · rcases hQ with ⟨v, hv, hne⟩
    exact ⟨v, by rw [pmInner_lookup_ne wid m' p hp, hv], hne⟩

theorem pmInner_fold_establish {x : String} (wid : String) :
    ∀ (cs : List (String × String)) (m' : List (String × List String)),
      ((∃ p ∈ cs, p.2 = x) ∨ (∃ v, m'.lookup x = Option.some v ∧ v ≠ [])) →
      ∃ v, (cs.foldl (pmInner wid) m').lookup x = Option.some v ∧ v ≠ [] := by
  intro cs
  induction cs with
  | nil =>
    intro m' hm
    rcases hm with ⟨p, hp, _⟩ | hQ
    · cases hp
    · exact hQ
  | cons p tl ih =>
    intro m' hm
    rw [List.foldl_cons]
    rcases hm with ⟨q, hq, hqx⟩ | hQ
    · rcases List.mem_cons.mp hq with h0 | h0
      · subst h0
        exact ih _ (Or.inr (pmInner_target wid m' q hqx))
      · exact ih _ (Or.inl ⟨q, h0, hqx⟩)
    · exact ih _ (Or.inr (pmInner_preserves wid m' p hQ))

theorem pmEnsure_preserves {x : String} (m : List (String × List String)) (wid : String)
    (hQ : ∃ v, m.lookup x = Option.some v ∧ v ≠ []) :
    ∃ v, (pmEnsure m wid).lookup x = Option.some v ∧ v ≠ [] := by
  rcases hQ with ⟨v, hv, hne⟩
  by_cases he : wid = x
  · subst he
    rw [pmEnsure]
    have hc : m.any (fun q => q.1 == wid) = true :=
      List.any_eq_true.mpr ⟨(wid, v), mem_of_lookup_eq_some hv, by simp⟩
    rw [if_pos hc]
    exact ⟨v, hv, hne⟩
  · exact ⟨v, by rw [pmEnsure_lookup_ne m wid he, hv], hne⟩

theorem buildParentMap_fold_target {x : String} :
    ∀ (data : List WorkingData) (m : List (String × List String)),
      ((∃ w ∈ data, ∃ p ∈ w.children, p.2 = x) ∨
        (∃ v, m.lookup x = Option.some v ∧ v ≠ [])) →
      ∃ v, (data.foldl pmStep m).lookup x = Option.some v ∧ v ≠ [] := by
  intro data
  induction data with
  | nil =>
    intro m hm
    rcases hm with ⟨w, hw, _⟩ | hQ
    · cases hw
    · exact hQ
  | cons wd tl ih =>
    intro m hm
    rw [List.foldl_cons]
    rcases hm with ⟨w, hw, p, hp, hpx⟩ | hQ
    · rcases List.mem_cons.mp hw with h0 | h0
      · subst h0
        refine ih _ (Or.inr ?_)
        rw [pmStep]
        exact pmInner_fold_establish w.id w.children _ (Or.inl ⟨p, hp, hpx⟩)
      · exact ih _ (Or.inl ⟨w, h0, p, hp, hpx⟩)
    · refine ih _ (Or.inr ?_)
      rw [pmStep]
      exact pmInner_fold_establish wd.id wd.children _ (Or.inr (pmEnsure_preserves m wd.id hQ))

theorem buildParentMap_target (data : List WorkingData) (x : String)
    (hmem : ∃ w ∈ data, ∃ p ∈ w.children, p.2 = x) :
    ∃ v, (buildParentMap data).lookup x = Option.some v ∧ v ≠ [] := by
  rw [buildParentMap_eq]
  exact buildParentMap_fold_target data [] (Or.inl hmem)

theorem wdOf_mime (contents : String → List Nat) (m : TriliumNoteShort) :
    (wdOf contents m).mime_type =
      (match contentExtension m.note_type m.mime_type with
       | Option.some _ => Option.some m.mime_type
       | Option.none => Option.none) := rfl

theorem wdOf_attrs (contents : String → List Nat) (m : TriliumNoteShort) :
    (wdOf contents m).attributes = m.attributes := rfl

theorem RT_eq (n t : TriliumNoteShort) :
    RT n t ↔ (t.id = n.id ∧ t.content_hash = n.content_hash ∧
      t.attributes = n.attributes ∧ RTchildren n.children t.children) := by
  cases n with
  | mk i nt mt pi a h cs => exact Iff.rfl

/-- Memo-table invariant of the round-trip run of `CreateNote`: every cached
note is keyed by its own id, carries the parent-map entry as its parent
list, and is the round-trip image of the tree node bearing that id. -/
def CInv (contents : String → List Nat) (D : TriliumNoteShort)
    (lk : List (String × TriliumNoteShort)) : Prop :=
  LkInv (buildParentMap (preWds contents D)) lk ∧
  ∀ p ∈ lk, ∃ m, Occurs m D ∧ p.1 = m.id ∧ RT m p.2

theorem noteTypeFor_wdOf (contents : String → List Nat) {m : TriliumNoteShort}
    (hok : NodeOK contents m) : ∃ ty, noteTypeFor (wdOf contents m) = .ok ty := by
  rcases hext : contentExtension m.note_type m.mime_type with _ | ext
  · have hm0 : (wdOf contents m).mime_type = Option.none := by
      rw [wdOf_mime, hext]
    rw [noteTypeFor, hm0]
    simp only [Option.getD_none]
    exact ⟨"", if_pos trivial⟩
  · obtain ⟨-, hsome⟩ := hok.1 ext hext
    have hm0 : (wdOf contents m).mime_type = Option.some m.mime_type := by
      rw [wdOf_mime, hext]
    rw [noteTypeFor, hm0]
    simp only [Option.getD_some]
    by_cases hemp : m.mime_type = ""
    · rw [if_pos hemp]
      exact ⟨"", rfl⟩
    · rw [if_neg hemp]
      rcases Option.isSome_iff_exists.mp hsome with ⟨ty, hty⟩
      rw [hty]
      exact ⟨ty, rfl⟩

theorem createNote_rt (contents : String → List Nat) (D : TriliumNoteShort)
    (hnd : (allIds D).Nodup) (hok : ∀ m, Occurs m D → NodeOK contents m) :
    ∀ (fuel : Nat) (m : TriliumNoteShort) (lk : List (String × TriliumNoteShort)),
      Occurs m D → nodeSize m < fuel → CInv contents D lk →
      (∀ x ∈ allIds m, x ∉ lk.map Prod.fst) →
      ∃ t lk',
        createNote (preWds contents D) (buildParentMap (preWds contents D)) fuel lk
          (wdOf contents m) = .ok (t, lk') ∧
        RT m t ∧ t.id = m.id ∧
        (buildParentMap (preWds contents D)).lookup m.id = Option.some t.parent_ids ∧
        CInv contents D lk' ∧
        lk'.map Prod.fst = lk.map Prod.fst ++ postIds m := by
  have hndids : ((preWds contents D).map (fun w => w.id)).Nodup := by
    rw [preWds_ids]
    exact hnd
  intro fuel
  induction fuel with
  | zero =>
    intro m lk _ hs _ _
    omega
  | succ fuel ih =>
    intro m lk hocc hsize hinv hfresh
    have hmnodup : (allIds m).Nodup := occurs_nodup hocc hnd
    rw [createNote]
    have hmiss : lk.lookup (wdOf contents m).id = Option.none := by
      rw [wdOf_id]
      exact lookup_eq_none_of_not_mem_keys (hfresh m.id (id_mem_allIds m))
    obtain ⟨ty, hty⟩ := noteTypeFor_wdOf contents (hok m hocc)
    have hpmS := buildParentMap_keys_mono (preWds contents D) (wdOf contents m)
      (occurs_mem_preWds hocc)
    rcases hps : (buildParentMap (preWds contents D)).lookup (wdOf contents m).id
      with _ | parents
    · rw [hps] at hpmS
      cases hpmS
    · have hfold : ∀ cs : List (String × TriliumNoteShort),
          (∀ q ∈ cs, q ∈ m.children) → (childrenIds cs).Nodup →
          ∀ lk0 : List (String × TriliumNoteShort), CInv contents D lk0 →
          (∀ x ∈ childrenIds cs, x ∉ lk0.map Prod.fst) →
          ∃ acc lk1,
            createChildrenFold (preWds contents D)
              (createNote (preWds contents D) (buildParentMap (preWds contents D)) fuel)
              (cs.map (fun p => (linkDirectoryName (ScrubFilename p.1), p.2.id))) lk0 =
              .ok (acc, lk1) ∧
            RTchildren cs acc ∧ CInv contents D lk1 ∧
            lk1.map Prod.fst = lk0.map Prod.fst ++ postListIds cs := by
        intro cs
        induction cs with
        | nil =>
          intro _ _ lk0 hinv0 _
          exact ⟨[], lk0, rfl, rfl, hinv0, by rw [postListIds, List.append_nil]⟩
        | cons p tl ihcs =>
          obtain ⟨pl, pc⟩ := p
          intro hsub hndc lk0 hinv0 hfresh0
          rw [childrenIds, List.nodup_append] at hndc
          have hpocc : Occurs pc D :=
            occurs_child_of hocc (hsub (pl, pc) (List.mem_cons_self _ _))
          have hpsize : nodeSize pc < fuel := by
            have h1 : nodeSize pc < nodeSize m :=
              nodeSize_lt_of_mem_children (hsub (pl, pc) (List.mem_cons_self _ _))
            omega
          obtain ⟨tc, lk2, hcn, hrt, htcid, hpmc, hinv2, hkeys2⟩ := ih pc lk0 hpocc hpsize
            hinv0
            (fun x hx => hfresh0 x (by
              rw [childrenIds]
              exact List.mem_append.mpr (Or.inl hx)))
          have hfresh2 : ∀ x ∈ childrenIds tl, x ∉ lk2.map Prod.fst := by
            intro x hx hm2
            rw [hkeys2, List.mem_append] at hm2
            rcases hm2 with h0 | h0
            · exact hfresh0 x (by
                rw [childrenIds]
                exact List.mem_append.mpr (Or.inr hx)) h0
            · rw [mem_postIds] at h0
              exact hndc.2.2 h0 hx
          obtain ⟨acc2, lk3, hrest, hrtc, hinv3, hkeys3⟩ := ihcs
            (fun q hq => hsub q (List.mem_cons_of_mem _ hq)) hndc.2.1 lk2 hinv2 hfresh2
          refine ⟨(linkDirectoryName (ScrubFilename pl), tc) :: acc2, lk3, ?_, ?_, hinv3, ?_⟩
          · rw [List.map_cons, createChildrenFold]
            have hfind := find_eq_of_nodup_ids hndids (occurs_mem_preWds hpocc)
            rw [wdOf_id] at hfind
            simp only [hfind, hcn, hrest]
          · simp only [RTchildren]
            exact ⟨by trivial, hrt, hrtc⟩
          · rw [hkeys3, hkeys2, postListIds, List.append_assoc]
      obtain ⟨acc, lk1, hcf, hrtc, hinv1, hkeys1⟩ := hfold m.children (fun q hq => hq)
        (by rw [allIds_eq, List.nodup_cons] at hmnodup; exact hmnodup.2) lk hinv
        (fun x hx => hfresh x (by
          rw [allIds_eq]
          exact List.mem_cons_of_mem _ hx))
      simp only [hmiss, hty, hps, wdOf_children, hcf]
      refine ⟨_, _, rfl, ?_, rfl, hps, ⟨?_, ?_⟩, ?_⟩
      · rw [RT_eq]
        exact ⟨rfl, (hok m hocc).2.1, rfl, hrtc⟩
      · intro q hq
        rcases List.mem_append.mp hq with h0 | h0
        · exact hinv1.1 q h0
        · rw [List.mem_singleton] at h0
          subst h0
          exact ⟨rfl, hps⟩
      · intro q hq
        rcases List.mem_append.mp hq with h0 | h0
        · exact hinv1.2 q h0
        · rw [List.mem_singleton] at h0
          subst h0
          refine ⟨m, hocc, rfl, ?_⟩
          rw [RT_eq]
          exact ⟨rfl, (hok m hocc).2.1, rfl, hrtc⟩
      · rw [List.map_append, hkeys1, postIds_eq, List.append_assoc]
        rfl

theorem organizeNotes_rt (contents : String → List Nat) (D : TriliumNoteShort)
    (hnd : (allIds D).Nodup) (hok : ∀ m, Occurs m D → NodeOK contents m) :
    ∃ t, organizeNotes (preWds contents D) = .ok t ∧ RT D t := by
  have hnd' := hnd
  rw [allIds_eq, List.nodup_cons] at hnd'
  have hlen : (preWds contents D).length = nodeSize D := by
    rw [← allIds_length D, ← preWds_ids contents D, List.length_map]
  obtain ⟨t, lk1, hcn, hrtD, htid, hpmD, hinv1, hkeys1⟩ :=
    createNote_rt contents D hnd hok ((preWds contents D).length + 1) D []
      (Occurs.refl D) (by omega)
      ⟨fun p hp => absurd hp (List.not_mem_nil p), fun p hp => absurd hp (List.not_mem_nil p)⟩
      (fun x _ hx => absurd hx (List.not_mem_nil x))
  have hkeys1' : lk1.map Prod.fst = postIds D := by
    rw [hkeys1]
    rfl
  have hnotgt : ∀ w ∈ preWds contents D, ∀ p ∈ w.children, p.2 ≠ D.id := by
    intro w hw p hp
    obtain ⟨mw, hmw, hweq⟩ := mem_preWds D w hw
    subst hweq
    rw [wdOf_children] at hp
    rcases List.mem_map.mp hp with ⟨q, hq, hqe⟩
    obtain ⟨ql, qc⟩ := q
    have hcid : qc.id ∈ childrenIds D.children := occurs_child_target_mem hmw hq
    intro hcontra
    rw [← hqe] at hcontra
    exact hnd'.1 (hcontra ▸ hcid)
  have hpmroot : (buildParentMap (preWds contents D)).lookup D.id = Option.some [] :=
    buildParentMap_root (preWds contents D) D.id hnotgt
      ⟨wdOf contents D, by rw [preWds_eq]; exact List.mem_cons_self _ _, wdOf_id contents D⟩
  have htpar : t.parent_ids = [] := by
    rw [hpmroot] at hpmD
    injection hpmD with h0
    exact h0.symm
  have htarget : ∀ x ∈ childrenIds D.children,
      ∃ w' ∈ preWds contents D, ∃ p ∈ w'.children, p.2 = x := by
    intro x hx
    have hxall : x ∈ allIds D := by
      rw [allIds_eq]
      exact List.mem_cons_of_mem _ hx
    obtain ⟨mx, hmx, hmxid⟩ := allIds_mem_occurs D x hxall
    rcases occurs_parent hmx with h0 | ⟨pa, l, hpa, hml⟩
    · subst h0
      rw [← hmxid] at hx
      exact absurd hx hnd'.1
    · refine ⟨wdOf contents pa, occurs_mem_preWds hpa,
        (linkDirectoryName (ScrubFilename l), mx.id), ?_, hmxid⟩
      rw [wdOf_children]
      exact List.mem_map.mpr ⟨(l, mx), hml, rfl⟩
  have hrest : ∀ ws : List WorkingData,
      (∀ w ∈ ws, w.id ∈ childrenIds D.children ∧ w.id ∈ lk1.map Prod.fst) →
      ∀ roots : List TriliumNoteShort,
        ws.foldl (organizeStep (preWds contents D) (buildParentMap (preWds contents D)))
          (.ok (lk1, roots)) = .ok (lk1, roots) := by
    intro ws
    induction ws with
    | nil => intro _ roots; rfl
    | cons w tl ihw =>
      intro hmemw roots
      rw [List.foldl_cons]
      obtain ⟨hcid, hkey⟩ := hmemw w (List.mem_cons_self _ _)
      have hsome := lookup_isSome_of_mem_keys hkey
      rcases hlu : lk1.lookup w.id with _ | tc
      · rw [hlu] at hsome
        cases hsome
      · have hcn2 : createNote (preWds contents D) (buildParentMap (preWds contents D))
            ((preWds contents D).length + 1) lk1 w = .ok (tc, lk1) := by
          rw [createNote]
          simp only [hlu]
        rw [organizeStep, hcn2]
        have hq := hinv1.1 (w.id, tc) (mem_of_lookup_eq_some hlu)
        obtain ⟨v, hv, hvne⟩ := buildParentMap_target (preWds contents D) w.id
          (htarget w.id hcid)
        have hne : tc.parent_ids.isEmpty = false := by
          rw [hq.2] at hv
          injection hv with hv0
          rw [← hv0] at hvne
          rcases hpar : tc.parent_ids with _ | ⟨a, as⟩
          · rw [hpar] at hvne
            simp at hvne
          · rfl
        simp only [hne, Bool.false_eq_true, if_false]
        exact ihw (fun q hq2 => hmemw q (List.mem_cons_of_mem _ hq2)) roots
  have hmems : ∀ w ∈ preWdsList contents D.children,
      w.id ∈ childrenIds D.children ∧ w.id ∈ lk1.map Prod.fst := by
    intro w hw
    obtain ⟨pc, hpc, hw2⟩ := mem_preWdsList hw
    obtain ⟨mw, hmw, hweq⟩ := mem_preWds pc.2 w hw2
    subst hweq
    obtain ⟨pcl, pcc⟩ := pc
    constructor
    · exact mem_childrenIds_of_mem hpc (mw.id) (occurs_id_mem hmw)
    · rw [hkeys1', wdOf_id]
      rw [mem_postIds]
      exact occurs_id_mem (Occurs.child hpc hmw)
  have hfoldD : (preWds contents D).foldl
      (organizeStep (preWds contents D) (buildParentMap (preWds contents D)))
      (.ok ([], [])) = .ok (lk1, [t]) := by
    nth_rewrite 3 [preWds_eq]
    rw [List.foldl_cons, organizeStep, hcn]
    simp only [htpar, List.isEmpty_nil, if_true, List.nil_append]
    exact hrest (preWdsList contents D.children) hmems [t]
  refine ⟨t, ?_, hrtD⟩
  rw [organizeNotes, hfoldD]

/-- **C1 (amended).**  Serializing a pulled tree to the flat store and
reloading it through `LocalFilesystem.GetNotes` succeeds and yields a tree
with the same node ids, the same content fingerprints, the same ordered
attribute lists, and child edges to the same child ids in the same order —
but each reloaded link name is the on-disk entry name
`[link] <scrubbed original name>` rather than the original link name
(`_AddWorkingData` records the child under the full item name,
LocalFilesystem.py line 243).  Hypotheses: node ids are unique; for each
node the written content extension maps back to its mime type, the stored
fingerprint matches the written bytes, child ids are permanent, and the
on-disk link names of its children are distinct — all of which hold for a
store freshly written by `Pull`. -/
theorem pull_roundtrip (contents : String → List Nat) (D : TriliumNoteShort)
    (hnd : (allIds D).Nodup) (hok : ∀ m, Occurs m D → NodeOK contents m) :
    ∃ t, localGetNotes (Serialize contents D) = .ok (Option.some t) ∧ RT D t := by
  obtain ⟨t, horg, hrt⟩ := organizeNotes_rt contents D hnd hok
  refine ⟨t, ?_, hrt⟩
  rw [Serialize_eq_storeSpec contents D hnd, localGetNotes,
    scanStore_spec contents D hok hnd]
  simp only [List.isEmpty_nil, if_true, horg]

theorem c1w_occ {x : TriliumNoteShort} (h : Occurs x c1D) : x = c1D ∨ x = c1C := by
  cases h with
  | refl => exact Or.inl rfl
  | child hmem hp =>
    rename_i c l
    have hc : c = c1C := by
      have he : c1D.children = [("c", c1C)] := rfl
      rw [he] at hmem
      have h0 := List.mem_singleton.mp hmem
      injection h0 with h1 h2
    subst hc
    cases hp with
    | refl => exact Or.inr rfl
    | child hmem2 hp2 =>
      have he : c1C.children = [] := rfl
      rw [he] at hmem2
      cases hmem2

theorem c1w_ok : ∀ m, Occurs m c1D → NodeOK c1contents m := by
  intro m hm
  rcases c1w_occ hm with h | h <;> subst h
  · refine ⟨?_, by decide, by decide, by decide⟩
    intro ext hext
    have hd : contentExtension c1D.note_type c1D.mime_type = Option.some ".html" := by
      decide
    rw [hd] at hext
    injection hext with h0
    subst h0
    exact ⟨by decide, by decide⟩
  · refine ⟨?_, by decide, by decide, by decide⟩
    intro ext hext
    have hd : contentExtension c1C.note_type c1C.mime_type = Option.some ".html" := by
      decide
    rw [hd] at hext
    injection hext with h0
    subst h0
    exact ⟨by decide, by decide⟩

/-- The amended round-trip theorem applied to the counterexample's concrete
tree: the reload succeeds and the result is round-trip-related to the
original. -/
theorem pull_roundtrip_witness :
    (allIds c1D).Nodup ∧
    ∃ t, localGetNotes (Serialize c1contents c1D) = .ok (Option.some t) ∧ RT c1D t :=
  ⟨by decide, pull_roundtrip c1contents c1D (by decide) c1w_ok⟩

end TriliumDev
